import Mathlib

/-!
Verification development for the hybrid retrieval-augmented QA service
(`src/rag/hybrid_fusion.py`, `src/rag/citations.py`, `src/rag/qa.py`,
`src/rag/bm25_fts.py`, `src/rag/ingest.py`, `src/api/routes_debug.py`,
`src/api/routes_ingest.py`).

Modelling conventions:
- Python strings are `List Char`; Python floats are `ℚ` (every arithmetic
  operation appearing in the modelled code is of the form `w / (k + rank)` or a
  sum of at most two such terms, where exact rational arithmetic and IEEE
  arithmetic produce identical comparisons on the inputs considered);
- Python ints are `ℤ` (chunk ids) or `ℕ` (counts, extracted citation ids,
  which come from `\d+` and are therefore non-negative);
- Python dicts keyed by chunk id are insertion-ordered association lists,
  mirroring CPython's ordered dicts;
- `list.sort(key=..., reverse=True)` is a stable descending sort, modelled by
  a structural stable insertion sort (`stableSort`), which produces the unique
  stable order and kernel-reduces on concrete inputs.
-/

set_option maxRecDepth 10000

namespace HybridRag

/-! ## Generic list helpers -/

/-- Stable insertion of `a` into `l`: `a` is placed before the first element
`b` with `le a b`.  For a total `le` this yields the unique stable sort. -/
def insertStable (le : α → α → Bool) (a : α) : List α → List α
  | [] => [a]
  | b :: bs => if le a b then a :: b :: bs else b :: insertStable le a bs

/-- Stable sort (model of CPython's stable `list.sort`): for a total `le`,
elements are ordered by `le` and elements equivalent under `le` keep their
original relative order. -/
def stableSort (le : α → α → Bool) : List α → List α
  | [] => []
  | a :: as => insertStable le a (stableSort le as)

/-- First-occurrence deduplication (order of Python's `dict`/`set` iteration
when keys are inserted in list order). -/
def dedupKeepFirst [DecidableEq α] : List α → List α
  | [] => []
  | a :: as => a :: (dedupKeepFirst as).filter (fun x => x ≠ a)

/-! ## `src/rag/hybrid_fusion.py` -/

/-- One element of `bm25_results` / `vec_results` as consumed by `rrf_fuse`:
a row dict with keys `chunk_id`, `text`, `filename`, `metadata`,
`bm25_score` / `vec_score`.  Of `metadata` only the `chunk_index` key is ever
read downstream, so the map is modelled by that single optional entry. -/
structure ResultItem where
  chunk_id : ℤ
  text : List Char
  filename : List Char
  metadata_chunk_index : Option ℤ
  bm25_score : Option ℚ
  vec_score : Option ℚ
deriving DecidableEq, Repr

/-- A value of the `fused` dict built by `rrf_fuse`. -/
structure FusedItem where
  chunk_id : ℤ
  text : List Char
  filename : List Char
  metadata_chunk_index : Option ℤ
  bm25_score : Option ℚ
  vec_score : Option ℚ
  fused_score : ℚ
deriving DecidableEq, Repr

/-- `cid in fused` (Python dict membership; the dict is keyed by chunk id). -/
def fusedContains (cid : ℤ) (fused : List FusedItem) : Bool :=
  fused.any (fun e => e.chunk_id = cid)

/-- `fused[cid]["fused_score"] += add`.  The dict holds at most one entry per
key (entries are only appended when the key is absent), so updating every
matching entry coincides with the dict update. -/
def fusedAddScore (cid : ℤ) (add : ℚ) (fused : List FusedItem) : List FusedItem :=
  fused.map (fun e => if e.chunk_id = cid then { e with fused_score := e.fused_score + add } else e)

/-- `fused[cid]["vec_score"] = v` (same remark as `fusedAddScore`). -/
def fusedSetVec (cid : ℤ) (v : Option ℚ) (fused : List FusedItem) : List FusedItem :=
  fused.map (fun e => if e.chunk_id = cid then { e with vec_score := v } else e)

/-- The fresh dict value inserted by the bm25 loop for an unseen chunk id. -/
def bmInit (item : ResultItem) : FusedItem :=
  { chunk_id := item.chunk_id, text := item.text, filename := item.filename,
    metadata_chunk_index := item.metadata_chunk_index,
    bm25_score := item.bm25_score, vec_score := none, fused_score := 0 }

/-- The fresh dict value inserted by the vector loop for an unseen chunk id. -/
def vecInit (item : ResultItem) : FusedItem :=
  { chunk_id := item.chunk_id, text := item.text, filename := item.filename,
    metadata_chunk_index := item.metadata_chunk_index,
    bm25_score := none, vec_score := item.vec_score, fused_score := 0 }

/-- First loop of `rrf_fuse`: `for rank, item in enumerate(bm25_results, start=1)`. -/
def rrfLoopBm25 (rrf_k w_bm25 : ℚ) : List ResultItem → ℕ → List FusedItem → List FusedItem
  | [], _, fused => fused
  | item :: rest, rank, fused =>
    let add := w_bm25 / (rrf_k + (rank : ℚ))
    let fused' := if fusedContains item.chunk_id fused then fused
      else fused ++ [bmInit item]
    rrfLoopBm25 rrf_k w_bm25 rest (rank + 1) (fusedAddScore item.chunk_id add fused')

/-- Second loop of `rrf_fuse`: `for rank, item in enumerate(vec_results, start=1)`. -/
def rrfLoopVec (rrf_k w_vec : ℚ) : List ResultItem → ℕ → List FusedItem → List FusedItem
  | [], _, fused => fused
  | item :: rest, rank, fused =>
    let add := w_vec / (rrf_k + (rank : ℚ))
    let fused' := if fusedContains item.chunk_id fused then
        fusedSetVec item.chunk_id item.vec_score fused
      else fused ++ [vecInit item]
    rrfLoopVec rrf_k w_vec rest (rank + 1) (fusedAddScore item.chunk_id add fused')

/-- Comparison used by `merged.sort(key=lambda x: x["fused_score"], reverse=True)`:
stable descending order on `fused_score`. -/
def fusedLe (a b : FusedItem) : Bool := decide (b.fused_score ≤ a.fused_score)

/-- `rrf_fuse` from `src/rag/hybrid_fusion.py`. -/
def rrf_fuse (bm25_results vec_results : List ResultItem)
    (rrf_k : ℚ := 60) (w_bm25 : ℚ := 1) (w_vec : ℚ := 1) (top_k : ℕ := 8) :
    List FusedItem :=
  let fused := rrfLoopBm25 rrf_k w_bm25 bm25_results 1 []
  let fused := rrfLoopVec rrf_k w_vec vec_results 1 fused
  (stableSort fusedLe fused).take top_k

/-! ### Specification-side definitions for reciprocal-rank fusion (C1) -/

/-- Keys of the fused dict, in insertion order. -/
def fusedKeys (l : List FusedItem) : List ℤ := l.map (fun e => e.chunk_id)

/-- Projection of the fused dict to `(chunk_id, fused_score)` pairs. -/
def fusedProj (l : List FusedItem) : List (ℤ × ℚ) := l.map (fun e => (e.chunk_id, e.fused_score))

/-- 0-based index of `c` in `ids`, `none` when absent. -/
def idxOf : List ℤ → ℤ → Option ℕ
  | [], _ => none
  | x :: xs, c => if x = c then some 0 else (idxOf xs c).map (· + 1)

/-- The RRF score formula from the spec: `w_lex/(rrf_k + rank_in_L) +
w_vec/(rrf_k + rank_in_V)` with 1-based ranks, a missing rank contributing 0. -/
def rrfSpecScore (rrf_k w_lex w_vec : ℚ) (L V : List ℤ) (c : ℤ) : ℚ :=
  (match idxOf L c with
   | some i => w_lex / (rrf_k + ((i + 1 : ℕ) : ℚ))
   | none => 0) +
  (match idxOf V c with
   | some i => w_vec / (rrf_k + ((i + 1 : ℕ) : ℚ))
   | none => 0)

/-- Order of C1 as claimed: fused score descending, ties broken by chunk id
ascending. -/
def claimTieLe (a b : ℤ × ℚ) : Bool :=
  decide (b.2 < a.2 ∨ (a.2 = b.2 ∧ a.1 ≤ b.1))

/-- Order on `(chunk_id, fused_score)` pairs: fused score descending, stable. -/
def pairLe (a b : ℤ × ℚ) : Bool := decide (b.2 ≤ a.2)

/-- RRF fusion exactly as claim C1 states it: score every chunk id appearing in
either ranking with the spec formula, sort by fused score descending breaking
ties by chunk id ascending, return the first `final_k`. -/
def rrfFuseClaimSpec (rrf_k w_lex w_vec : ℚ) (L V : List ℤ) (final_k : ℕ) :
    List (ℤ × ℚ) :=
  let ids := dedupKeepFirst (L ++ V)
  (stableSort claimTieLe (ids.map (fun c => (c, rrfSpecScore rrf_k w_lex w_vec L V c)))).take final_k

/-- RRF fusion as amended: the same scores, sorted by fused score descending,
but with ties broken by insertion order (all ids of the lexical ranking in
order, then the remaining ids of the vector ranking in order) as produced by a
stable sort. -/
def rrfFuseStableSpec (rrf_k w_lex w_vec : ℚ) (L V : List ℤ) (final_k : ℕ) :
    List (ℤ × ℚ) :=
  let ids := dedupKeepFirst (L ++ V)
  (stableSort pairLe (ids.map (fun c => (c, rrfSpecScore rrf_k w_lex w_vec L V c)))).take final_k

/-- Proof-side accumulator: the total contribution `Σ w/(rrf_k + rank)` of the
occurrences of chunk id `c` in a result list whose first element has rank
`rank`. -/
def rrfContrib (rrf_k w : ℚ) : List ResultItem → ℕ → ℤ → ℚ
  | [], _, _ => 0
  | item :: rest, rank, c =>
    (if item.chunk_id = c then w / (rrf_k + (rank : ℚ)) else 0) +
      rrfContrib rrf_k w rest (rank + 1) c

/-- Proof-side accumulator: the `(chunk_id, fused_score)` rows appended by the
bm25 loop when started on fresh keys. -/
def bmRanksProj (rrf_k w : ℚ) : List ResultItem → ℕ → List (ℤ × ℚ)
  | [], _ => []
  | item :: rest, rank =>
    (item.chunk_id, w / (rrf_k + (rank : ℚ))) :: bmRanksProj rrf_k w rest (rank + 1)

/-- Proof-side accumulator: the `(chunk_id, fused_score)` rows appended by the
vector loop for ids not already present in `keys`. -/
def vecNewProj (rrf_k w : ℚ) (keys : List ℤ) : List ResultItem → ℕ → List (ℤ × ℚ)
  | [], _ => []
  | item :: rest, rank =>
    if item.chunk_id ∈ keys then vecNewProj rrf_k w keys rest (rank + 1)
    else (item.chunk_id, w / (rrf_k + (rank : ℚ))) :: vecNewProj rrf_k w keys rest (rank + 1)

/-! ## `src/rag/bm25_fts.py` — `make_bm25_query` -/

/-- Python whitespace (`\s`, `str.strip`) on the ASCII range: space, tab,
newline, carriage return, vertical tab, form feed. -/
def isPySpace (c : Char) : Bool :=
  c.toNat = 32 || c.toNat = 9 || c.toNat = 10 || c.toNat = 13 ||
    c.toNat = 11 || c.toNat = 12

/-- `str.lstrip()`. -/
def pyLStrip (l : List Char) : List Char := l.dropWhile isPySpace

/-- `str.rstrip()`. -/
def pyRStrip (l : List Char) : List Char := (l.reverse.dropWhile isPySpace).reverse

/-- `str.strip()`. -/
def pyStrip (l : List Char) : List Char := pyRStrip (pyLStrip l)

/-- Python's `\w` on the character fragment used in this development: the
ASCII word characters `[a-zA-Z0-9_]`, plus U+0130 (LATIN CAPITAL LETTER I
WITH DOT ABOVE), which is a word character in Python; U+0307 (COMBINING DOT
ABOVE) is not a word character. -/
def isWordChar (c : Char) : Bool :=
  (97 ≤ c.toNat && c.toNat ≤ 122) || (65 ≤ c.toNat && c.toNat ≤ 90) ||
    (48 ≤ c.toNat && c.toNat ≤ 57) || c.toNat = 95 || c.toNat = 0x130

/-- ASCII lowering of a single character (`A`–`Z` shifted by 32). -/
def asciiLower (c : Char) : Char :=
  if 65 ≤ c.toNat && c.toNat ≤ 90 then Char.ofNat (c.toNat + 32) else c

/-- Python `str.lower` of one character on the fragment used here: full
Unicode lowering maps U+0130 to the two-character sequence U+0069 U+0307;
the other characters of this development lower ASCII-style. -/
def pyLowerChar (c : Char) : List Char :=
  if c = 'İ' then ['i', '̇'] else [asciiLower c]

/-- Python `str.lower` on a string. -/
def pyLower : List Char → List Char
  | [] => []
  | c :: cs => pyLowerChar c ++ pyLower cs

/-- `_WORD_RE.findall`: the maximal runs of `\w` characters, in order.
`acc` holds the (reversed) run in progress. -/
def tokenizeAux : List Char → List Char → List (List Char)
  | [], acc => if acc.isEmpty then [] else [acc.reverse]
  | c :: rest, acc =>
    if isWordChar c then tokenizeAux rest (c :: acc)
    else if acc.isEmpty then tokenizeAux rest []
    else acc.reverse :: tokenizeAux rest []

/-- `_WORD_RE.findall(user_query)`. -/
def findallWords (l : List Char) : List (List Char) := tokenizeAux l []

/-- The `_STOPWORDS` set of `src/rag/bm25_fts.py`. -/
def bm25Stopwords : List (List Char) :=
  (["a", "an", "the", "and", "or", "not", "to", "of", "in", "on", "for",
    "with", "by", "from", "is", "are", "was", "were", "be", "been", "being",
    "as", "at", "it", "this", "that", "these", "those", "i", "you", "we",
    "they", "he", "she", "my", "your", "our", "their", "summarize", "summary",
    "main", "points", "cite", "sources", "document", "documents",
    "uploaded"] : List String).map String.toList

/-- `" ".join(parts)`. -/
def joinSep (sep : List Char) : List (List Char) → List Char
  | [] => []
  | [t] => t
  | t :: ts => t ++ sep ++ joinSep sep ts

/-- The `heuristic` accumulation loop of `make_bm25_query`: drop tokens
shorter than 3 characters or in the stopword set, deduplicate preserving
first occurrence (the Python `seen` set always holds exactly the elements of
`kept`), and stop once `len(kept) >= max_terms` after an append.  `kept` is
accumulated in reverse. -/
def heuristicLoop (max_terms : ℤ) : List (List Char) → List (List Char) → List (List Char)
  | [], kept => kept.reverse
  | t :: ts, kept =>
    if t.length < 3 then heuristicLoop max_terms ts kept
    else if t ∈ bm25Stopwords then heuristicLoop max_terms ts kept
    else if t ∈ kept then heuristicLoop max_terms ts kept
    else
      let kept' := t :: kept
      if max_terms ≤ (kept'.length : ℤ) then kept'.reverse
      else heuristicLoop max_terms ts kept'

/-- `make_bm25_query` from `src/rag/bm25_fts.py`.  `mode` is compared against
the literal `"raw"`; any other value selects the heuristic branch. -/
def make_bm25_query (user_query : List Char) (mode : List Char)
    (max_terms : ℤ) : List Char :=
  let tokens := (findallWords user_query).map pyLower
  if mode = "raw".toList then pyStrip (joinSep [' '] tokens)
  else pyStrip (joinSep [' '] (heuristicLoop max_terms tokens []))

/-! ## `src/rag/ingest.py` and `src/api/routes_ingest.py` -/

/-- A value of the JSON object returned by the ingest route: either a count or
a list of filenames. -/
inductive RespVal where
  | nat (n : ℕ)
  | names (l : List (List Char))
deriving DecidableEq, Repr

/-- An `UploadFile` as consumed by `ingest_files`: a filename and raw bytes. -/
structure IngestFileRec where
  filename : List Char
  bytes : List ℕ
deriving DecidableEq, Repr

/-- A row of the `documents` table (the columns relevant to deduplication). -/
structure DocRow where
  filename : List Char
  sha256 : List Char
deriving DecidableEq, Repr

/-- The persistent state touched by `ingest_files`: the `documents` table and
the total number of chunk rows and vector entries. -/
structure IngestState where
  documents : List DocRow
  chunk_count : ℕ
  vector_count : ℕ
deriving DecidableEq, Repr

/-- The `for f in files` loop of `ingest_files`.  `H` is the SHA-256 hex
digest oracle (`_sha256_bytes`) and `chunksOf` the number of chunks produced
by text extraction + `chunk_text` for given bytes; both are external
collaborators of the modelled loop.  The dedup query `SELECT id FROM
documents WHERE sha256 = ?` sees the rows inserted earlier in the same loop
(same connection). -/
def ingestLoop (H : List ℕ → List Char) (chunksOf : List ℕ → ℕ) :
    List IngestFileRec → IngestState → ℕ → ℕ → ℕ → (ℕ × ℕ × ℕ × IngestState)
  | [], st, d, c, v => (d, c, v, st)
  | f :: rest, st, d, c, v =>
    let digest := H f.bytes
    if st.documents.any (fun r => r.sha256 = digest) then
      ingestLoop H chunksOf rest st d c v
    else
      let safe_name := if f.filename = [] then "upload.bin".toList else f.filename
      let nchunks := chunksOf f.bytes
      let st' : IngestState :=
        { documents := st.documents ++ [⟨safe_name, digest⟩],
          chunk_count := st.chunk_count + nchunks,
          vector_count := st.vector_count + nchunks }
      ingestLoop H chunksOf rest st' (d + 1) (c + nchunks) (v + nchunks)

/-- `ingest_files` from `src/rag/ingest.py`: runs the loop and returns the
summary dict `{"documents_added": ..., "chunks_added": ..., "vectors_added":
...}` (as an ordered key/value list) together with the new state. -/
def ingest_files (H : List ℕ → List Char) (chunksOf : List ℕ → ℕ)
    (files : List IngestFileRec) (st : IngestState) :
    List (String × RespVal) × IngestState :=
  let r := ingestLoop H chunksOf files st 0 0 0
  ([("documents_added", .nat r.1), ("chunks_added", .nat r.2.1),
    ("vectors_added", .nat r.2.2.1)], r.2.2.2)

/-- The `/ingest` route of `src/api/routes_ingest.py`: returns
`{"received": [filenames], **result}`. -/
def ingest_route (H : List ℕ → List Char) (chunksOf : List ℕ → ℕ)
    (files : List IngestFileRec) (st : IngestState) :
    List (String × RespVal) × IngestState :=
  let received := files.map (fun f => f.filename)
  let r := ingest_files H chunksOf files st
  (("received", RespVal.names received) :: r.1, r.2)

/-! ## `src/api/routes_debug.py` — the vector stage of `debug_retrieval` -/

/-- The dimension-mismatch message built by `debug_retrieval`. -/
def dimensionMismatchMsg (query_dim d : ℕ) : List Char :=
  ("Dimension mismatch: Query embedding has " ++ toString query_dim ++
   " dimensions, but FAISS index expects " ++ toString d ++
   " dimensions. This happens when the embedding model is changed after " ++
   "documents were ingested. " ++
   "To fix: run /reset then /restart and re-ingest your documents " ++
   "with the new model.").toList

/-- Result of the vector-search-and-fusion stage of `debug_retrieval`. -/
structure DebugVectorStage where
  vec_results : List ResultItem
  vec_error : Option (List Char)
  fused : List FusedItem
deriving Repr

/-- The vector stage of `debug_retrieval` (`src/api/routes_debug.py`): when
the query embedding dimension disagrees with the stored index dimension the
search is skipped, a structured warning is recorded, and fusion runs on the
lexical results alone; otherwise the search runs, with a `ValueError` caught
into `vec_error`.  `vecSearch` stands for `_faiss.search` plus chunk
hydration. -/
def debug_retrieval_vector_stage (query_dim : ℕ) (index_dim : Option ℕ)
    (bm25_results : List ResultItem)
    (vecSearch : Unit → Except (List Char) (List ResultItem))
    (rrf_k w_bm25 w_vec : ℚ) (top_k : ℕ) : DebugVectorStage :=
  let dimension_mismatch : Bool :=
    match index_dim with
    | none => false
    | some d => query_dim ≠ d
  if dimension_mismatch then
    let d := index_dim.getD 0
    { vec_results := [],
      vec_error := some (dimensionMismatchMsg query_dim d),
      fused := rrf_fuse bm25_results [] rrf_k w_bm25 w_vec top_k }
  else
    match vecSearch () with
    | .ok vec_results =>
      { vec_results := vec_results, vec_error := none,
        fused := rrf_fuse bm25_results vec_results rrf_k w_bm25 w_vec top_k }
    | .error e =>
      { vec_results := [], vec_error := some e,
        fused := rrf_fuse bm25_results [] rrf_k w_bm25 w_vec top_k }

/-- The `ValueError` message raised by `FaissIndexManager.search`
(`src/rag/vectorstore.py`) when the query vector's dimension disagrees with
the index dimension. -/
def faissDimErrMsg (dim query_dim : ℕ) : List Char :=
  ("query_vector dim must be " ++ toString dim ++ ", got " ++
   toString query_dim).toList

/-- `FaissIndexManager.search` (`src/rag/vectorstore.py`): after reshaping,
a query vector whose dimension differs from the index dimension raises
`ValueError`; otherwise the inner faiss search runs.  `innerSearch` stands
for the underlying `index.search` call plus chunk hydration. -/
def faiss_search (dim query_dim : ℕ)
    (innerSearch : Unit → List ResultItem) :
    Except (List Char) (List ResultItem) :=
  if query_dim ≠ dim then .error (faissDimErrMsg dim query_dim)
  else .ok (innerSearch ())

/-- The hybrid-retrieval stage of `answer_question` (`src/rag/qa.py`
lines 196-215): if no index exists yet it is created with the query's own
dimension (`load_or_create(dim=int(qvec.shape[0]))`), then
`faiss_mgr.search` is invoked with *no* dimension check and *no*
`try/except`, so the `ValueError` it raises on a dimension mismatch
propagates out of `answer_question` (the `/chat` route `routes_chat.py` has
no handler either) and the request fails.  Modeled in `Except`: an `.error`
result is an uncaught exception. -/
def qa_retrieval_stage (query_dim : ℕ) (index_dim : Option ℕ)
    (bm25_results : List ResultItem)
    (innerSearch : Unit → List ResultItem)
    (rrf_k w_bm25 w_vec : ℚ) (final_k : ℕ) :
    Except (List Char) (List FusedItem) :=
  match faiss_search (index_dim.getD query_dim) query_dim innerSearch with
  | .error e => .error e
  | .ok vec_results =>
    .ok (rrf_fuse bm25_results vec_results rrf_k w_bm25 w_vec final_k)

/-! ## `src/rag/citations.py` -/

/-- `int()` of a run of decimal digits. -/
def natVal (ds : List Char) : ℕ := ds.foldl (fun a c => a * 10 + (c.toNat - 48)) 0

/-- Decimal digits of `n` (fuel-based so that it reduces in the kernel). -/
def natDigitsAux : ℕ → ℕ → List Char
  | 0, _ => []
  | fuel + 1, n =>
    if n < 10 then [Char.ofNat (48 + n)]
    else natDigitsAux fuel (n / 10) ++ [Char.ofNat (48 + n % 10)]

/-- Decimal representation of a natural number (`str(n)` for `n ≥ 0`). -/
def natDigits (n : ℕ) : List Char := natDigitsAux (n + 1) n

/-- `str(i)` for a Python int. -/
def intStr (i : ℤ) : List Char :=
  if i < 0 then '-' :: natDigits i.natAbs else natDigits i.toNat

/-- Splitting on `'\n'` (`str.split("\n")` semantics: at least one part). -/
def splitLines : List Char → List (List Char)
  | [] => [[]]
  | c :: rest =>
    if c = '\n' then [] :: splitLines rest
    else
      match splitLines rest with
      | l :: ls => (c :: l) :: ls
      | [] => [[c]]

/-- A line consisting only of whitespace. -/
def isBlankLine (l : List Char) : Bool := l.all isPySpace

/-- Grouping the lines into paragraphs: maximal runs of non-blank lines,
re-joined with `'\n'` and stripped.  `acc` holds the reversed lines of the
paragraph in progress. -/
def groupParas : List (List Char) → List (List Char) → List (List Char)
  | [], acc =>
    if acc.isEmpty then [] else [pyStrip (joinSep ['\n'] acc.reverse)]
  | l :: ls, acc =>
    if isBlankLine l then
      if acc.isEmpty then groupParas ls []
      else pyStrip (joinSep ['\n'] acc.reverse) :: groupParas ls []
    else groupParas ls (l :: acc)

/-- `split_paragraphs` from `src/rag/citations.py`:
`re.split(r"\n\s*\n+", text.strip())`, each part stripped, empty parts
dropped.  A separator match of that pattern consumes a newline, the following
whitespace run, and the newlines it contains, so — after the final per-part
strip — the parts are exactly the maximal groups of non-blank lines, joined
by `'\n'` and stripped; groups are non-empty because each contains a
non-whitespace character. -/
def split_paragraphs (t : List Char) : List (List Char) :=
  groupParas (splitLines t) []

/-- The regex class `\d` (an ASCII decimal digit on the inputs of this
development). -/
def isDigitChar (c : Char) : Bool := 48 ≤ c.toNat && c.toNat ≤ 57

/-- `_CID_SIMPLE` (`\[cid:(\d+)\]`) matched at the start of `l`: the literal
`[cid:`, a non-empty greedy digit run, then `]`. -/
def simpleMatchAt (l : List Char) : Option ℕ :=
  if l.take 5 = "[cid:".toList then
    let after := l.drop 5
    let ds := after.takeWhile isDigitChar
    if ds ≠ [] ∧ (after.drop ds.length).take 1 = [']'] then some (natVal ds)
    else none
  else none

/-- `_CID_SIMPLE.finditer`: every match starts with `[` and its interior
contains no `[`, so no match can start strictly inside another and advancing
one character at a time yields exactly the non-overlapping matches. -/
def simpleCids : List Char → List ℕ
  | [] => []
  | c :: rest =>
    match simpleMatchAt (c :: rest) with
    | some n => n :: simpleCids rest
    | none => simpleCids rest

/-- The literal `[Source:`. -/
def srcTag : List Char := "[Source:".toList

/-- The character right after a digit run (if any, inside the window) — used
for the trailing word boundary; the character after the window is always the
terminating `]`, which is not a word character. -/
def nonWordNext (l : List Char) : Bool :=
  match l.head? with
  | none => true
  | some x => !isWordChar x

/-- The lazy search `[^\]]*?\bcid:(\d+)\b` inside a `[Source:` window:
scanning left to right (with `prev` the preceding character for the word
boundary), the first position where the literal `cid:` matches after a
non-word character and is followed by a non-empty digit run whose following
character (if any, inside the window; the terminating `]` otherwise) is not a
word character. -/
def findCidCand (prev : Char) : List Char → Option ℕ
  | [] => none
  | c :: cs =>
    if c = 'c' ∧ cs.take 3 = "id:".toList ∧ isWordChar prev = false ∧
        (cs.drop 3).takeWhile isDigitChar ≠ [] ∧
        nonWordNext ((cs.drop 3).drop ((cs.drop 3).takeWhile isDigitChar).length) = true then
      some (natVal ((cs.drop 3).takeWhile isDigitChar))
    else findCidCand c cs

/-- No position strictly inside `xs` (with continuation `ys`) starts the
literal `cid:` — used to step `findCidCand` across a candidate-free region. -/
def noCand : List Char → List Char → Prop
  | [], _ => True
  | x :: xs, ys =>
    ¬(x = 'c' ∧ ((xs ++ ys).take 3) = "id:".toList) ∧ noCand xs ys

/-- `_CID_SOURCE` (`\[Source:[^\]]*?\bcid:(\d+)\b[^\]]*\]`) matched at the
start of `l`.  The trailing `[^\]]*\]` forces the match to end at the first
`]` after the tag, which must exist; the lazy prefix selects the first valid
`cid` candidate inside that window (the character before the window is the
`:` of the tag).  Returns the captured id and the total match length. -/
def matchSourceAt (l : List Char) : Option (ℕ × ℕ) :=
  if l.take 8 = srcTag then
    let t8 := l.drop 8
    let w := t8.takeWhile (fun c => c ≠ ']')
    if w.length < t8.length then
      match findCidCand ':' w with
      | some n => some (n, 8 + w.length + 1)
      | none => none
    else none
  else none

/-- `_CID_SOURCE.finditer` with explicit fuel: after a match the scan resumes
past it (matches may contain `[`, so non-overlapping resumption matters);
otherwise it advances one character. -/
def srcScanF (fuel : ℕ) : List Char → List ℕ :=
  match fuel with
  | 0 => fun _ => []
  | fuel + 1 => fun l =>
    match l with
    | [] => []
    | c :: rest =>
      match matchSourceAt (c :: rest) with
      | some (n, len) => n :: srcScanF fuel (List.drop (len - 1) rest)
      | none => srcScanF fuel rest

/-- The ids captured by `_CID_SOURCE.finditer`. -/
def sourceCids (t : List Char) : List ℕ := srcScanF t.length t

/-- Ascending duplicate-free listing of a list of ids (the canonical form of
a Python `set[int]` of non-negative ids, as produced by `sorted(...)`). -/
def sortedNats (l : List ℕ) : List ℕ :=
  stableSort (fun a b => decide (a ≤ b)) (dedupKeepFirst l)

/-- `extract_citations`: the union of the ids found by the two patterns,
as a canonical sorted duplicate-free list. -/
def extract_citations (t : List Char) : List ℕ :=
  sortedNats (simpleCids t ++ sourceCids t)

/-- The report dict of `validate_citations_detailed`. -/
structure CitationReport where
  paragraph_count : ℕ
  found_citations : List ℕ
  unique_citations_count : ℕ
  min_unique_citations_required : ℕ
  invalid_ids : List ℕ
  require_citation_per_paragraph : Bool
  missing_paragraphs : List ℕ
  per_paragraph_citations : List (List ℕ)
  reason : List Char
deriving DecidableEq, Repr

/-- `validate_citations_detailed` from `src/rag/citations.py`.  Allowed ids
are Python ints (`ℤ`); extracted ids come from `\d+` and are naturals. -/
def validate_citations_detailed (answer_text : List Char)
    (allowed_chunk_ids : List ℤ) (min_unique_citations : ℕ)
    (require_citation_per_paragraph : Bool) : Bool × CitationReport :=
  let paragraphs := split_paragraphs answer_text
  let per := paragraphs.map extract_citations
  let missing := if require_citation_per_paragraph then
      (per.enum.filter (fun p => p.2 = [])).map Prod.fst
    else []
  let found := sortedNats per.flatten
  let invalid := found.filter (fun cid : ℕ => decide ((cid : ℤ) ∉ allowed_chunk_ids))
  let base : CitationReport :=
    { paragraph_count := paragraphs.length, found_citations := found,
      unique_citations_count := found.length,
      min_unique_citations_required := min_unique_citations,
      invalid_ids := invalid,
      require_citation_per_paragraph := require_citation_per_paragraph,
      missing_paragraphs := missing, per_paragraph_citations := per,
      reason := [] }
  if found.length < min_unique_citations then
    (false, { base with reason := "not enough unique citations".toList })
  else if invalid ≠ [] then
    (false, { base with reason := "contains invalid citation ids".toList })
  else if require_citation_per_paragraph = true ∧ missing ≠ [] then
    (false, { base with reason := "some paragraphs are missing citations".toList })
  else
    (true, { base with reason := "ok".toList })

/-! ## `src/rag/qa.py` — citation repair and `answer_question` -/

/-- A display token `"[Source: {filename} | cid:{id}]"`. -/
def mkCiteToken (filename : List Char) (cid : ℤ) : List Char :=
  "[Source: ".toList ++ filename ++ " | cid:".toList ++ intStr cid ++ [']']

/-- `_inject_citations_per_paragraph` from `src/rag/qa.py`. -/
def inject_citations_per_paragraph (answer_text : List Char)
    (cite_tokens : List (List Char)) (missing_paragraphs : List ℕ) : List Char :=
  if cite_tokens = [] then answer_text
  else
    let paras := split_paragraphs answer_text
    let paras := missing_paragraphs.foldl (fun ps idx =>
      if idx < ps.length then
        ps.set idx (pyRStrip (ps.getD idx []) ++
          ' ' :: cite_tokens.getD (idx % cite_tokens.length) [])
      else ps) paras
    joinSep "\n\n".toList paras

/-- `pat` occurs as a contiguous substring. -/
def hasSubstring (pat : List Char) : List Char → Bool
  | [] => pat.isEmpty
  | c :: rest => pat.isPrefixOf (c :: rest) || hasSubstring pat rest

/-- The greedy rewrite pattern `\[Source:[^\]]*cid:{invalid_id}[^\]]*\]` of
`answer_question` matched at the start of `l`: the tag, then a window up to
the first `]` (which must exist) that contains `cid:{invalid_id}` as a plain
substring (no word boundaries in this pattern).  Returns the match length. -/
def matchSubAt (pat : List Char) (l : List Char) : Option ℕ :=
  if l.take 8 = srcTag then
    let t8 := l.drop 8
    let w := t8.takeWhile (fun c => c ≠ ']')
    if w.length < t8.length ∧ hasSubstring pat w then some (8 + w.length + 1)
    else none
  else none

/-- `re.sub` for the rewrite pattern: replaces every non-overlapping match,
scanning left to right and never rescanning a replacement. -/
def subSrcF (pat repl : List Char) (fuel : ℕ) : List Char → List Char :=
  match fuel with
  | 0 => fun t => t
  | fuel + 1 => fun l =>
    match l with
    | [] => []
    | c :: rest =>
      match matchSubAt pat (c :: rest) with
      | some len => repl ++ subSrcF pat repl fuel (List.drop (len - 1) rest)
      | none => c :: subSrcF pat repl fuel rest

/-- One `re.sub(rf"\[Source:[^\]]*cid:{invalid_id}[^\]]*\]", replacement, answer)`. -/
def re_sub_invalid (pat repl t : List Char) : List Char := subSrcF pat repl t.length t

/-- The `for invalid_id in invalid_ids` rewrite loop of `answer_question`:
each invalid id is rewritten (Source-shaped brackets only) to the token of
the first allowed id. -/
def rewrite_invalid_citations (answer : List Char) (invalid_ids : List ℕ)
    (allowed_ids : List ℤ) (first_filename : List Char) : List Char :=
  invalid_ids.foldl (fun a invalid_id =>
    if allowed_ids ≠ [] then
      re_sub_invalid ("cid:".toList ++ natDigits invalid_id)
        (mkCiteToken first_filename (allowed_ids.headD 0)) a
    else a) answer

/-- The validate-then-repair block of `answer_question`
(`src/rag/qa.py`): validate; if paragraphs are missing citations, inject
tokens and re-validate; if still failing with invalid ids, rewrite them and
re-validate.  Returns the final answer, flag and report.  No chat-model call
occurs in this block. -/
def repair_citations (answer0 : List Char) (allowed_ids : List ℤ)
    (cite_tokens : List (List Char)) (first_filename : List Char)
    (min_unique_citations : ℕ) (require_citation_per_paragraph : Bool) :
    List Char × Bool × CitationReport :=
  let v0 := validate_citations_detailed answer0 allowed_ids
    min_unique_citations require_citation_per_paragraph
  if v0.1 then (answer0, v0.1, v0.2)
  else
    let step1 : List Char × Bool × CitationReport :=
      if v0.2.missing_paragraphs ≠ [] then
        let a1 := inject_citations_per_paragraph answer0 cite_tokens
          v0.2.missing_paragraphs
        let v1 := validate_citations_detailed a1 allowed_ids
          min_unique_citations require_citation_per_paragraph
        (a1, v1.1, v1.2)
      else (answer0, v0.1, v0.2)
    if step1.2.1 = false ∧ step1.2.2.invalid_ids ≠ [] then
      let a2 := rewrite_invalid_citations step1.1 step1.2.2.invalid_ids
        allowed_ids first_filename
      let v2 := validate_citations_detailed a2 allowed_ids
        min_unique_citations require_citation_per_paragraph
      (a2, v2.1, v2.2)
    else step1

/-- One entry of the `sources` list returned by `answer_question`. -/
structure QASource where
  chunk_id : ℤ
  filename : List Char
  chunk_index : Option ℤ
  fused_score : ℚ
deriving DecidableEq, Repr

/-- The observable outcome of `answer_question`: the response fields and the
number of chat-model invocations performed. -/
structure QAResult where
  answer : List Char
  sources : List QASource
  bm25_hits : ℕ
  vec_hits : ℕ
  fused_count : ℕ
  citation_ok : Bool
  chat_calls : ℕ
deriving Repr

/-- The literal refusal answer (the apostrophe is written as a character
code). -/
def refusalText : List Char :=
  "I don".toList ++ [Char.ofNat 39] ++
    "t have enough information in the indexed documents to answer this question.".toList

/-- `answer_question` from `src/rag/qa.py`, from the point where the two
retrieval result lists are known.  The chat model and the `_clean_answer`
post-processor are external collaborators passed as functions; `chat_calls`
counts invocations of the former. -/
def answer_question (bm25_results vec_results : List ResultItem) (final_k : ℕ)
    (chat : Unit → List Char) (clean : List Char → List Char)
    (min_unique_citations : ℕ) (require_citation_per_paragraph : Bool) : QAResult :=
  let fused := rrf_fuse bm25_results vec_results 60 1 1 final_k
  if fused = [] then
    { answer := refusalText, sources := [],
      bm25_hits := bm25_results.length, vec_hits := vec_results.length,
      fused_count := 0, citation_ok := true, chat_calls := 0 }
  else
    let allowed_ids := fused.map (fun c => c.chunk_id)
    let cite_tokens := fused.map (fun c => mkCiteToken c.filename c.chunk_id)
    let answer := clean (chat ())
    let first_filename := (fused.headD ⟨0, [], [], none, none, none, 0⟩).filename
    let r := repair_citations answer allowed_ids cite_tokens first_filename
      min_unique_citations require_citation_per_paragraph
    { answer := r.1,
      sources := fused.map (fun c =>
        ⟨c.chunk_id, c.filename, c.metadata_chunk_index, c.fused_score⟩),
      bm25_hits := bm25_results.length, vec_hits := vec_results.length,
      fused_count := fused.length, citation_ok := r.2.1, chat_calls := 1 }

/-! ## Structured answer documents (for C3, C4, C5)

A document is a list of paragraphs; a paragraph is a list of segments, each
either bracket-free prose or a citation written in one of the two recognised
shapes.  Rendering is injective enough for scanner characterisation under
the well-formedness conditions below. -/

inductive CiteSeg where
  | plain (s : List Char)
  | cite (n : ℕ)
  | source (filename : List Char) (ids : List ℕ)
deriving DecidableEq, Repr

/-- The `", "`-separated `cid:{n}` blocks inside a Source bracket. -/
def cidBlocks (ids : List ℕ) : List Char :=
  joinSep ", ".toList (ids.map (fun n => "cid:".toList ++ natDigits n))

def renderSeg : CiteSeg → List Char
  | .plain s => s
  | .cite n => "[cid:".toList ++ natDigits n ++ [']']
  | .source f ids => "[Source: ".toList ++ f ++ " | ".toList ++ cidBlocks ids ++ [']']

def concatAll : List (List Char) → List Char
  | [] => []
  | l :: ls => l ++ concatAll ls

def renderPara (p : List CiteSeg) : List Char := concatAll (p.map renderSeg)

def renderDoc (d : List (List CiteSeg)) : List Char :=
  joinSep "\n\n".toList (d.map renderPara)

/-- Well-formedness of a segment: prose is free of brackets and newlines;
filenames are additionally free of `:`; Source brackets carry at least one
id. -/
def wfSeg : CiteSeg → Prop
  | .plain s => ∀ c ∈ s, c ≠ '[' ∧ c ≠ ']' ∧ c ≠ '\n'
  | .cite _ => True
  | .source f ids =>
      (∀ c ∈ f, c ≠ '[' ∧ c ≠ ']' ∧ c ≠ ':' ∧ c ≠ '\n') ∧ ids ≠ []

/-- Well-formedness of a paragraph: all segments well-formed and the
rendering non-empty and already stripped. -/
def wfPara (p : List CiteSeg) : Prop :=
  (∀ seg ∈ p, wfSeg seg) ∧ renderPara p ≠ [] ∧ pyStrip (renderPara p) = renderPara p

def wfDoc (d : List (List CiteSeg)) : Prop := ∀ p ∈ d, wfPara p

/-- The document after appending `" " ++ token (i mod |toks|)` to each
paragraph whose index lies in `I` — the structured counterpart of the
injection loop. -/
def injectDoc (d : List (List CiteSeg)) (toks : List (List Char × ℕ))
    (I : List ℕ) : List (List CiteSeg) :=
  d.enum.map (fun pr =>
    if pr.1 ∈ I then
      pr.2 ++ [CiteSeg.plain [' '],
        CiteSeg.source (toks.getD (pr.1 % toks.length) ([], 0)).1
          [(toks.getD (pr.1 % toks.length) ([], 0)).2]]
    else pr.2)

/-- The structured effect, on one segment, of one `re.sub` pass for invalid
id `i`: a single-id Source bracket matches the pattern
`\[Source:[^\]]*cid:{i}[^\]]*\]` exactly when the pattern digits are a prefix
of the bracket's digit run, and the whole bracket is then replaced by the
first-allowed-id token `[Source: f0 | cid:a0]`. -/
def rewriteSegOne (i : ℕ) (f0 : List Char) (a0 : ℕ) : CiteSeg → CiteSeg
  | .source f ids =>
    if (natDigits i).isPrefixOf (natDigits (ids.headD 0)) then .source f0 [a0]
    else .source f ids
  | seg => seg

/-- One `re.sub` pass over a whole structured document. -/
def rewriteDocOne (i : ℕ) (f0 : List Char) (a0 : ℕ)
    (d : List (List CiteSeg)) : List (List CiteSeg) :=
  d.map (fun p => p.map (rewriteSegOne i f0 a0))

/-- The net effect of the invalid-id repair on a single segment, as the
spec describes it: a Source-shaped bracket citing an id outside the
allowed set becomes the first citation token
`[Source: first_filename | cid:allowed_ids[0]]`; everything else is kept. -/
def rewriteInvalidSeg (A : List ℕ) (f0 : List Char) (a0 : ℕ) :
    CiteSeg → CiteSeg
  | .source f ids =>
    if ids.headD 0 ∈ A then .source f ids else .source f0 [a0]
  | seg => seg

instance wfSegDecidable : (seg : CiteSeg) → Decidable (wfSeg seg)
  | .plain s =>
    inferInstanceAs (Decidable (∀ c ∈ s, c ≠ '[' ∧ c ≠ ']' ∧ c ≠ '\n'))
  | .cite _ => inferInstanceAs (Decidable True)
  | .source f ids =>
    inferInstanceAs (Decidable
      ((∀ c ∈ f, c ≠ '[' ∧ c ≠ ']' ∧ c ≠ ':' ∧ c ≠ '\n') ∧ ids ≠ []))

instance wfParaDecidable (p : List CiteSeg) : Decidable (wfPara p) :=
  inferInstanceAs (Decidable ((∀ seg ∈ p, wfSeg seg) ∧ renderPara p ≠ [] ∧
    pyStrip (renderPara p) = renderPara p))

instance wfDocDecidable (d : List (List CiteSeg)) : Decidable (wfDoc d) :=
  inferInstanceAs (Decidable (∀ p ∈ d, wfPara p))

/-- All ids written in a segment (the spec reading of C5: every
comma-separated id of a Source bracket counts). -/
def segIdsAll : CiteSeg → List ℕ
  | .plain _ => []
  | .cite n => [n]
  | .source _ ids => ids

/-- The ids the extractor actually captures in a segment: only the first id
of a Source bracket. -/
def segIdsFound : CiteSeg → List ℕ
  | .plain _ => []
  | .cite n => [n]
  | .source _ ids => ids.take 1

/-- The ids a segment contributes to the `_CID_SIMPLE` scan. -/
def segSimple : CiteSeg → List ℕ
  | .cite n => [n]
  | _ => []

/-- The ids a segment contributes to the `_CID_SOURCE` scan. -/
def segSource : CiteSeg → List ℕ
  | .source _ ids => ids.take 1
  | _ => []

def paraSimple (p : List CiteSeg) : List ℕ := (p.map segSimple).flatten

def paraSource (p : List CiteSeg) : List ℕ := (p.map segSource).flatten

def paraIdsAll (p : List CiteSeg) : List ℕ := (p.map segIdsAll).flatten

def paraIdsFound (p : List CiteSeg) : List ℕ := (p.map segIdsFound).flatten

/-- The set of ids written in a document, in the spec's reading. -/
def docIdsAll (d : List (List CiteSeg)) : List ℕ :=
  sortedNats (d.map paraIdsAll).flatten

/-- The set of ids actually recognised in a document. -/
def docIdsFound (d : List (List CiteSeg)) : List ℕ :=
  sortedNats (d.map paraIdsFound).flatten

/-! ## Lemmas about the fused dict and the two RRF loops -/

theorem insertStable_perm (le : α → α → Bool) (a : α) (l : List α) :
    List.Perm (insertStable le a l) (a :: l) := by
  induction l with
  | nil => simp [insertStable]
  | cons b bs ih =>
    by_cases h : le a b = true
    · simp [insertStable, h]
    · simp only [insertStable, h, if_false, Bool.false_eq_true]
      exact List.Perm.trans (ih.cons b) (List.Perm.swap a b bs)

theorem stableSort_perm (le : α → α → Bool) (l : List α) :
    List.Perm (stableSort le l) l := by
  induction l with
  | nil => simp [stableSort]
  | cons a as ih =>
    exact List.Perm.trans (insertStable_perm le a (stableSort le as)) (ih.cons a)

theorem map_insertStable (f : α → β) (le : α → α → Bool) (le' : β → β → Bool)
    (h : ∀ a b, le' (f a) (f b) = le a b) (a : α) (l : List α) :
    (insertStable le a l).map f = insertStable le' (f a) (l.map f) := by
  induction l with
  | nil => simp [insertStable]
  | cons b bs ih =>
    by_cases hab : le a b = true
    · simp [insertStable, hab, h]
    · simp only [insertStable, hab, if_false, List.map_cons, h, Bool.false_eq_true]
      rw [ih]

theorem map_stableSort (f : α → β) (le : α → α → Bool) (le' : β → β → Bool)
    (h : ∀ a b, le' (f a) (f b) = le a b) (l : List α) :
    (stableSort le l).map f = stableSort le' (l.map f) := by
  induction l with
  | nil => simp [stableSort]
  | cons a as ih =>
    simp only [stableSort, List.map_cons]
    rw [map_insertStable f le le' h, ih]


theorem fusedKeys_addScore (cid : ℤ) (add : ℚ) (l : List FusedItem) :
    fusedKeys (fusedAddScore cid add l) = fusedKeys l := by
  simp only [fusedKeys, fusedAddScore, List.map_map]
  refine List.map_congr_left (fun e _ => ?_)
  by_cases h : e.chunk_id = cid <;> simp [h]

theorem fusedKeys_setVec (cid : ℤ) (v : Option ℚ) (l : List FusedItem) :
    fusedKeys (fusedSetVec cid v l) = fusedKeys l := by
  simp only [fusedKeys, fusedSetVec, List.map_map]
  refine List.map_congr_left (fun e _ => ?_)
  by_cases h : e.chunk_id = cid <;> simp [h]

theorem fusedContains_iff (cid : ℤ) (l : List FusedItem) :
    fusedContains cid l = true ↔ cid ∈ fusedKeys l := by
  simp [fusedContains, fusedKeys]

theorem fusedContains_eq_false {cid : ℤ} {l : List FusedItem}
    (h : cid ∉ fusedKeys l) : fusedContains cid l = false := by
  rw [← Bool.not_eq_true]
  exact fun hc => h ((fusedContains_iff _ _).1 hc)

theorem fusedAddScore_of_not_mem (cid : ℤ) (add : ℚ) (l : List FusedItem)
    (h : cid ∉ fusedKeys l) : fusedAddScore cid add l = l := by
  simp only [fusedAddScore]
  rw [@List.map_congr_left _ _ _ _ id (fun e he => ?_), List.map_id]
  have : e.chunk_id ≠ cid := by
    intro hh
    exact h (by simpa [fusedKeys, hh] using List.mem_map_of_mem (fun x => x.chunk_id) he)
  simp [this]

theorem fusedAddScore_append (cid : ℤ) (add : ℚ) (l₁ l₂ : List FusedItem) :
    fusedAddScore cid add (l₁ ++ l₂) = fusedAddScore cid add l₁ ++ fusedAddScore cid add l₂ :=
  List.map_append _ _ _

theorem fusedAddScore_singleton_self (add : ℚ) (e : FusedItem) :
    fusedAddScore e.chunk_id add [e] = [{ e with fused_score := e.fused_score + add }] := by
  simp [fusedAddScore]

theorem fusedProj_addScore (cid : ℤ) (add : ℚ) (l : List FusedItem) :
    fusedProj (fusedAddScore cid add l) =
      (fusedProj l).map (fun p => if p.1 = cid then (p.1, p.2 + add) else p) := by
  simp only [fusedProj, fusedAddScore, List.map_map]
  refine List.map_congr_left (fun e _ => ?_)
  by_cases h : e.chunk_id = cid <;> simp [h]

theorem fusedProj_setVec (cid : ℤ) (v : Option ℚ) (l : List FusedItem) :
    fusedProj (fusedSetVec cid v l) = fusedProj l := by
  simp only [fusedProj, fusedSetVec, List.map_map]
  refine List.map_congr_left (fun e _ => ?_)
  by_cases h : e.chunk_id = cid <;> simp [h]

theorem fusedKeys_append (l₁ l₂ : List FusedItem) :
    fusedKeys (l₁ ++ l₂) = fusedKeys l₁ ++ fusedKeys l₂ :=
  List.map_append _ _ _

theorem fusedProj_append (l₁ l₂ : List FusedItem) :
    fusedProj (l₁ ++ l₂) = fusedProj l₁ ++ fusedProj l₂ :=
  List.map_append _ _ _

theorem fst_mem_of_mem_fusedProj {p : ℤ × ℚ} {l : List FusedItem}
    (h : p ∈ fusedProj l) : p.1 ∈ fusedKeys l := by
  simp only [fusedProj, List.mem_map] at h
  obtain ⟨e, he, rfl⟩ := h
  exact List.mem_map.2 ⟨e, he, rfl⟩

theorem rrfContrib_of_not_mem (rrf_k w : ℚ) {V : List ResultItem} {c : ℤ}
    (h : c ∉ V.map (fun e => e.chunk_id)) (r : ℕ) :
    rrfContrib rrf_k w V r c = 0 := by
  induction V generalizing r with
  | nil => rfl
  | cons item rest ih =>
    simp only [List.map_cons, List.mem_cons, not_or] at h
    simp only [rrfContrib]
    rw [if_neg (fun hh => h.1 hh.symm), ih h.2, add_zero]

theorem vecNewProj_congr (rrf_k w : ℚ) {keys1 keys2 : List ℤ} (V : List ResultItem)
    (h : ∀ x ∈ V.map (fun e => e.chunk_id), x ∈ keys1 ↔ x ∈ keys2) (r : ℕ) :
    vecNewProj rrf_k w keys1 V r = vecNewProj rrf_k w keys2 V r := by
  induction V generalizing r with
  | nil => rfl
  | cons item rest ih =>
    have hhd : item.chunk_id ∈ keys1 ↔ item.chunk_id ∈ keys2 := h _ (by simp)
    have htl : ∀ x ∈ rest.map (fun e => e.chunk_id), x ∈ keys1 ↔ x ∈ keys2 :=
      fun x hx => h x (by simp [hx])
    by_cases hm : item.chunk_id ∈ keys1
    · simp only [vecNewProj, if_pos hm, if_pos (hhd.1 hm)]
      exact ih htl _
    · simp only [vecNewProj, if_neg hm, if_neg (fun hh => hm (hhd.2 hh))]
      rw [ih htl]

/-- Effect of the bm25 loop on the projection, starting from an accumulator
whose keys are disjoint from the (duplicate-free) batch. -/
theorem fusedProj_rrfLoopBm25 (rrf_k w : ℚ) (L : List ResultItem) (r : ℕ)
    (A : List FusedItem)
    (hnd : (L.map (fun e => e.chunk_id)).Nodup)
    (hdisj : ∀ c ∈ L.map (fun e => e.chunk_id), c ∉ fusedKeys A) :
    fusedProj (rrfLoopBm25 rrf_k w L r A) = fusedProj A ++ bmRanksProj rrf_k w L r := by
  induction L generalizing r A with
  | nil => simp [rrfLoopBm25, bmRanksProj]
  | cons item rest ih =>
    simp only [List.map_cons, List.nodup_cons] at hnd
    have hnotA : item.chunk_id ∉ fusedKeys A := hdisj _ (by simp)
    simp only [rrfLoopBm25, fusedContains_eq_false hnotA, Bool.false_eq_true, if_false]
    rw [fusedAddScore_append, fusedAddScore_of_not_mem _ _ _ hnotA]
    have hself : (bmInit item).chunk_id = item.chunk_id := rfl
    rw [← hself, fusedAddScore_singleton_self]
    rw [ih (r + 1) _ hnd.2 ?_]
    · simp only [fusedProj_append, bmRanksProj, fusedProj, List.map_cons, List.map_nil]
      simp [bmInit, List.append_assoc]
    · intro c hc
      rw [fusedKeys_append]
      simp only [List.mem_append, fusedKeys, List.map_cons, List.map_nil,
        List.mem_singleton, not_or]
      refine ⟨hdisj c (by simp [hc]), fun hh => ?_⟩
      simp only [bmInit] at hh
      exact hnd.1 (hh ▸ hc)

/-- Effect of the vector loop on the projection: every existing row is bumped
by the total contribution of its id, and the ids absent from the accumulator
are appended in vector order with their own contribution. -/
theorem fusedProj_rrfLoopVec (rrf_k w : ℚ) (V : List ResultItem) (r : ℕ)
    (A : List FusedItem)
    (hnd : (V.map (fun e => e.chunk_id)).Nodup) :
    fusedProj (rrfLoopVec rrf_k w V r A) =
      (fusedProj A).map (fun p => (p.1, p.2 + rrfContrib rrf_k w V r p.1)) ++
        vecNewProj rrf_k w (fusedKeys A) V r := by
  induction V generalizing r A with
  | nil =>
    simp only [rrfLoopVec, vecNewProj, List.append_nil, rrfContrib]
    rw [@List.map_congr_left _ _ _ _ id (fun p _ => by simp), List.map_id]
  | cons item rest ih =>
    simp only [List.map_cons, List.nodup_cons] at hnd
    by_cases hm : item.chunk_id ∈ fusedKeys A
    · have hcont : fusedContains item.chunk_id A = true := (fusedContains_iff _ _).2 hm
      simp only [rrfLoopVec, hcont, if_true]
      rw [ih (r + 1) _ hnd.2]
      rw [fusedKeys_addScore, fusedKeys_setVec]
      rw [fusedProj_addScore, fusedProj_setVec]
      congr 1
      · rw [List.map_map]
        refine List.map_congr_left (fun p _ => ?_)
        simp only [Function.comp_apply, rrfContrib]
        by_cases hp : p.1 = item.chunk_id
        · rw [if_pos hp, if_pos hp.symm]
          simp [add_assoc]
        · rw [if_neg hp, if_neg (fun hh => hp hh.symm), zero_add]
      · simp only [vecNewProj, if_pos hm]
    · simp only [rrfLoopVec, fusedContains_eq_false hm, Bool.false_eq_true, if_false]
      rw [fusedAddScore_append, fusedAddScore_of_not_mem _ _ _ hm]
      have hself : (vecInit item).chunk_id = item.chunk_id := rfl
      rw [← hself, fusedAddScore_singleton_self]
      rw [ih (r + 1) _ hnd.2]
      rw [fusedKeys_append, fusedProj_append]
      have hkeys1 : fusedKeys [{ vecInit item with
          fused_score := (vecInit item).fused_score + w / (rrf_k + (r : ℚ)) }] =
          [item.chunk_id] := by simp [fusedKeys, vecInit]
      have hproj1 : fusedProj [{ vecInit item with
          fused_score := (vecInit item).fused_score + w / (rrf_k + (r : ℚ)) }] =
          [(item.chunk_id, 0 + w / (rrf_k + (r : ℚ)))] := by simp [fusedProj, vecInit]
      rw [hkeys1, hproj1, List.map_append]
      have hrest0 : rrfContrib rrf_k w rest (r + 1) item.chunk_id = 0 :=
        rrfContrib_of_not_mem rrf_k w hnd.1 (r + 1)
      have hnew : vecNewProj rrf_k w (fusedKeys A ++ [item.chunk_id]) rest (r + 1) =
          vecNewProj rrf_k w (fusedKeys A) rest (r + 1) := by
        refine vecNewProj_congr rrf_k w rest (fun x hx => ?_) (r + 1)
        simp only [List.mem_append, List.mem_singleton]
        exact ⟨fun h => h.elim id (fun hh => absurd (hh ▸ hx) hnd.1),
          fun h => Or.inl h⟩
      rw [hnew]
      simp only [List.map_cons, List.map_nil, List.append_assoc, List.singleton_append]
      congr 1
      · refine List.map_congr_left (fun p hp => ?_)
        have hne : p.1 ≠ item.chunk_id := fun hh => hm (hh ▸ fst_mem_of_mem_fusedProj hp)
        simp only [rrfContrib]
        rw [if_neg (fun hh => hne hh.symm), zero_add]
      · simp only [vecNewProj, if_neg hm, hrest0, add_zero, zero_add]

theorem fusedKeys_rrfLoopBm25_nodup (rrf_k w : ℚ) (L : List ResultItem) (r : ℕ)
    (A : List FusedItem) (h : (fusedKeys A).Nodup) :
    (fusedKeys (rrfLoopBm25 rrf_k w L r A)).Nodup := by
  induction L generalizing r A with
  | nil => exact h
  | cons item rest ih =>
    simp only [rrfLoopBm25]
    by_cases hc : fusedContains item.chunk_id A = true
    · simp only [hc, if_true]
      exact ih _ _ (by rwa [fusedKeys_addScore])
    · simp only [hc, Bool.false_eq_true, if_false]
      refine ih _ _ ?_
      rw [fusedKeys_addScore, fusedKeys_append]
      have hni : item.chunk_id ∉ fusedKeys A := fun hm => hc ((fusedContains_iff _ _).2 hm)
      have : fusedKeys [bmInit item] = [item.chunk_id] := by simp [fusedKeys, bmInit]
      rw [this]
      refine List.Nodup.append h (List.nodup_singleton _) ?_
      intro a ha hb
      rw [List.mem_singleton] at hb
      exact hni (hb ▸ ha)

theorem fusedKeys_rrfLoopVec_nodup (rrf_k w : ℚ) (V : List ResultItem) (r : ℕ)
    (A : List FusedItem) (h : (fusedKeys A).Nodup) :
    (fusedKeys (rrfLoopVec rrf_k w V r A)).Nodup := by
  induction V generalizing r A with
  | nil => exact h
  | cons item rest ih =>
    simp only [rrfLoopVec]
    by_cases hc : fusedContains item.chunk_id A = true
    · simp only [hc, if_true]
      exact ih _ _ (by rwa [fusedKeys_addScore, fusedKeys_setVec])
    · simp only [hc, Bool.false_eq_true, if_false]
      refine ih _ _ ?_
      rw [fusedKeys_addScore, fusedKeys_append]
      have hni : item.chunk_id ∉ fusedKeys A := fun hm => hc ((fusedContains_iff _ _).2 hm)
      have : fusedKeys [vecInit item] = [item.chunk_id] := by simp [fusedKeys, vecInit]
      rw [this]
      refine List.Nodup.append h (List.nodup_singleton _) ?_
      intro a ha hb
      rw [List.mem_singleton] at hb
      exact hni (hb ▸ ha)

/-! ## Bridging the loop characterisation to the spec formula -/

theorem idxOf_eq_none_iff (l : List ℤ) (c : ℤ) : idxOf l c = none ↔ c ∉ l := by
  induction l with
  | nil => simp [idxOf]
  | cons x xs ih =>
    simp only [List.mem_cons, not_or]
    by_cases h : x = c
    · simp [idxOf, h]
    · rw [show idxOf (x :: xs) c = (idxOf xs c).map (· + 1) by simp [idxOf, h]]
      rw [Option.map_eq_none', ih]
      exact ⟨fun hh => ⟨fun he => h he.symm, hh⟩, fun hh => hh.2⟩

theorem idxOf_isSome_of_mem {l : List ℤ} {c : ℤ} (h : c ∈ l) :
    ∃ i, idxOf l c = some i := by
  rcases ho : idxOf l c with _ | i
  · exact absurd ((idxOf_eq_none_iff l c).1 ho) (not_not.2 h)
  · exact ⟨i, rfl⟩

theorem rrfContrib_eq_spec (rrf_k w : ℚ) (V : List ResultItem)
    (hnd : (V.map (fun e => e.chunk_id)).Nodup) (r : ℕ) (c : ℤ) :
    rrfContrib rrf_k w V r c =
      (match idxOf (V.map (fun e => e.chunk_id)) c with
       | some i => w / (rrf_k + ((r + i : ℕ) : ℚ))
       | none => 0) := by
  induction V generalizing r with
  | nil => rfl
  | cons item rest ih =>
    simp only [List.map_cons, List.nodup_cons] at hnd
    by_cases h : item.chunk_id = c
    · have hnr : c ∉ rest.map (fun e => e.chunk_id) := h ▸ hnd.1
      simp [rrfContrib, if_pos h, rrfContrib_of_not_mem rrf_k w hnr, idxOf]
    · simp only [rrfContrib, if_neg h, zero_add, List.map_cons, idxOf, if_neg h]
      rw [ih hnd.2 (r + 1)]
      rcases ho : idxOf (rest.map (fun e => e.chunk_id)) c with _ | i
      · simp [ho]
      · have he : r + 1 + i = r + (i + 1) := by omega
        simp [ho, he]

theorem bmRanksProj_map_fst (rrf_k w : ℚ) (L : List ResultItem) (r : ℕ) :
    (bmRanksProj rrf_k w L r).map Prod.fst = L.map (fun e => e.chunk_id) := by
  induction L generalizing r with
  | nil => rfl
  | cons item rest ih => simp [bmRanksProj, ih]

theorem fusedKeys_eq_proj_fst (l : List FusedItem) :
    fusedKeys l = (fusedProj l).map Prod.fst := by
  simp [fusedKeys, fusedProj, List.map_map]

/-- The bm25 rows, bumped pointwise by `g`, written as a map over the lexical
ids with ranks recovered through `idxOf`. -/
theorem bmRanksProj_eq_spec (rrf_k w : ℚ) (L : List ResultItem)
    (hnd : (L.map (fun e => e.chunk_id)).Nodup) (r : ℕ) (g : ℤ → ℚ) :
    (bmRanksProj rrf_k w L r).map (fun p => (p.1, p.2 + g p.1)) =
      (L.map (fun e => e.chunk_id)).map (fun c =>
        (c, w / (rrf_k + ((r + (idxOf (L.map (fun e => e.chunk_id)) c).getD 0 : ℕ) : ℚ)) +
          g c)) := by
  induction L generalizing r with
  | nil => rfl
  | cons item rest ih =>
    simp only [List.map_cons, List.nodup_cons] at hnd
    simp only [bmRanksProj, List.map_cons]
    congr 1
    · simp [idxOf]
    · rw [ih hnd.2 (r + 1)]
      refine List.map_congr_left (fun c hc => ?_)
      have hne : item.chunk_id ≠ c := fun hh => hnd.1 (hh ▸ hc)
      simp only [idxOf, if_neg hne]
      obtain ⟨i, hi⟩ := idxOf_isSome_of_mem hc
      have he : r + 1 + i = r + (i + 1) := by omega
      simp [hi, he]

/-- The appended vector rows, written as a map over the vector ids absent from
`keys`, with ranks recovered through `idxOf`. -/
theorem vecNewProj_eq_spec (rrf_k w : ℚ) (keys : List ℤ) (V : List ResultItem)
    (hnd : (V.map (fun e => e.chunk_id)).Nodup) (r : ℕ) :
    vecNewProj rrf_k w keys V r =
      ((V.map (fun e => e.chunk_id)).filter (fun c => decide (c ∉ keys))).map (fun c =>
        (c, w / (rrf_k + ((r + (idxOf (V.map (fun e => e.chunk_id)) c).getD 0 : ℕ) : ℚ)))) := by
  induction V generalizing r with
  | nil => rfl
  | cons item rest ih =>
    simp only [List.map_cons, List.nodup_cons] at hnd
    by_cases hm : item.chunk_id ∈ keys
    · simp only [vecNewProj, if_pos hm, List.map_cons, List.filter_cons]
      rw [if_neg (by simp [hm])]
      rw [ih hnd.2 (r + 1)]
      refine List.map_congr_left (fun c hc => ?_)
      have hcm : c ∈ rest.map (fun e => e.chunk_id) := List.mem_of_mem_filter hc
      have hne : item.chunk_id ≠ c := fun hh => hnd.1 (hh ▸ hcm)
      simp only [idxOf, if_neg hne]
      obtain ⟨i, hi⟩ := idxOf_isSome_of_mem hcm
      have he : r + 1 + i = r + (i + 1) := by omega
      simp [hi, he]
    · simp only [vecNewProj, if_neg hm, List.map_cons, List.filter_cons]
      rw [if_pos (by simp [hm])]
      congr 1
      · simp [idxOf]
      · rw [ih hnd.2 (r + 1)]
        refine List.map_congr_left (fun c hc => ?_)
        have hcm : c ∈ rest.map (fun e => e.chunk_id) := List.mem_of_mem_filter hc
        have hne : item.chunk_id ≠ c := fun hh => hnd.1 (hh ▸ hcm)
        simp only [idxOf, if_neg hne]
        obtain ⟨i, hi⟩ := idxOf_isSome_of_mem hcm
        have he : r + 1 + i = r + (i + 1) := by omega
        simp [hi, he]

theorem dedupKeepFirst_of_nodup [DecidableEq α] {l : List α} (h : l.Nodup) :
    dedupKeepFirst l = l := by
  induction l with
  | nil => rfl
  | cons a as ih =>
    simp only [List.nodup_cons] at h
    simp only [dedupKeepFirst, ih h.2]
    rw [List.filter_eq_self.2 (fun x hx => by
      simp only [ne_eq, decide_eq_true_eq]
      exact fun hh => h.1 (hh ▸ hx))]

theorem dedupKeepFirst_append_nodup [DecidableEq α] {xs ys : List α}
    (hx : xs.Nodup) (hy : ys.Nodup) :
    dedupKeepFirst (xs ++ ys) = xs ++ ys.filter (fun c => decide (c ∉ xs)) := by
  induction xs with
  | nil =>
    simp only [List.nil_append, dedupKeepFirst_of_nodup hy]
    rw [List.filter_eq_self.2 (fun x _ => by simp)]
  | cons a as ih =>
    simp only [List.nodup_cons] at hx
    have hstep : dedupKeepFirst ((a :: as) ++ ys) =
        a :: (dedupKeepFirst (as ++ ys)).filter (fun x => decide (x ≠ a)) := rfl
    rw [hstep, ih hx.2, List.filter_append, List.cons_append]
    congr 1
    congr 1
    · exact List.filter_eq_self.2 (fun x hx' => by
        simp only [ne_eq, decide_eq_true_eq]
        exact fun hh => hx.1 (hh ▸ hx'))
    · rw [List.filter_filter]
      refine List.filter_congr (fun x _ => ?_)
      by_cases h1 : x = a <;> by_cases h2 : x ∈ as <;> simp [h1, h2]

/-- Full characterisation of `rrf_fuse` (projected to id/score pairs) as the
stable-spec fusion, for inputs without duplicate ids within each list. -/
theorem rrf_fuse_proj_eq (bm vec : List ResultItem) (rrf_k w1 w2 : ℚ) (tk : ℕ)
    (hL : (bm.map (fun e => e.chunk_id)).Nodup)
    (hV : (vec.map (fun e => e.chunk_id)).Nodup) :
    fusedProj (rrf_fuse bm vec rrf_k w1 w2 tk) =
      rrfFuseStableSpec rrf_k w1 w2 (bm.map (fun e => e.chunk_id))
        (vec.map (fun e => e.chunk_id)) tk := by
  set Lids := bm.map (fun e => e.chunk_id) with hLids
  set Vids := vec.map (fun e => e.chunk_id) with hVids
  set A1 := rrfLoopBm25 rrf_k w1 bm 1 [] with hA1
  have hA1proj : fusedProj A1 = bmRanksProj rrf_k w1 bm 1 := by
    rw [hA1, fusedProj_rrfLoopBm25 rrf_k w1 bm 1 [] hL (fun c _ => by simp [fusedKeys])]
    simp [fusedProj]
  have hA1keys : fusedKeys A1 = Lids := by
    rw [fusedKeys_eq_proj_fst, hA1proj, bmRanksProj_map_fst]
  have hF : fusedProj (rrfLoopVec rrf_k w2 vec 1 A1) =
      (bmRanksProj rrf_k w1 bm 1).map
        (fun p => (p.1, p.2 + rrfContrib rrf_k w2 vec 1 p.1)) ++
        vecNewProj rrf_k w2 Lids vec 1 := by
    rw [fusedProj_rrfLoopVec rrf_k w2 vec 1 A1 hV, hA1proj, hA1keys]
  have hpart1 : (bmRanksProj rrf_k w1 bm 1).map
      (fun p => (p.1, p.2 + rrfContrib rrf_k w2 vec 1 p.1)) =
      Lids.map (fun c => (c, rrfSpecScore rrf_k w1 w2 Lids Vids c)) := by
    rw [bmRanksProj_eq_spec rrf_k w1 bm hL 1 (fun c => rrfContrib rrf_k w2 vec 1 c)]
    refine List.map_congr_left (fun c hc => ?_)
    obtain ⟨i, hi⟩ := idxOf_isSome_of_mem hc
    rw [rrfContrib_eq_spec rrf_k w2 vec hV 1 c]
    simp only [rrfSpecScore, hi, Option.getD_some]
    have h1 : (1 : ℕ) + i = i + 1 := by omega
    rw [h1]
    rcases ho : idxOf Vids c with _ | j
    · rfl
    · have h2 : (1 : ℕ) + j = j + 1 := by omega
      simp [h2]
  have hpart2 : vecNewProj rrf_k w2 Lids vec 1 =
      (Vids.filter (fun c => decide (c ∉ Lids))).map
        (fun c => (c, rrfSpecScore rrf_k w1 w2 Lids Vids c)) := by
    rw [vecNewProj_eq_spec rrf_k w2 Lids vec hV 1]
    refine List.map_congr_left (fun c hc => ?_)
    have hcmem : c ∈ Vids := List.mem_of_mem_filter hc
    have hcnot : c ∉ Lids := by
      have := List.of_mem_filter hc
      simpa using this
    obtain ⟨j, hj⟩ := idxOf_isSome_of_mem hcmem
    have hnone : idxOf Lids c = none := (idxOf_eq_none_iff _ _).2 hcnot
    simp only [rrfSpecScore, hj, hnone, Option.getD_some, zero_add]
    have h2 : (1 : ℕ) + j = j + 1 := by omega
    rw [h2]
  show fusedProj ((stableSort fusedLe (rrfLoopVec rrf_k w2 vec 1 A1)).take tk) = _
  simp only [fusedProj] at hF ⊢
  rw [List.map_take]
  rw [map_stableSort (fun e : FusedItem => (e.chunk_id, e.fused_score)) fusedLe pairLe
    (by intro a b; rfl) (rrfLoopVec rrf_k w2 vec 1 A1)]
  rw [hF, hpart1, hpart2]
  show _ = rrfFuseStableSpec rrf_k w1 w2 Lids Vids tk
  rw [rrfFuseStableSpec]
  rw [dedupKeepFirst_append_nodup hL hV, List.map_append]

/-- The fused-order comparison claimed by C1 (ties by ascending chunk id)
differs from the code: with lexical ranking `[5]` and vector ranking `[3]`
the two chunks tie at `1/61`, the code keeps insertion order `[5, 3]`, while
the claimed order is `[3, 5]`. -/
theorem rrf_fuse_claim_tie_counterexample :
    fusedProj (rrf_fuse [⟨5, [], [], none, none, none⟩]
        [⟨3, [], [], none, none, none⟩] 60 1 1 8) = [(5, 1/61), (3, 1/61)] ∧
    rrfFuseClaimSpec 60 1 1 [5] [3] 8 = [(3, 1/61), (5, 1/61)] ∧
    fusedProj (rrf_fuse [⟨5, [], [], none, none, none⟩]
        [⟨3, [], [], none, none, none⟩] 60 1 1 8) ≠ rrfFuseClaimSpec 60 1 1 [5] [3] 8 := by
  refine ⟨?_, ?_, ?_⟩
  · norm_num [rrf_fuse, rrfLoopBm25, rrfLoopVec, fusedContains, fusedAddScore,
      fusedSetVec, stableSort, insertStable, fusedLe, fusedProj, bmInit, vecInit]
  · norm_num [rrfFuseClaimSpec, dedupKeepFirst, rrfSpecScore, idxOf, stableSort,
      insertStable, claimTieLe]
  · intro h
    have h1 : fusedProj (rrf_fuse [⟨5, [], [], none, none, none⟩]
        [⟨3, [], [], none, none, none⟩] 60 1 1 8) = [(5, 1/61), (3, 1/61)] := by
      norm_num [rrf_fuse, rrfLoopBm25, rrfLoopVec, fusedContains, fusedAddScore,
        fusedSetVec, stableSort, insertStable, fusedLe, fusedProj, bmInit, vecInit]
    have h2 : rrfFuseClaimSpec 60 1 1 [5] [3] 8 = [(3, 1/61), (5, 1/61)] := by
      norm_num [rrfFuseClaimSpec, dedupKeepFirst, rrfSpecScore, idxOf, stableSort,
        insertStable, claimTieLe]
    rw [h1, h2] at h
    simp at h

/-! ## Claim theorems for reciprocal-rank fusion -/

/-- C1 (amended): for rankings without duplicate ids, `rrf_fuse` assigns each
chunk id the score `w_lex/(rrf_k + rank_in_L) + w_vec/(rrf_k + rank_in_V)`
(1-based ranks, missing rank contributing 0), sorts by fused score descending
with ties broken by insertion order (lexical ids first, then vector-only ids,
via a stable sort) — not by ascending chunk id — and returns the first
`final_k` entries; in particular, with lexical ranking `[1,2,3]`, vector
ranking `[2,3,4]`, `rrf_k = 60` and both weights 1, the fused order is
chunk 2, then 3, then 1, then 4. -/
theorem claim_C1_rrf_fusion :
    (∀ (bm vec : List ResultItem) (rrf_k w1 w2 : ℚ) (tk : ℕ),
      (bm.map (fun e => e.chunk_id)).Nodup →
      (vec.map (fun e => e.chunk_id)).Nodup →
      fusedProj (rrf_fuse bm vec rrf_k w1 w2 tk) =
        rrfFuseStableSpec rrf_k w1 w2 (bm.map (fun e => e.chunk_id))
          (vec.map (fun e => e.chunk_id)) tk) ∧
    (fusedProj (rrf_fuse
      [⟨1, [], [], none, none, none⟩, ⟨2, [], [], none, none, none⟩,
        ⟨3, [], [], none, none, none⟩]
      [⟨2, [], [], none, none, none⟩, ⟨3, [], [], none, none, none⟩,
        ⟨4, [], [], none, none, none⟩] 60 1 1 8)).map Prod.fst = [2, 3, 1, 4] := by
  constructor
  · exact fun bm vec rrf_k w1 w2 tk hL hV => rrf_fuse_proj_eq bm vec rrf_k w1 w2 tk hL hV
  · norm_num [rrf_fuse, rrfLoopBm25, rrfLoopVec, fusedContains, fusedAddScore,
      fusedSetVec, stableSort, insertStable, fusedLe, fusedProj, bmInit, vecInit]

/-- Witness for C1 at the spec's worked example. -/
theorem claim_C1_rrf_fusion_witness :
    (([⟨1, [], [], none, none, none⟩, ⟨2, [], [], none, none, none⟩,
        ⟨3, [], [], none, none, none⟩] : List ResultItem).map
          (fun e => e.chunk_id)).Nodup ∧
    (([⟨2, [], [], none, none, none⟩, ⟨3, [], [], none, none, none⟩,
        ⟨4, [], [], none, none, none⟩] : List ResultItem).map
          (fun e => e.chunk_id)).Nodup ∧
    fusedProj (rrf_fuse
      [⟨1, [], [], none, none, none⟩, ⟨2, [], [], none, none, none⟩,
        ⟨3, [], [], none, none, none⟩]
      [⟨2, [], [], none, none, none⟩, ⟨3, [], [], none, none, none⟩,
        ⟨4, [], [], none, none, none⟩] 60 1 1 8) =
      rrfFuseStableSpec 60 1 1
        (([⟨1, [], [], none, none, none⟩, ⟨2, [], [], none, none, none⟩,
          ⟨3, [], [], none, none, none⟩] : List ResultItem).map (fun e => e.chunk_id))
        (([⟨2, [], [], none, none, none⟩, ⟨3, [], [], none, none, none⟩,
          ⟨4, [], [], none, none, none⟩] : List ResultItem).map (fun e => e.chunk_id)) 8 :=
  ⟨by decide, by decide, claim_C1_rrf_fusion.1 _ _ 60 1 1 8 (by decide) (by decide)⟩

/-- C8: for every pair of input result lists and every `final_k`, the fused
list returned by `rrf_fuse` contains no duplicate chunk ids and has length at
most `final_k`. -/
theorem claim_C8_fused_nodup_and_length (bm vec : List ResultItem)
    (rrf_k w1 w2 : ℚ) (tk : ℕ) :
    ((rrf_fuse bm vec rrf_k w1 w2 tk).map (fun e => e.chunk_id)).Nodup ∧
    (rrf_fuse bm vec rrf_k w1 w2 tk).length ≤ tk := by
  constructor
  · have hkeys : (fusedKeys (rrfLoopVec rrf_k w2 vec 1
        (rrfLoopBm25 rrf_k w1 bm 1 []))).Nodup :=
      fusedKeys_rrfLoopVec_nodup _ _ _ _ _
        (fusedKeys_rrfLoopBm25_nodup _ _ _ _ _ (by simp [fusedKeys]))
    have hperm : List.Perm
        ((stableSort fusedLe (rrfLoopVec rrf_k w2 vec 1
          (rrfLoopBm25 rrf_k w1 bm 1 []))).map (fun e => e.chunk_id))
        ((rrfLoopVec rrf_k w2 vec 1 (rrfLoopBm25 rrf_k w1 bm 1 [])).map
          (fun e => e.chunk_id)) :=
      (stableSort_perm fusedLe _).map _
    have hsorted : ((stableSort fusedLe (rrfLoopVec rrf_k w2 vec 1
        (rrfLoopBm25 rrf_k w1 bm 1 []))).map (fun e => e.chunk_id)).Nodup :=
      hperm.nodup_iff.2 hkeys
    show (((stableSort fusedLe (rrfLoopVec rrf_k w2 vec 1
        (rrfLoopBm25 rrf_k w1 bm 1 []))).take tk).map (fun e => e.chunk_id)).Nodup
    rw [List.map_take]
    exact List.Nodup.sublist (List.take_sublist _ _) hsorted
  · show ((stableSort fusedLe (rrfLoopVec rrf_k w2 vec 1
        (rrfLoopBm25 rrf_k w1 bm 1 []))).take tk).length ≤ tk
    exact List.length_take_le _ _

/-! ## Lemmas for `make_bm25_query` (C9) -/

theorem toNat_ofNat_of_lt {n : ℕ} (h : n < 0xd800) : (Char.ofNat n).toNat = n := by
  have hv : n.isValidChar := Or.inl h
  rw [Char.ofNat, dif_pos hv]
  simp only [Char.ofNatAux, Char.toNat, UInt32.ofNat', UInt32.toNat, BitVec.ofNatLt]
  simp

theorem asciiLower_toNat (c : Char) :
    (asciiLower c).toNat = if 65 ≤ c.toNat ∧ c.toNat ≤ 90 then c.toNat + 32 else c.toNat := by
  by_cases h : 65 ≤ c.toNat ∧ c.toNat ≤ 90
  · rw [if_pos h]
    have hcond : (65 ≤ c.toNat && c.toNat ≤ 90) = true := by
      simp only [Bool.and_eq_true, decide_eq_true_eq]
      exact h
    simp only [asciiLower, if_pos hcond]
    exact toNat_ofNat_of_lt (by omega)
  · rw [if_neg h]
    simp only [asciiLower]
    rw [if_neg (by simpa [Bool.and_eq_true, decide_eq_true_eq] using h)]

theorem isWordChar_asciiLower {c : Char} (h : isWordChar c = true) :
    isWordChar (asciiLower c) = true := by
  simp only [isWordChar, Bool.or_eq_true, Bool.and_eq_true, decide_eq_true_eq] at h ⊢
  rw [asciiLower_toNat]
  by_cases hc : 65 ≤ c.toNat ∧ c.toNat ≤ 90
  · rw [if_pos hc]; omega
  · rw [if_neg hc]; omega

theorem asciiLower_idem (c : Char) : asciiLower (asciiLower c) = asciiLower c := by
  by_cases h : 65 ≤ c.toNat ∧ c.toNat ≤ 90
  · have ht : (asciiLower c).toNat = c.toNat + 32 := by
      rw [asciiLower_toNat, if_pos h]
    show (if 65 ≤ (asciiLower c).toNat && (asciiLower c).toNat ≤ 90 then _ else _) = _
    rw [if_neg (by simp only [ht, Bool.and_eq_true, decide_eq_true_eq]; omega)]
  · have hc : asciiLower c = c := by
      simp only [asciiLower]
      rw [if_neg (by simpa [Bool.and_eq_true, decide_eq_true_eq] using h)]
    rw [hc, hc]

theorem asciiLower_ascii {c : Char} (h : c.toNat < 128) : (asciiLower c).toNat < 128 := by
  rw [asciiLower_toNat]
  by_cases hc : 65 ≤ c.toNat ∧ c.toNat ≤ 90
  · rw [if_pos hc]; omega
  · rw [if_neg hc]; omega

theorem pyLowerChar_ascii {c : Char} (h : c.toNat < 128) :
    pyLowerChar c = [asciiLower c] := by
  have : c ≠ 'İ' := fun hh => absurd h (by rw [hh]; decide)
  simp [pyLowerChar, this]

theorem pyLower_eq_map_ascii {l : List Char} (h : ∀ c ∈ l, c.toNat < 128) :
    pyLower l = l.map asciiLower := by
  induction l with
  | nil => rfl
  | cons c cs ih =>
    simp only [pyLower, List.map_cons]
    rw [pyLowerChar_ascii (h c (by simp)), ih (fun x hx => h x (by simp [hx]))]
    rfl

theorem not_pySpace_of_word {c : Char} (h : isWordChar c = true) :
    isPySpace c = false := by
  simp only [isWordChar, Bool.or_eq_true, Bool.and_eq_true, decide_eq_true_eq] at h
  simp only [isPySpace, Bool.or_eq_false_iff, decide_eq_false_iff_not]
  omega

/-! ### Tokeniser lemmas -/

theorem tokenizeAux_sound (l : List Char) (acc : List Char)
    (hacc : ∀ c ∈ acc, isWordChar c = true) :
    ∀ t ∈ tokenizeAux l acc, t ≠ [] ∧ ∀ c ∈ t, isWordChar c = true := by
  induction l generalizing acc with
  | nil =>
    intro t ht
    simp only [tokenizeAux] at ht
    by_cases he : acc.isEmpty
    · simp [he] at ht
    · simp only [he, Bool.false_eq_true, if_false, List.mem_singleton] at ht
      subst ht
      refine ⟨?_, fun c hc => hacc c (List.mem_reverse.1 hc)⟩
      intro hh
      rw [List.reverse_eq_nil_iff] at hh
      rw [hh] at he
      simp at he
  | cons c cs ih =>
    intro t ht
    simp only [tokenizeAux] at ht
    by_cases hw : isWordChar c = true
    · rw [if_pos hw] at ht
      exact ih (c :: acc) (by
        intro x hx
        rcases List.mem_cons.1 hx with h | h
        · exact h ▸ hw
        · exact hacc x h) t ht
    · rw [if_neg hw] at ht
      by_cases he : acc.isEmpty
      · rw [if_pos he] at ht
        exact ih [] (by simp) t ht
      · rw [if_neg he] at ht
        rcases List.mem_cons.1 ht with h | h
        · subst h
          refine ⟨?_, fun x hx => hacc x (List.mem_reverse.1 hx)⟩
          intro hh
          rw [List.reverse_eq_nil_iff] at hh
          rw [hh] at he
          simp at he
        · exact ih [] (by simp) t h

theorem tokenizeAux_subset (l : List Char) (acc : List Char) :
    ∀ t ∈ tokenizeAux l acc, ∀ c ∈ t, c ∈ l ∨ c ∈ acc := by
  induction l generalizing acc with
  | nil =>
    intro t ht c hc
    simp only [tokenizeAux] at ht
    by_cases he : acc.isEmpty
    · simp [he] at ht
    · simp only [he, Bool.false_eq_true, if_false, List.mem_singleton] at ht
      exact Or.inr (List.mem_reverse.1 (ht ▸ hc))
  | cons x xs ih =>
    intro t ht c hc
    simp only [tokenizeAux] at ht
    by_cases hw : isWordChar x = true
    · rw [if_pos hw] at ht
      rcases ih (x :: acc) t ht c hc with h | h
      · exact Or.inl (by simp [h])
      · rcases List.mem_cons.1 h with h' | h'
        · exact Or.inl (by simp [h'])
        · exact Or.inr h'
    · rw [if_neg hw] at ht
      by_cases he : acc.isEmpty
      · rw [if_pos he] at ht
        rcases ih [] t ht c hc with h | h
        · exact Or.inl (by simp [h])
        · simp at h
      · rw [if_neg he] at ht
        rcases List.mem_cons.1 ht with h | h
        · exact Or.inr (List.mem_reverse.1 (h ▸ hc))
        · rcases ih [] t h c hc with h' | h'
          · exact Or.inl (by simp [h'])
          · simp at h'

theorem tokenizeAux_wordrun (t : List Char) (h : ∀ c ∈ t, isWordChar c = true) :
    ∀ (rest acc : List Char),
      tokenizeAux (t ++ rest) acc = tokenizeAux rest (t.reverse ++ acc) := by
  induction t with
  | nil => intro rest acc; simp
  | cons c cs ih =>
    intro rest acc
    have hc : isWordChar c = true := h c (by simp)
    simp only [List.cons_append, tokenizeAux, if_pos hc]
    show tokenizeAux (cs ++ rest) (c :: acc) = tokenizeAux rest ((c :: cs).reverse ++ acc)
    rw [ih (fun x hx => h x (by simp [hx])) rest (c :: acc)]
    simp

theorem isWordChar_space : isWordChar ' ' = false := by decide

theorem joinSep_cons_cons (sep t t' : List Char) (ts : List (List Char)) :
    joinSep sep (t :: t' :: ts) = t ++ (sep ++ joinSep sep (t' :: ts)) := by
  simp [joinSep]

theorem findall_joinSep (ts : List (List Char))
    (h : ∀ t ∈ ts, t ≠ [] ∧ ∀ c ∈ t, isWordChar c = true) :
    findallWords (joinSep [' '] ts) = ts := by
  induction ts with
  | nil => rfl
  | cons t ts' ih =>
    have ht := h t (by simp)
    cases ts' with
    | nil =>
      show tokenizeAux (joinSep [' '] [t]) [] = [t]
      have hj : joinSep [' '] [t] = t ++ [] := by simp [joinSep]
      rw [hj, tokenizeAux_wordrun t ht.2 [] []]
      simp only [tokenizeAux, List.append_nil]
      rw [if_neg (by simp [ht.1]), List.reverse_reverse]
    | cons t' ts'' =>
      show tokenizeAux (joinSep [' '] (t :: t' :: ts'')) [] = t :: t' :: ts''
      rw [joinSep_cons_cons, tokenizeAux_wordrun t ht.2 _ []]
      show tokenizeAux (' ' :: joinSep [' '] (t' :: ts'')) (t.reverse ++ []) = _
      simp only [tokenizeAux, isWordChar_space, Bool.false_eq_true, if_false,
        List.append_nil]
      rw [if_neg (by simp [ht.1]), List.reverse_reverse]
      exact congrArg (t :: ·) (ih (fun u hu => h u (by simp [hu])))

theorem getLast?_mem : ∀ {l : List α} {a : α}, l.getLast? = some a → a ∈ l
  | [], a, h => by simp at h
  | [x], a, h => by simp at h; simp [h]
  | x :: y :: t, a, h => by
    rw [List.getLast?_cons_cons] at h
    exact List.mem_cons_of_mem x (getLast?_mem h)

theorem joinSep_ne_nil {t : List Char} {ts : List (List Char)} (h : t ≠ []) :
    joinSep [' '] (t :: ts) ≠ [] := by
  cases ts with
  | nil => exact h
  | cons t' ts' =>
    rw [joinSep_cons_cons]
    simp [h]

theorem joinSep_getLast?_word (ts : List (List Char))
    (h : ∀ t ∈ ts, t ≠ [] ∧ ∀ c ∈ t, isWordChar c = true) :
    ∀ c, (joinSep [' '] ts).getLast? = some c → isWordChar c = true := by
  induction ts with
  | nil => intro c hc; simp [joinSep] at hc
  | cons t ts' ih =>
    intro c hc
    cases ts' with
    | nil =>
      exact (h t (by simp)).2 c (getLast?_mem hc)
    | cons t' ts'' =>
      have hJne : joinSep [' '] (t' :: ts'') ≠ [] := joinSep_ne_nil (h t' (by simp)).1
      obtain ⟨x, hx⟩ := Option.isSome_iff_exists.1 (List.getLast?_isSome.2 hJne)
      rw [joinSep_cons_cons, List.getLast?_append, List.getLast?_append, hx] at hc
      simp only [Option.or_some] at hc
      exact ih (fun u hu => h u (by simp [hu])) c (hx.trans hc)

theorem pyLStrip_eq_self {l : List Char}
    (h : ∀ c, l.head? = some c → isPySpace c = false) : pyLStrip l = l := by
  cases l with
  | nil => rfl
  | cons c cs =>
    simp only [pyLStrip, List.dropWhile_cons, h c rfl, Bool.false_eq_true, if_false]

theorem pyRStrip_eq_self {l : List Char}
    (h : ∀ c, l.getLast? = some c → isPySpace c = false) : pyRStrip l = l := by
  rcases hrev : l.reverse with _ | ⟨c, cs⟩
  · have : l = [] := by simpa using congrArg List.reverse hrev
    simp [this, pyRStrip]
  · have hlast : l.getLast? = some c := by
      rw [← List.head?_reverse, hrev]; rfl
    simp only [pyRStrip, hrev, List.dropWhile_cons, h c hlast, Bool.false_eq_true,
      if_false]
    rw [← hrev, List.reverse_reverse]

theorem pyStrip_joinSep (ts : List (List Char))
    (h : ∀ t ∈ ts, t ≠ [] ∧ ∀ c ∈ t, isWordChar c = true) :
    pyStrip (joinSep [' '] ts) = joinSep [' '] ts := by
  cases ts with
  | nil => rfl
  | cons t ts' =>
    have ht := h t (by simp)
    have hhd : ∀ c, (joinSep [' '] (t :: ts')).head? = some c → isPySpace c = false := by
      intro c hc
      rcases ht' : t with _ | ⟨x, xs⟩
      · exact absurd ht' ht.1
      · have : (joinSep [' '] (t :: ts')).head? = some x := by
          cases ts' with
          | nil => simp [joinSep, ht']
          | cons u us => simp [joinSep, ht']
        rw [this] at hc
        have hxc : x = c := Option.some.inj hc
        rw [← hxc]
        exact not_pySpace_of_word (ht.2 x (by simp [ht']))
    have hlast := joinSep_getLast?_word (t :: ts') h
    rw [pyStrip, pyLStrip_eq_self hhd]
    refine pyRStrip_eq_self (fun c hc => not_pySpace_of_word (hlast c hc))

/-! ### The heuristic accumulation loop -/

theorem heuristicLoop_mem (mt : ℤ) :
    ∀ (ts acc : List (List Char)) (t : List Char), t ∈ heuristicLoop mt ts acc →
      t ∈ acc ∨ (t ∈ ts ∧ ¬t.length < 3 ∧ t ∉ bm25Stopwords) := by
  intro ts
  induction ts with
  | nil =>
    intro acc t ht
    exact Or.inl (List.mem_reverse.1 ht)
  | cons u us ih =>
    intro acc t ht
    simp only [heuristicLoop] at ht
    by_cases h1 : u.length < 3
    · rw [if_pos h1] at ht
      rcases ih acc t ht with h | h
      · exact Or.inl h
      · exact Or.inr ⟨by simp [h.1], h.2⟩
    · rw [if_neg h1] at ht
      by_cases h2 : u ∈ bm25Stopwords
      · rw [if_pos h2] at ht
        rcases ih acc t ht with h | h
        · exact Or.inl h
        · exact Or.inr ⟨by simp [h.1], h.2⟩
      · rw [if_neg h2] at ht
        by_cases h3 : u ∈ acc
        · rw [if_pos h3] at ht
          rcases ih acc t ht with h | h
          · exact Or.inl h
          · exact Or.inr ⟨by simp [h.1], h.2⟩
        · rw [if_neg h3] at ht
          by_cases h4 : mt ≤ (((u :: acc).length : ℕ) : ℤ)
          · rw [if_pos h4] at ht
            rw [List.mem_reverse] at ht
            rcases List.mem_cons.1 ht with h | h
            · exact Or.inr ⟨by simp [h], h ▸ h1, h ▸ h2⟩
            · exact Or.inl h
          · rw [if_neg h4] at ht
            rcases ih (u :: acc) t ht with h | h
            · rcases List.mem_cons.1 h with h' | h'
              · exact Or.inr ⟨by simp [h'], h' ▸ h1, h' ▸ h2⟩
              · exact Or.inl h'
            · exact Or.inr ⟨by simp [h.1], h.2⟩

theorem heuristicLoop_nodup (mt : ℤ) :
    ∀ (ts acc : List (List Char)), acc.Nodup → (heuristicLoop mt ts acc).Nodup := by
  intro ts
  induction ts with
  | nil =>
    intro acc h
    simp only [heuristicLoop]
    exact List.nodup_reverse.2 h
  | cons u us ih =>
    intro acc h
    simp only [heuristicLoop]
    by_cases h1 : u.length < 3
    · rw [if_pos h1]; exact ih acc h
    · rw [if_neg h1]
      by_cases h2 : u ∈ bm25Stopwords
      · rw [if_pos h2]; exact ih acc h
      · rw [if_neg h2]
        by_cases h3 : u ∈ acc
        · rw [if_pos h3]; exact ih acc h
        · rw [if_neg h3]
          have hnd : (u :: acc).Nodup := List.nodup_cons.2 ⟨h3, h⟩
          by_cases h4 : mt ≤ (((u :: acc).length : ℕ) : ℤ)
          · rw [if_pos h4]; exact List.nodup_reverse.2 hnd
          · rw [if_neg h4]; exact ih (u :: acc) hnd

theorem heuristicLoop_len_le (mt : ℤ) (hmt : 1 ≤ mt) :
    ∀ (ts acc : List (List Char)), ((acc.length : ℕ) : ℤ) < mt →
      (((heuristicLoop mt ts acc).length : ℕ) : ℤ) ≤ mt := by
  intro ts
  induction ts with
  | nil =>
    intro acc h
    simp only [heuristicLoop, List.length_reverse]
    omega
  | cons u us ih =>
    intro acc h
    simp only [heuristicLoop]
    by_cases h1 : u.length < 3
    · rw [if_pos h1]; exact ih acc h
    · rw [if_neg h1]
      by_cases h2 : u ∈ bm25Stopwords
      · rw [if_pos h2]; exact ih acc h
      · rw [if_neg h2]
        by_cases h3 : u ∈ acc
        · rw [if_pos h3]; exact ih acc h
        · rw [if_neg h3]
          by_cases h4 : mt ≤ (((u :: acc).length : ℕ) : ℤ)
          · rw [if_pos h4]
            simp only [List.length_reverse, List.length_cons] at *
            omega
          · rw [if_neg h4]
            refine ih (u :: acc) ?_
            simp only [List.length_cons] at *
            omega

theorem heuristicLoop_len_le_one (mt : ℤ) (hmt : mt ≤ 0) :
    ∀ ts : List (List Char), (heuristicLoop mt ts []).length ≤ 1 := by
  intro ts
  induction ts with
  | nil => simp [heuristicLoop]
  | cons u us ih =>
    simp only [heuristicLoop]
    by_cases h1 : u.length < 3
    · rw [if_pos h1]; exact ih
    · rw [if_neg h1]
      by_cases h2 : u ∈ bm25Stopwords
      · rw [if_pos h2]; exact ih
      · rw [if_neg h2]
        rw [if_neg (by simp)]
        rw [if_pos (by simp; omega)]
        simp

theorem heuristicLoop_replay (mt : ℤ) :
    ∀ (K acc : List (List Char)),
      (∀ t ∈ K, ¬t.length < 3 ∧ t ∉ bm25Stopwords ∧ t ∉ acc) → K.Nodup →
      (((acc.length + K.length : ℕ) : ℤ) ≤ mt ∨ K.length ≤ 1) →
      heuristicLoop mt K acc = acc.reverse ++ K := by
  intro K
  induction K with
  | nil =>
    intro acc _ _ _
    simp [heuristicLoop]
  | cons t K' ih =>
    intro acc hf hnd hb
    have hft := hf t (by simp)
    simp only [heuristicLoop]
    rw [if_neg hft.1, if_neg hft.2.1, if_neg hft.2.2]
    simp only [List.nodup_cons] at hnd
    by_cases h4 : mt ≤ (((t :: acc).length : ℕ) : ℤ)
    · rw [if_pos h4]
      have hK' : K' = [] := by
        rcases hb with hb | hb
        · have := List.length_eq_zero.2 (rfl : ([] : List (List Char)) = [])
          simp only [List.length_cons] at hb h4
          have : K'.length = 0 := by omega
          exact List.length_eq_zero.1 this
        · simp only [List.length_cons] at hb
          exact List.length_eq_zero.1 (by omega)
      subst hK'
      simp
    · rw [if_neg h4]
      rw [ih (t :: acc) ?_ hnd.2 ?_]
      · simp
      · intro u hu
        have hfu := hf u (by simp [hu])
        refine ⟨hfu.1, hfu.2.1, ?_⟩
        simp only [List.mem_cons, not_or]
        exact ⟨fun hh => hnd.1 (hh ▸ hu), hfu.2.2⟩
      · rcases hb with hb | hb
        · left
          simp only [List.length_cons] at hb ⊢
          omega
        · right
          simp only [List.length_cons] at hb
          omega

/-! ## Claim theorems for `make_bm25_query` (C9) -/

/-- The lowered tokens of an ASCII query are non-empty, consist of word
characters, and are invariant under a further `lower`. -/
theorem tokens_good {q : List Char} (hq : ∀ c ∈ q, c.toNat < 128) :
    ∀ t ∈ (findallWords q).map pyLower,
      t ≠ [] ∧ (∀ c ∈ t, isWordChar c = true) ∧ pyLower t = t := by
  intro t ht
  obtain ⟨t0, ht0, rfl⟩ := List.mem_map.1 ht
  have hs := tokenizeAux_sound q [] (by intro c hc; simp at hc) t0 ht0
  have hascii : ∀ c ∈ t0, c.toNat < 128 := by
    intro c hc
    rcases tokenizeAux_subset q [] t0 ht0 c hc with h | h
    · exact hq c h
    · simp at h
  have hmap : pyLower t0 = t0.map asciiLower := pyLower_eq_map_ascii hascii
  have hascii' : ∀ c ∈ t0.map asciiLower, c.toNat < 128 := by
    intro c hc
    obtain ⟨c0, hc0, rfl⟩ := List.mem_map.1 hc
    exact asciiLower_ascii (hascii c0 hc0)
  refine ⟨?_, ?_, ?_⟩
  · rw [hmap]
    simp only [ne_eq, List.map_eq_nil_iff]
    exact hs.1
  · intro c hc
    rw [hmap] at hc
    obtain ⟨c0, hc0, rfl⟩ := List.mem_map.1 hc
    exact isWordChar_asciiLower (hs.2 c0 hc0)
  · rw [hmap, pyLower_eq_map_ascii hascii', List.map_map]
    exact List.map_congr_left (fun c _ => asciiLower_idem c)

/-- C9 (amended): on ASCII input text (code points < 128) the `build_match`
preprocessor is idempotent, for every mode and every `max_terms`. -/
theorem claim_C9_build_match_idempotent (q mode : List Char) (mt : ℤ)
    (hq : ∀ c ∈ q, c.toNat < 128) :
    make_bm25_query (make_bm25_query q mode mt) mode mt =
      make_bm25_query q mode mt := by
  have htok := tokens_good hq
  set tokens := (findallWords q).map pyLower with htokens
  have htok' : ∀ t ∈ tokens, t ≠ [] ∧ ∀ c ∈ t, isWordChar c = true :=
    fun t ht => ⟨(htok t ht).1, (htok t ht).2.1⟩
  by_cases hm : mode = "raw".toList
  · have e1 : make_bm25_query q mode mt = joinSep [' '] tokens := by
      simp only [make_bm25_query, if_pos hm, ← htokens]
      exact pyStrip_joinSep tokens htok'
    have e2 : findallWords (joinSep [' '] tokens) = tokens :=
      findall_joinSep tokens htok'
    have e3 : tokens.map pyLower = tokens := by
      rw [@List.map_congr_left _ _ _ _ id (fun t ht => (htok t ht).2.2), List.map_id]
    rw [e1]
    simp only [make_bm25_query, if_pos hm, e2, e3]
    exact pyStrip_joinSep tokens htok'
  · set K := heuristicLoop mt tokens [] with hK
    have hKmem : ∀ t ∈ K, t ∈ tokens ∧ ¬t.length < 3 ∧ t ∉ bm25Stopwords := by
      intro t ht
      rcases heuristicLoop_mem mt tokens [] t ht with h | h
      · simp at h
      · exact h
    have hKgood : ∀ t ∈ K, t ≠ [] ∧ ∀ c ∈ t, isWordChar c = true :=
      fun t ht => htok' t (hKmem t ht).1
    have e1 : make_bm25_query q mode mt = joinSep [' '] K := by
      simp only [make_bm25_query, if_neg hm, ← htokens, ← hK]
      exact pyStrip_joinSep K hKgood
    have e2 : findallWords (joinSep [' '] K) = K := findall_joinSep K hKgood
    have e3 : K.map pyLower = K := by
      rw [@List.map_congr_left _ _ _ _ id
        (fun t ht => (htok t (hKmem t ht).1).2.2), List.map_id]
    have hnd : K.Nodup := heuristicLoop_nodup mt tokens [] (by simp)
    have hbound : (((0 + K.length : ℕ) : ℤ) ≤ mt ∨ K.length ≤ 1) := by
      by_cases hmt0 : mt ≤ 0
      · exact Or.inr (heuristicLoop_len_le_one mt hmt0 tokens)
      · left
        simp only [Nat.zero_add]
        exact heuristicLoop_len_le mt (by omega) tokens [] (by simp; omega)
    have e4 : heuristicLoop mt K [] = K := by
      rw [heuristicLoop_replay mt K [] ?_ hnd ?_]
      · simp
      · intro t ht
        exact ⟨(hKmem t ht).2.1, (hKmem t ht).2.2, by simp⟩
      · simpa using hbound
    rw [e1]
    simp only [make_bm25_query, if_neg hm, e2, e3, e4]
    exact pyStrip_joinSep K hKgood

/-- Witness for C9 on a concrete ASCII query in heuristic mode. -/
theorem claim_C9_build_match_idempotent_witness :
    (∀ c ∈ ("Hello, World! the quick brown fox".toList : List Char), c.toNat < 128) ∧
    make_bm25_query (make_bm25_query "Hello, World! the quick brown fox".toList
        "heuristic".toList 10) "heuristic".toList 10 =
      make_bm25_query "Hello, World! the quick brown fox".toList
        "heuristic".toList 10 :=
  ⟨by decide, claim_C9_build_match_idempotent _ _ 10 (by decide)⟩

/-- Counterexample to C9 as stated: `build_match` is not idempotent on every
input text.  On the query `"İstanbul"` (raw mode) the first application
lowercases `İ` to `i` followed by U+0307, whose combining dot is not a word
character, so the second application splits the token: the outputs are
`"i̇stanbul"` and `"i stanbul"`. -/
theorem claim_C9_counterexample :
    make_bm25_query (make_bm25_query "İstanbul".toList "raw".toList 10)
        "raw".toList 10 ≠
      make_bm25_query "İstanbul".toList "raw".toList 10 := by decide

/-! ## Claim theorems for the debug-retrieval vector stage (C2) -/

theorem mem_fusedKeys_rrfLoopBm25 (rrf_k w : ℚ) :
    ∀ (L : List ResultItem) (r : ℕ) (A : List FusedItem) (c : ℤ),
      c ∈ fusedKeys (rrfLoopBm25 rrf_k w L r A) →
      c ∈ fusedKeys A ∨ c ∈ L.map (fun e => e.chunk_id) := by
  intro L
  induction L with
  | nil => intro r A c hc; exact Or.inl hc
  | cons item rest ih =>
    intro r A c hc
    simp only [rrfLoopBm25] at hc
    by_cases hm : fusedContains item.chunk_id A = true
    · rw [if_pos hm] at hc
      rcases ih (r + 1) _ c hc with h | h
      · rw [fusedKeys_addScore] at h
        exact Or.inl h
      · exact Or.inr (by simp [h])
    · rw [if_neg hm] at hc
      rcases ih (r + 1) _ c hc with h | h
      · rw [fusedKeys_addScore, fusedKeys_append] at h
        rcases List.mem_append.1 h with h' | h'
        · exact Or.inl h'
        · simp only [fusedKeys, bmInit, List.map_cons, List.map_nil,
            List.mem_singleton] at h'
          exact Or.inr (by simp [h'])
      · exact Or.inr (by simp [h])

/-- C2 (amended): when the query embedding dimension differs from the stored
index dimension, the `debug_retrieval` vector stage completes without raising: it
returns no vector results, a structured dimension-mismatch warning, and the
fusion of the lexical results alone — every fused chunk id comes from the
lexical list. -/
theorem claim_C2_dimension_mismatch_lexical_only (query_dim d : ℕ)
    (bm25_results : List ResultItem)
    (vecSearch : Unit → Except (List Char) (List ResultItem))
    (rrf_k w_bm25 w_vec : ℚ) (top_k : ℕ) (hd : query_dim ≠ d) :
    (debug_retrieval_vector_stage query_dim (some d) bm25_results vecSearch
        rrf_k w_bm25 w_vec top_k).vec_results = [] ∧
    (debug_retrieval_vector_stage query_dim (some d) bm25_results vecSearch
        rrf_k w_bm25 w_vec top_k).vec_error =
      some (dimensionMismatchMsg query_dim d) ∧
    (debug_retrieval_vector_stage query_dim (some d) bm25_results vecSearch
        rrf_k w_bm25 w_vec top_k).fused =
      rrf_fuse bm25_results [] rrf_k w_bm25 w_vec top_k ∧
    ∀ e ∈ (debug_retrieval_vector_stage query_dim (some d) bm25_results
        vecSearch rrf_k w_bm25 w_vec top_k).fused,
      e.chunk_id ∈ bm25_results.map (fun x => x.chunk_id) := by
  have hstage : debug_retrieval_vector_stage query_dim (some d) bm25_results
      vecSearch rrf_k w_bm25 w_vec top_k =
      { vec_results := [],
        vec_error := some (dimensionMismatchMsg query_dim d),
        fused := rrf_fuse bm25_results [] rrf_k w_bm25 w_vec top_k } := by
    simp [debug_retrieval_vector_stage, hd]
  refine ⟨by rw [hstage], by rw [hstage], by rw [hstage], ?_⟩
  intro e he
  rw [hstage] at he
  show e.chunk_id ∈ bm25_results.map (fun x => x.chunk_id)
  have he' : e ∈ (stableSort fusedLe
      (rrfLoopVec rrf_k w_vec [] 1 (rrfLoopBm25 rrf_k w_bm25 bm25_results 1 []))).take
        top_k := he
  have he2 := List.mem_of_mem_take he'
  have he3 : e ∈ rrfLoopVec rrf_k w_vec [] 1
      (rrfLoopBm25 rrf_k w_bm25 bm25_results 1 []) :=
    (stableSort_perm fusedLe _).mem_iff.1 he2
  have he4 : e ∈ rrfLoopBm25 rrf_k w_bm25 bm25_results 1 [] := he3
  have hkey : e.chunk_id ∈ fusedKeys (rrfLoopBm25 rrf_k w_bm25 bm25_results 1 []) :=
    List.mem_map_of_mem _ he4
  rcases mem_fusedKeys_rrfLoopBm25 rrf_k w_bm25 bm25_results 1 [] e.chunk_id hkey with
    h | h
  · simp [fusedKeys] at h
  · exact h

/-- Witness for C2 at dimensions 768 vs 1024. -/
theorem claim_C2_dimension_mismatch_lexical_only_witness :
    (768 : ℕ) ≠ 1024 ∧
    (debug_retrieval_vector_stage 768 (some 1024)
        [⟨7, [], [], none, none, none⟩] (fun _ => .ok []) 60 1 1 8).vec_results = [] ∧
    (debug_retrieval_vector_stage 768 (some 1024)
        [⟨7, [], [], none, none, none⟩] (fun _ => .ok []) 60 1 1 8).vec_error =
      some (dimensionMismatchMsg 768 1024) :=
  ⟨by decide,
   (claim_C2_dimension_mismatch_lexical_only 768 1024 _ _ 60 1 1 8 (by decide)).1,
   (claim_C2_dimension_mismatch_lexical_only 768 1024 _ _ 60 1 1 8 (by decide)).2.1⟩

/-- Counterexample to C2 as stated: the claim covers the query retrieval
path it cites (`answer_question`, `src/rag/qa.py` lines 196-215), and there
a dimension mismatch is *not* survived.  `answer_question` calls
`faiss_mgr.search` with no dimension check and no `try/except`, and neither
the `/chat` route nor `main.py` installs a handler, so the `ValueError`
raised by `FaissIndexManager.search` fails the request.  Concretely: with a
768-dimensional query embedding against a 1024-dimensional index, the
retrieval stage errors out instead of completing with lexical-only
results. -/
theorem claim_C2_counterexample :
    qa_retrieval_stage 768 (some 1024) [⟨7, [], [], none, none, none⟩]
        (fun _ => []) 60 1 1 8 =
      .error "query_vector dim must be 1024, got 768".toList := by
  rfl

/-! ## Claim theorems for ingest deduplication (C6) -/

theorem ingestLoop_all_dup (H : List ℕ → List Char) (chunksOf : List ℕ → ℕ) :
    ∀ (files : List IngestFileRec) (st : IngestState) (d c v : ℕ),
      (∀ f ∈ files, st.documents.any (fun r => r.sha256 = H f.bytes) = true) →
      ingestLoop H chunksOf files st d c v = (d, c, v, st) := by
  intro files
  induction files with
  | nil => intro st d c v _; rfl
  | cons f rest ih =>
    intro st d c v h
    simp only [ingestLoop, if_pos (h f (by simp))]
    exact ih st d c v (fun g hg => h g (by simp [hg]))

/-- C6 (amended): re-ingesting only files whose content digest is already
present adds no document, chunk, or vector (all counters 0, state unchanged),
and the response object has exactly the fields `received`,
`documents_added`, `chunks_added`, `vectors_added` — there is no `skipped`
field recording the duplicates. -/
theorem claim_C6_dedup_summary (H : List ℕ → List Char) (chunksOf : List ℕ → ℕ)
    (files : List IngestFileRec) (st : IngestState)
    (hdup : ∀ f ∈ files, st.documents.any (fun r => r.sha256 = H f.bytes) = true) :
    ingest_route H chunksOf files st =
      ([("received", RespVal.names (files.map (fun f => f.filename))),
        ("documents_added", RespVal.nat 0), ("chunks_added", RespVal.nat 0),
        ("vectors_added", RespVal.nat 0)], st) ∧
    (ingest_route H chunksOf files st).1.map Prod.fst =
      ["received", "documents_added", "chunks_added", "vectors_added"] ∧
    "skipped" ∉ (ingest_route H chunksOf files st).1.map Prod.fst := by
  have hloop := ingestLoop_all_dup H chunksOf files st 0 0 0 hdup
  have hroute : ingest_route H chunksOf files st =
      ([("received", RespVal.names (files.map (fun f => f.filename))),
        ("documents_added", RespVal.nat 0), ("chunks_added", RespVal.nat 0),
        ("vectors_added", RespVal.nat 0)], st) := by
    simp [ingest_route, ingest_files, hloop]
  refine ⟨hroute, ?_, ?_⟩
  · rw [hroute]
    rfl
  · rw [hroute]
    simp

/-- Witness for C6: one file whose digest is already in the store. -/
theorem claim_C6_dedup_summary_witness :
    (∀ f ∈ [(⟨"a.pdf".toList, [1, 2, 3]⟩ : IngestFileRec)],
      (IngestState.mk [⟨"a.pdf".toList, ['x']⟩] 5 5).documents.any
        (fun r => r.sha256 = (fun _ => ['x']) f.bytes) = true) ∧
    ingest_route (fun _ => ['x']) (fun _ => 4)
        [⟨"a.pdf".toList, [1, 2, 3]⟩] (IngestState.mk [⟨"a.pdf".toList, ['x']⟩] 5 5) =
      ([("received", RespVal.names ["a.pdf".toList]),
        ("documents_added", RespVal.nat 0), ("chunks_added", RespVal.nat 0),
        ("vectors_added", RespVal.nat 0)],
       IngestState.mk [⟨"a.pdf".toList, ['x']⟩] 5 5) :=
  ⟨by decide,
   (claim_C6_dedup_summary (fun _ => ['x']) (fun _ => 4) _ _ (by decide)).1⟩

/-- Counterexample to C6 as stated: the ingest response of a duplicate upload
has no `skipped` field at all — its keys are exactly `received`,
`documents_added`, `chunks_added`, `vectors_added`. -/
theorem claim_C6_counterexample :
    (ingest_route (fun _ => ['x']) (fun _ => 4) [⟨"a.pdf".toList, [1, 2, 3]⟩]
        (IngestState.mk [⟨"a.pdf".toList, ['x']⟩] 5 5)).1.map Prod.fst =
      ["received", "documents_added", "chunks_added", "vectors_added"] ∧
    "skipped" ∉ (ingest_route (fun _ => ['x']) (fun _ => 4)
        [⟨"a.pdf".toList, [1, 2, 3]⟩]
        (IngestState.mk [⟨"a.pdf".toList, ['x']⟩] 5 5)).1.map Prod.fst := by
  refine ⟨by decide, by decide⟩

/-! ## C10: injection with an empty token list is the identity -/

/-- C10: for every answer text and every list of missing-paragraph indices,
`_inject_citations_per_paragraph` with an empty `cite_tokens` list returns
its input unchanged — the repair step is the identity when the token
vocabulary is empty. -/
theorem claim_C10_inject_empty_tokens_identity
    (answer_text : List Char) (missing_paragraphs : List ℕ) :
    inject_citations_per_paragraph answer_text [] missing_paragraphs =
      answer_text := by
  simp [inject_citations_per_paragraph]

/-! ## C7: the empty-retrieval refusal -/

/-- C7: whenever the fused retrieval set is empty, `answer_question` returns
exactly the literal refusal answer with an empty `sources` list, and the chat
model is never invoked (`chat_calls = 0`). -/
theorem claim_C7_empty_retrieval_refusal
    (bm25_results vec_results : List ResultItem) (final_k : ℕ)
    (chat : Unit → List Char) (clean : List Char → List Char)
    (min_unique_citations : ℕ) (require_citation_per_paragraph : Bool)
    (h : rrf_fuse bm25_results vec_results 60 1 1 final_k = []) :
    answer_question bm25_results vec_results final_k chat clean
        min_unique_citations require_citation_per_paragraph =
      { answer := refusalText, sources := [],
        bm25_hits := bm25_results.length, vec_hits := vec_results.length,
        fused_count := 0, citation_ok := true, chat_calls := 0 } := by
  simp [answer_question, h]

/-- Witness for C7: no lexical and no vector results fuse to the empty list,
and the assembler answers with the refusal, no sources, no chat call. -/
theorem claim_C7_empty_retrieval_refusal_witness :
    rrf_fuse [] [] 60 1 1 8 = [] ∧
    answer_question [] [] 8 (fun _ => "model output".toList) id 1 true =
      { answer := refusalText, sources := [], bm25_hits := 0, vec_hits := 0,
        fused_count := 0, citation_ok := true, chat_calls := 0 } :=
  ⟨rfl, claim_C7_empty_retrieval_refusal [] [] 8 (fun _ => "model output".toList)
    id 1 true rfl⟩

/-! ## Decimal digit strings -/

theorem natVal_append_digit (ds : List Char) (c : Char) :
    natVal (ds ++ [c]) = natVal ds * 10 + (c.toNat - 48) := by
  simp [natVal, List.foldl_append]

theorem natDigitsAux_spec :
    ∀ fuel n, n < fuel →
      natDigitsAux fuel n ≠ [] ∧ (∀ c ∈ natDigitsAux fuel n, isDigitChar c = true) ∧
        natVal (natDigitsAux fuel n) = n := by
  intro fuel
  induction fuel with
  | zero => intro n hn; omega
  | succ f ih =>
    intro n hn
    by_cases h10 : n < 10
    · refine ⟨by simp [natDigitsAux, h10], ?_, ?_⟩
      · intro c hc
        simp only [natDigitsAux, h10, if_pos, List.mem_singleton] at hc
        subst hc
        simp only [isDigitChar, toNat_ofNat_of_lt (by omega : 48 + n < 0xd800)]
        simp only [Bool.and_eq_true, decide_eq_true_eq]
        omega
      · simp only [natDigitsAux, h10, if_pos, natVal, List.foldl_cons, List.foldl_nil]
        rw [toNat_ofNat_of_lt (by omega : 48 + n < 0xd800)]
        omega
    · have hd : n / 10 < f := by
        have h1 : n / 10 < n := Nat.div_lt_self (by omega) (by omega)
        omega
      obtain ⟨hne, hdig, hval⟩ := ih (n / 10) hd
      simp only [natDigitsAux, h10, if_neg, if_false]
      refine ⟨by simp, ?_, ?_⟩
      · intro c hc
        rcases List.mem_append.1 hc with h | h
        · exact hdig c h
        · rw [List.mem_singleton] at h
          subst h
          simp only [isDigitChar, toNat_ofNat_of_lt (by omega : 48 + n % 10 < 0xd800)]
          simp only [Bool.and_eq_true, decide_eq_true_eq]
          omega
      · rw [natVal_append_digit, hval,
          toNat_ofNat_of_lt (by omega : 48 + n % 10 < 0xd800)]
        omega

theorem natDigits_ne_nil (n : ℕ) : natDigits n ≠ [] :=
  (natDigitsAux_spec (n + 1) n (by omega)).1

theorem natDigits_digit (n : ℕ) : ∀ c ∈ natDigits n, isDigitChar c = true :=
  (natDigitsAux_spec (n + 1) n (by omega)).2.1

theorem natVal_natDigits (n : ℕ) : natVal (natDigits n) = n :=
  (natDigitsAux_spec (n + 1) n (by omega)).2.2

theorem natDigits_inj {m n : ℕ} (h : natDigits m = natDigits n) : m = n := by
  have := congrArg natVal h
  rwa [natVal_natDigits, natVal_natDigits] at this

theorem intStr_natCast (n : ℕ) : intStr (n : ℤ) = natDigits n := by
  simp [intStr]

theorem isWordChar_of_digit {c : Char} (h : isDigitChar c = true) :
    isWordChar c = true := by
  simp only [isDigitChar, Bool.and_eq_true, decide_eq_true_eq] at h
  simp only [isWordChar, Bool.or_eq_true, Bool.and_eq_true, decide_eq_true_eq]
  omega

theorem digit_ne {c : Char} (h : isDigitChar c = true) :
    c ≠ '[' ∧ c ≠ ']' ∧ c ≠ ':' ∧ c ≠ '\n' ∧ c ≠ ',' ∧ c ≠ ' ' ∧ c ≠ '|' := by
  refine ⟨?_, ?_, ?_, ?_, ?_, ?_, ?_⟩ <;>
    exact fun heq => by rw [heq] at h; exact absurd h (by decide)

theorem not_digit_rbracket : isDigitChar ']' = false := by decide

/-! ## The canonical sorted id set -/

theorem mem_dedupKeepFirst [DecidableEq α] (a : α) :
    ∀ l : List α, a ∈ dedupKeepFirst l ↔ a ∈ l := by
  intro l
  induction l with
  | nil => simp [dedupKeepFirst]
  | cons b bs ih =>
    simp only [dedupKeepFirst, List.mem_cons, List.mem_filter, ih,
      decide_eq_true_eq]
    by_cases hab : a = b
    · simp [hab]
    · simp [hab]

theorem dedupKeepFirst_nodup [DecidableEq α] :
    ∀ l : List α, (dedupKeepFirst l).Nodup := by
  intro l
  induction l with
  | nil => exact List.nodup_nil
  | cons b bs ih =>
    refine List.nodup_cons.2 ⟨?_, ih.filter _⟩
    intro hmem
    have := (List.mem_filter.1 hmem).2
    simp at this

theorem mem_sortedNats (a : ℕ) (l : List ℕ) : a ∈ sortedNats l ↔ a ∈ l := by
  unfold sortedNats
  rw [(stableSort_perm _ (dedupKeepFirst l)).mem_iff]
  exact mem_dedupKeepFirst a l

theorem sortedNats_nodup (l : List ℕ) : (sortedNats l).Nodup :=
  ((stableSort_perm _ (dedupKeepFirst l)).nodup_iff).2 (dedupKeepFirst_nodup l)

theorem insertStable_sorted_nat (x : ℕ) {l : List ℕ}
    (h : l.Pairwise (· ≤ ·)) :
    (insertStable (fun a b => decide (a ≤ b)) x l).Pairwise (· ≤ ·) := by
  induction l with
  | nil => simp [insertStable]
  | cons y ys ih =>
    simp only [insertStable]
    by_cases hxy : x ≤ y
    · simp only [decide_eq_true hxy, if_pos]
      refine List.pairwise_cons.2 ⟨?_, h⟩
      intro b hb
      rcases List.mem_cons.1 hb with hb | hb
      · omega
      · have := (List.pairwise_cons.1 h).1 b hb
        omega
    · simp only [decide_eq_false hxy, Bool.false_eq_true, if_false]
      refine List.pairwise_cons.2 ⟨?_, ih (List.pairwise_cons.1 h).2⟩
      intro b hb
      rcases (insertStable_perm (fun a b => decide (a ≤ b)) x ys).mem_iff.1 hb with hb'
      rcases List.mem_cons.1 hb' with hb'' | hb''
      · omega
      · exact (List.pairwise_cons.1 h).1 b hb''

theorem stableSort_sorted_nat :
    ∀ l : List ℕ, (stableSort (fun a b => decide (a ≤ b)) l).Pairwise (· ≤ ·) := by
  intro l
  induction l with
  | nil => exact List.Pairwise.nil
  | cons a as ih => exact insertStable_sorted_nat a ih

theorem sortedNats_sorted (l : List ℕ) : (sortedNats l).Pairwise (· ≤ ·) :=
  stableSort_sorted_nat (dedupKeepFirst l)

theorem sortedNats_congr {l l' : List ℕ} (h : ∀ a, a ∈ l ↔ a ∈ l') :
    sortedNats l = sortedNats l' := by
  have hperm : List.Perm (sortedNats l) (sortedNats l') := by
    rw [List.perm_ext_iff_of_nodup (sortedNats_nodup l) (sortedNats_nodup l')]
    intro a
    rw [mem_sortedNats, mem_sortedNats]
    exact h a
  exact List.eq_of_perm_of_sorted hperm (sortedNats_sorted l) (sortedNats_sorted l')

/-! ## Generic `takeWhile` helpers -/

theorem takeWhile_append_all {p : Char → Bool} :
    ∀ (ds l : List Char), (∀ c ∈ ds, p c = true) →
      (ds ++ l).takeWhile p = ds ++ l.takeWhile p := by
  intro ds
  induction ds with
  | nil => intro l _; rfl
  | cons d ds' ih =>
    intro l h
    simp only [List.cons_append, List.takeWhile_cons, h d (by simp)]
    simp [ih l (fun c hc => h c (by simp [hc]))]

theorem takeWhile_nil_of_head {p : Char → Bool} {x : Char} (l : List Char)
    (h : p x = false) : (x :: l).takeWhile p = [] := by
  simp [List.takeWhile_cons, h]

/-- The digit run at the front of `ds ++ x :: l` is exactly `ds` when all of
`ds` satisfies `p` and `x` does not. -/
theorem takeWhile_digits_exact {p : Char → Bool} (ds : List Char) {x : Char}
    (l : List Char) (hds : ∀ c ∈ ds, p c = true) (hx : p x = false) :
    (ds ++ x :: l).takeWhile p = ds := by
  rw [takeWhile_append_all ds (x :: l) hds, takeWhile_nil_of_head l hx,
    List.append_nil]

/-! ## Character facts about rendered citation segments -/

theorem cidBlocks_chars (ids : List ℕ) :
    ∀ c ∈ cidBlocks ids, c = 'c' ∨ c = 'i' ∨ c = 'd' ∨ c = ':' ∨ c = ',' ∨
      c = ' ' ∨ isDigitChar c = true := by
  have hblock : ∀ c ∈ "cid:".toList, c = 'c' ∨ c = 'i' ∨ c = 'd' ∨ c = ':' := by
    decide
  have hsep : ∀ c ∈ ", ".toList, c = ',' ∨ c = ' ' := by decide
  induction ids with
  | nil => intro c hc; simp [cidBlocks, joinSep] at hc
  | cons n t ih =>
    intro c hc
    cases t with
    | nil =>
      simp only [cidBlocks, List.map_cons, List.map_nil, joinSep] at hc
      rcases List.mem_append.1 hc with h | h
      · rcases hblock c h with h | h | h | h <;> tauto
      · exact Or.inr (Or.inr (Or.inr (Or.inr (Or.inr (Or.inr
          (natDigits_digit n c h))))))
    | cons m t' =>
      have hsplit : cidBlocks (n :: m :: t') =
          ("cid:".toList ++ natDigits n) ++ ", ".toList ++ cidBlocks (m :: t') := by
        simp [cidBlocks, joinSep_cons_cons]
      rw [hsplit] at hc
      rcases List.mem_append.1 hc with h | h
      · rcases List.mem_append.1 h with h2 | h2
        · rcases List.mem_append.1 h2 with h3 | h3
          · rcases hblock c h3 with h4 | h4 | h4 | h4 <;> tauto
          · exact Or.inr (Or.inr (Or.inr (Or.inr (Or.inr (Or.inr
              (natDigits_digit n c h3))))))
        · rcases hsep c h2 with h4 | h4 <;> tauto
      · exact ih c h

theorem cidBlocks_ne (ids : List ℕ) :
    ∀ c ∈ cidBlocks ids, c ≠ '[' ∧ c ≠ ']' ∧ c ≠ '\n' := by
  intro c hc
  rcases cidBlocks_chars ids c hc with h | h | h | h | h | h | h
  · subst h; exact ⟨by decide, by decide, by decide⟩
  · subst h; exact ⟨by decide, by decide, by decide⟩
  · subst h; exact ⟨by decide, by decide, by decide⟩
  · subst h; exact ⟨by decide, by decide, by decide⟩
  · subst h; exact ⟨by decide, by decide, by decide⟩
  · subst h; exact ⟨by decide, by decide, by decide⟩
  · obtain ⟨h1, h2, _, h4, _⟩ := digit_ne h
    exact ⟨h1, h2, h4⟩

/-! ## The `_CID_SIMPLE` scanner on rendered text -/

theorem simpleMatchAt_of_ne {c : Char} (h : c ≠ '[') (l : List Char) :
    simpleMatchAt (c :: l) = none := by
  simp only [simpleMatchAt]
  rw [if_neg]
  intro hcontra
  rw [show "[cid:".toList = ['[', 'c', 'i', 'd', ':'] from rfl] at hcontra
  have hc : (c :: l).take 5 = c :: l.take 4 := rfl
  rw [hc] at hcontra
  injection hcontra with h1 _
  exact h h1

theorem simpleCids_cons_of_none {c : Char} {l : List Char}
    (h : simpleMatchAt (c :: l) = none) : simpleCids (c :: l) = simpleCids l := by
  simp [simpleCids, h]

theorem simpleCids_append_nobr {s : List Char} (h : ∀ c ∈ s, c ≠ '[') :
    ∀ l, simpleCids (s ++ l) = simpleCids l := by
  induction s with
  | nil => intro l; rfl
  | cons c s' ih =>
    intro l
    rw [List.cons_append,
      simpleCids_cons_of_none (simpleMatchAt_of_ne (h c (by simp)) _)]
    exact ih (fun x hx => h x (by simp [hx])) l

theorem renderSeg_cite_explicit (n : ℕ) (rest : List Char) :
    renderSeg (.cite n) ++ rest =
      '[' :: 'c' :: 'i' :: 'd' :: ':' :: (natDigits n ++ (']' :: rest)) := by
  simp [renderSeg]

theorem simpleMatchAt_cite (n : ℕ) (rest : List Char) :
    simpleMatchAt (renderSeg (.cite n) ++ rest) = some n := by
  rw [renderSeg_cite_explicit]
  simp only [simpleMatchAt]
  have htake : ('[' :: 'c' :: 'i' :: 'd' :: ':' ::
      (natDigits n ++ (']' :: rest))).take 5 = "[cid:".toList := rfl
  rw [if_pos htake]
  have hdrop : ('[' :: 'c' :: 'i' :: 'd' :: ':' ::
      (natDigits n ++ (']' :: rest))).drop 5 = natDigits n ++ (']' :: rest) := rfl
  rw [hdrop]
  rw [takeWhile_digits_exact (natDigits n) rest (natDigits_digit n)
    not_digit_rbracket]
  rw [List.drop_left]
  rw [if_pos ⟨natDigits_ne_nil n, rfl⟩, natVal_natDigits]

theorem simpleCids_cite (n : ℕ) (rest : List Char) :
    simpleCids (renderSeg (.cite n) ++ rest) = n :: simpleCids rest := by
  have hm : simpleMatchAt (renderSeg (.cite n) ++ rest) = some n :=
    simpleMatchAt_cite n rest
  rw [renderSeg_cite_explicit] at hm ⊢
  have hstep : simpleCids ('[' :: 'c' :: 'i' :: 'd' :: ':' ::
      (natDigits n ++ (']' :: rest))) =
      n :: simpleCids ('c' :: 'i' :: 'd' :: ':' :: (natDigits n ++ (']' :: rest))) := by
    simp [simpleCids, hm]
  rw [hstep]
  congr 1
  have hshape : 'c' :: 'i' :: 'd' :: ':' :: (natDigits n ++ (']' :: rest)) =
      ('c' :: 'i' :: 'd' :: ':' :: (natDigits n ++ [']'])) ++ rest := by simp
  rw [hshape, simpleCids_append_nobr]
  intro c hc
  have hcase : c = 'c' ∨ c = 'i' ∨ c = 'd' ∨ c = ':' ∨ c ∈ natDigits n ∨
      c = ']' := by
    simp only [List.mem_cons, List.mem_append, List.mem_singleton,
      List.not_mem_nil, or_false] at hc
    tauto
  rcases hcase with h | h | h | h | h | h
  · subst h; decide
  · subst h; decide
  · subst h; decide
  · subst h; decide
  · exact (digit_ne (natDigits_digit n c h)).1
  · subst h; decide

theorem renderSeg_source_explicit (f : List Char) (ids : List ℕ)
    (rest : List Char) :
    renderSeg (.source f ids) ++ rest =
      '[' :: 'S' :: 'o' :: 'u' :: 'r' :: 'c' :: 'e' :: ':' :: ' ' ::
        (f ++ (' ' :: '|' :: ' ' :: (cidBlocks ids ++ (']' :: rest)))) := by
  simp [renderSeg]

theorem simpleMatchAt_source (f : List Char) (ids : List ℕ) (rest : List Char) :
    simpleMatchAt (renderSeg (.source f ids) ++ rest) = none := by
  rw [renderSeg_source_explicit]
  simp only [simpleMatchAt]
  rw [if_neg]
  intro h
  rw [show ('[' :: 'S' :: 'o' :: 'u' :: 'r' :: 'c' :: 'e' :: ':' :: ' ' ::
      (f ++ (' ' :: '|' :: ' ' :: (cidBlocks ids ++ (']' :: rest))))).take 5 =
      ['[', 'S', 'o', 'u', 'r'] from rfl] at h
  exact absurd h (by decide)

theorem simpleCids_source (f : List Char) (ids : List ℕ)
    (hf : ∀ c ∈ f, c ≠ '[') (rest : List Char) :
    simpleCids (renderSeg (.source f ids) ++ rest) = simpleCids rest := by
  have hm := simpleMatchAt_source f ids rest
  rw [renderSeg_source_explicit] at hm ⊢
  rw [simpleCids_cons_of_none hm]
  have hshape : 'S' :: 'o' :: 'u' :: 'r' :: 'c' :: 'e' :: ':' :: ' ' ::
      (f ++ (' ' :: '|' :: ' ' :: (cidBlocks ids ++ (']' :: rest)))) =
      ('S' :: 'o' :: 'u' :: 'r' :: 'c' :: 'e' :: ':' :: ' ' ::
        (f ++ (' ' :: '|' :: ' ' :: (cidBlocks ids ++ [']'])))) ++ rest := by
    simp
  rw [hshape, simpleCids_append_nobr]
  intro c hc
  have hcase : c = 'S' ∨ c = 'o' ∨ c = 'u' ∨ c = 'r' ∨ c = 'c' ∨ c = 'e' ∨
      c = ':' ∨ c = ' ' ∨ c ∈ f ∨ c = '|' ∨ c ∈ cidBlocks ids ∨ c = ']' := by
    simp only [List.mem_cons, List.mem_append, List.mem_singleton,
      List.not_mem_nil, or_false] at hc
    tauto
  rcases hcase with h | h | h | h | h | h | h | h | h | h | h | h
  · subst h; decide
  · subst h; decide
  · subst h; decide
  · subst h; decide
  · subst h; decide
  · subst h; decide
  · subst h; decide
  · subst h; decide
  · exact hf c h
  · subst h; decide
  · exact (cidBlocks_ne ids c h).1
  · subst h; decide

theorem simpleCids_seg (seg : CiteSeg) (h : wfSeg seg) (rest : List Char) :
    simpleCids (renderSeg seg ++ rest) = segSimple seg ++ simpleCids rest := by
  cases seg with
  | plain s =>
    simp only [segSimple, List.nil_append]
    exact simpleCids_append_nobr (fun c hc => ((h : wfSeg (.plain s)) c hc).1) rest
  | cite n => simp [segSimple, simpleCids_cite]
  | source f ids =>
    simp only [segSimple, List.nil_append]
    exact simpleCids_source f ids
      (fun c hc => ((h : wfSeg (.source f ids)).1 c hc).1) rest

theorem simpleCids_para (p : List CiteSeg) (h : ∀ seg ∈ p, wfSeg seg)
    (rest : List Char) :
    simpleCids (renderPara p ++ rest) = paraSimple p ++ simpleCids rest := by
  induction p with
  | nil => simp [renderPara, paraSimple, concatAll]
  | cons seg segs ih =>
    have hr : renderPara (seg :: segs) ++ rest =
        renderSeg seg ++ (renderPara segs ++ rest) := by
      simp [renderPara, concatAll]
    rw [hr, simpleCids_seg seg (h seg (by simp)),
      ih (fun s hs => h s (by simp [hs]))]
    simp [paraSimple]

theorem simpleCids_doc (d : List (List CiteSeg)) (h : wfDoc d) :
    simpleCids (renderDoc d) = (d.map paraSimple).flatten := by
  induction d with
  | nil => simp [renderDoc, joinSep, simpleCids]
  | cons p t ih =>
    cases t with
    | nil =>
      have : renderDoc [p] = renderPara p ++ [] := by
        simp [renderDoc, joinSep]
      rw [this, simpleCids_para p (h p (by simp)).1]
      simp [simpleCids]
    | cons q t' =>
      have hr : renderDoc (p :: q :: t') =
          renderPara p ++ ('\n' :: ('\n' :: renderDoc (q :: t'))) := by
        simp [renderDoc, joinSep_cons_cons]
      rw [hr, simpleCids_para p (h p (by simp)).1]
      rw [simpleCids_cons_of_none (simpleMatchAt_of_ne (by decide) _),
        simpleCids_cons_of_none (simpleMatchAt_of_ne (by decide) _)]
      rw [ih (fun u hu => h u (by simp [hu]))]
      simp

/-! ## The `_CID_SOURCE` scanner on rendered text -/

theorem findCidCand_append {xs ys : List Char} :
    ∀ {prev : Char}, noCand xs ys →
      findCidCand prev (xs ++ ys) = findCidCand (xs.getLastD prev) ys := by
  induction xs with
  | nil => intro prev _; rfl
  | cons x xs' ih =>
    intro prev h
    rw [List.cons_append]
    simp only [findCidCand]
    rw [if_neg (fun hcond => h.1 ⟨hcond.1, hcond.2.1⟩)]
    rw [List.getLastD_cons]
    exact ih h.2

theorem noCand_of_no_colon :
    ∀ (xs ys : List Char), ':' ∉ xs → ':' ∉ ys.take 3 → noCand xs ys := by
  intro xs
  induction xs with
  | nil => intro ys _ _; trivial
  | cons x xs' ih =>
    intro ys hx hy
    refine ⟨?_, ih ys (fun hmem => hx (by simp [hmem])) hy⟩
    rintro ⟨_, h3⟩
    have hmem : ':' ∈ (xs' ++ ys).take 3 := by rw [h3]; decide
    rw [List.take_append_eq_append_take] at hmem
    rcases List.mem_append.1 hmem with h | h
    · exact hx (by simp [List.mem_of_mem_take h])
    · have : ':' ∈ ys.take 3 := by
        have hsub : ys.take (3 - xs'.length) = (ys.take 3).take (3 - xs'.length) := by
          rw [List.take_take]
          congr 1
          omega
        rw [hsub] at h
        exact List.mem_of_mem_take h
      exact hy this

theorem findCidCand_block (prev : Char) (ds tail : List Char)
    (hprev : isWordChar prev = false) (hds : ds ≠ [])
    (hdig : ∀ c ∈ ds, isDigitChar c = true)
    (htail : nonWordNext tail = true) :
    findCidCand prev ('c' :: 'i' :: 'd' :: ':' :: (ds ++ tail)) =
      some (natVal ds) := by
  have htw : (ds ++ tail).takeWhile isDigitChar = ds := by
    cases tail with
    | nil =>
      rw [takeWhile_append_all ds [] hdig]
      simp
    | cons x xs =>
      have hword : isWordChar x = false := by
        simpa [nonWordNext] using htail
      have hx : isDigitChar x = false := by
        cases hdx : isDigitChar x with
        | false => rfl
        | true => rw [isWordChar_of_digit hdx] at hword; exact absurd hword (by simp)
      exact takeWhile_digits_exact ds xs hdig hx
  have htake : ('i' :: 'd' :: ':' :: (ds ++ tail)).take 3 = "id:".toList := rfl
  have hdrop : ('i' :: 'd' :: ':' :: (ds ++ tail)).drop 3 = ds ++ tail := rfl
  simp only [findCidCand, htake, hdrop, htw, List.drop_left]
  rw [if_pos ⟨trivial, trivial, hprev, hds, htail⟩]

theorem nonWordNext_nil : nonWordNext [] = true := rfl

theorem nonWordNext_comma (l : List Char) : nonWordNext (',' :: l) = true := by
  simp [nonWordNext, isWordChar]

theorem cidBlocks_cons_shape (n : ℕ) (t : List ℕ) :
    ∃ tail, cidBlocks (n :: t) = 'c' :: 'i' :: 'd' :: ':' :: (natDigits n ++ tail) ∧
      nonWordNext tail = true := by
  cases t with
  | nil =>
    refine ⟨[], ?_, nonWordNext_nil⟩
    simp [cidBlocks, joinSep]
  | cons m t' =>
    refine ⟨',' :: ' ' :: cidBlocks (m :: t'), ?_, nonWordNext_comma _⟩
    have := joinSep_cons_cons ", ".toList ("cid:".toList ++ natDigits n)
      ("cid:".toList ++ natDigits m) (List.map (fun k => "cid:".toList ++ natDigits k) t')
    simp only [cidBlocks, List.map_cons]
    rw [this]
    simp [cidBlocks]

theorem findCidCand_window (f : List Char) (hf : ':' ∉ f) (n : ℕ) (t : List ℕ) :
    findCidCand ':' (' ' :: (f ++ (' ' :: '|' :: ' ' :: cidBlocks (n :: t)))) =
      some n := by
  obtain ⟨tail, hshape, htail⟩ := cidBlocks_cons_shape n t
  have hxs : ' ' :: (f ++ (' ' :: '|' :: ' ' :: cidBlocks (n :: t))) =
      (' ' :: (f ++ [' ', '|', ' '])) ++ cidBlocks (n :: t) := by simp
  have hnc : noCand (' ' :: (f ++ [' ', '|', ' '])) (cidBlocks (n :: t)) := by
    refine noCand_of_no_colon _ _ ?_ ?_
    · intro hmem
      simp only [List.mem_cons, List.mem_append] at hmem
      rcases hmem with h | h | h
      · exact absurd h (by decide)
      · exact hf h
      · revert h; decide
    · rw [hshape, show List.take 3 ('c' :: 'i' :: 'd' :: ':' ::
        (natDigits n ++ tail)) = ['c', 'i', 'd'] from rfl]
      decide
  have hlast : (' ' :: (f ++ [' ', '|', ' '])).getLastD ':' = ' ' := by
    rw [List.getLastD_cons, List.getLastD_eq_getLast?, List.getLast?_append]
    rfl
  rw [hxs, findCidCand_append hnc, hlast, hshape,
    findCidCand_block ' ' (natDigits n) tail isWordChar_space
      (natDigits_ne_nil n) (natDigits_digit n) htail, natVal_natDigits]

theorem takeWhile_ne_rb {inner : List Char} (h : ∀ c ∈ inner, c ≠ ']')
    (rest : List Char) :
    (inner ++ (']' :: rest)).takeWhile (fun c => decide (c ≠ ']')) = inner := by
  refine takeWhile_digits_exact inner rest ?_ ?_
  · intro c hc; simp [h c hc]
  · simp

theorem renderSource_shape (f : List Char) (ids : List ℕ) (rest : List Char) :
    renderSeg (.source f ids) ++ rest =
      srcTag ++ ((' ' :: (f ++ (' ' :: '|' :: ' ' :: cidBlocks ids))) ++
        (']' :: rest)) := by
  have h9 : "[Source: ".toList = "[Source:".toList ++ [' '] := rfl
  simp only [renderSeg, h9, srcTag]
  simp

theorem source_inner_ne_rb (f : List Char) (ids : List ℕ)
    (hf : ∀ c ∈ f, c ≠ ']') :
    ∀ c ∈ ' ' :: (f ++ (' ' :: '|' :: ' ' :: cidBlocks ids)), c ≠ ']' := by
  intro c hc
  have hcase : c = ' ' ∨ c ∈ f ∨ c = '|' ∨ c ∈ cidBlocks ids := by
    simp only [List.mem_cons, List.mem_append] at hc
    tauto
  rcases hcase with h | h | h | h
  · subst h; decide
  · exact hf c h
  · subst h; decide
  · exact (cidBlocks_ne ids c h).2.1

theorem matchSourceAt_source (f : List Char) (ids : List ℕ)
    (hf : ∀ c ∈ f, c ≠ ']' ∧ c ≠ ':') (n : ℕ) (t : List ℕ) (hids : ids = n :: t)
    (rest : List Char) :
    matchSourceAt (renderSeg (.source f ids) ++ rest) =
      some (n, (renderSeg (.source f ids)).length) := by
  subst hids
  have hsh := renderSource_shape f (n :: t) rest
  rw [hsh]
  have ht8 : (srcTag ++ ((' ' :: (f ++ (' ' :: '|' :: ' ' :: cidBlocks (n :: t)))) ++
      (']' :: rest))).take 8 = srcTag := by
    rw [show (8 : ℕ) = srcTag.length from rfl, List.take_left]
  have hd8 : (srcTag ++ ((' ' :: (f ++ (' ' :: '|' :: ' ' :: cidBlocks (n :: t)))) ++
      (']' :: rest))).drop 8 =
      (' ' :: (f ++ (' ' :: '|' :: ' ' :: cidBlocks (n :: t)))) ++ (']' :: rest) := by
    rw [show (8 : ℕ) = srcTag.length from rfl, List.drop_left]
  simp only [matchSourceAt, ht8, hd8]
  rw [if_pos trivial]
  rw [takeWhile_ne_rb (source_inner_ne_rb f (n :: t) (fun c hc => (hf c hc).1)) rest]
  rw [if_pos (by simp)]
  rw [findCidCand_window f (fun hmem => (hf ':' hmem).2 rfl) n t]
  have hlen : (renderSeg (.source f (n :: t))).length =
      8 + (' ' :: (f ++ (' ' :: '|' :: ' ' :: cidBlocks (n :: t)))).length + 1 := by
    have h0 := renderSource_shape f (n :: t) []
    rw [List.append_nil] at h0
    rw [h0]
    simp [srcTag]
    omega
  rw [hlen]

theorem matchSourceAt_of_ne {c : Char} (h : c ≠ '[') (l : List Char) :
    matchSourceAt (c :: l) = none := by
  simp only [matchSourceAt]
  rw [if_neg]
  intro hcontra
  rw [show srcTag = '[' :: "Source:".toList from rfl] at hcontra
  have hc : (c :: l).take 8 = c :: l.take 7 := rfl
  rw [hc] at hcontra
  injection hcontra with h1 _
  exact h h1

theorem matchSourceAt_cite (n : ℕ) (rest : List Char) :
    matchSourceAt (renderSeg (.cite n) ++ rest) = none := by
  rw [renderSeg_cite_explicit]
  simp only [matchSourceAt]
  rw [if_neg]
  intro h
  rw [show ('[' :: 'c' :: 'i' :: 'd' :: ':' :: (natDigits n ++ (']' :: rest))).take 8 =
      '[' :: 'c' :: 'i' :: 'd' :: ':' :: (natDigits n ++ (']' :: rest)).take 3
      from rfl,
    show srcTag = '[' :: 'S' :: "ource:".toList from rfl] at h
  injection h with _ h
  injection h with h2 _
  exact absurd h2 (by decide)

theorem srcScanF_congr :
    ∀ (f1 : ℕ) {f2 : ℕ} {l : List Char}, l.length ≤ f1 → l.length ≤ f2 →
      srcScanF f1 l = srcScanF f2 l := by
  intro f1
  induction f1 with
  | zero =>
    intro f2 l h1 _
    have hl : l = [] := by
      cases l with
      | nil => rfl
      | cons c cs => simp at h1
    subst hl
    cases f2 <;> rfl
  | succ f ih =>
    intro f2 l h1 h2
    cases l with
    | nil => cases f2 <;> rfl
    | cons c rest =>
      cases f2 with
      | zero => simp at h2
      | succ g =>
        simp only [srcScanF]
        cases hm : matchSourceAt (c :: rest) with
        | none =>
          exact ih (by simp at h1; omega) (by simp at h2; omega)
        | some p =>
          obtain ⟨n, len⟩ := p
          simp only []
          congr 1
          refine ih ?_ ?_
          · have := List.length_drop (len - 1) rest
            simp at h1
            omega
          · have := List.length_drop (len - 1) rest
            simp at h2
            omega

theorem sourceCids_cons_of_none {c : Char} {l : List Char}
    (h : matchSourceAt (c :: l) = none) :
    sourceCids (c :: l) = sourceCids l := by
  show srcScanF (c :: l).length (c :: l) = sourceCids l
  rw [show (c :: l).length = l.length + 1 from rfl]
  simp only [srcScanF, h]
  rfl

theorem sourceCids_cons_of_some {c : Char} {l : List Char} {n len : ℕ}
    (h : matchSourceAt (c :: l) = some (n, len)) :
    sourceCids (c :: l) = n :: sourceCids (l.drop (len - 1)) := by
  show srcScanF (c :: l).length (c :: l) = _
  rw [show (c :: l).length = l.length + 1 from rfl]
  simp only [srcScanF, h]
  congr 1
  refine srcScanF_congr l.length ?_ ?_
  · have := List.length_drop (len - 1) l
    omega
  · exact le_refl _

theorem sourceCids_append_nobr {s : List Char} (h : ∀ c ∈ s, c ≠ '[') :
    ∀ l, sourceCids (s ++ l) = sourceCids l := by
  induction s with
  | nil => intro l; rfl
  | cons c s' ih =>
    intro l
    rw [List.cons_append,
      sourceCids_cons_of_none (matchSourceAt_of_ne (h c (by simp)) _)]
    exact ih (fun x hx => h x (by simp [hx])) l

theorem cite_interior_nobr (n : ℕ) :
    ∀ c ∈ 'c' :: 'i' :: 'd' :: ':' :: (natDigits n ++ [']']), c ≠ '[' := by
  intro c hc
  have hcase : c = 'c' ∨ c = 'i' ∨ c = 'd' ∨ c = ':' ∨ c ∈ natDigits n ∨
      c = ']' := by
    simp only [List.mem_cons, List.mem_append, List.mem_singleton,
      List.not_mem_nil, or_false] at hc
    tauto
  rcases hcase with h | h | h | h | h | h
  · subst h; decide
  · subst h; decide
  · subst h; decide
  · subst h; decide
  · exact (digit_ne (natDigits_digit n c h)).1
  · subst h; decide

theorem sourceCids_cite (n : ℕ) (rest : List Char) :
    sourceCids (renderSeg (.cite n) ++ rest) = sourceCids rest := by
  have hm := matchSourceAt_cite n rest
  rw [renderSeg_cite_explicit] at hm ⊢
  rw [sourceCids_cons_of_none hm]
  have hshape : 'c' :: 'i' :: 'd' :: ':' :: (natDigits n ++ (']' :: rest)) =
      ('c' :: 'i' :: 'd' :: ':' :: (natDigits n ++ [']'])) ++ rest := by simp
  rw [hshape, sourceCids_append_nobr (cite_interior_nobr n)]

theorem sourceCids_source (f : List Char) (ids : List ℕ)
    (hf : ∀ c ∈ f, c ≠ ']' ∧ c ≠ ':') (n : ℕ) (t : List ℕ) (hids : ids = n :: t)
    (rest : List Char) :
    sourceCids (renderSeg (.source f ids) ++ rest) = n :: sourceCids rest := by
  have hm := matchSourceAt_source f ids hf n t hids rest
  have hr0 : renderSeg (.source f ids) =
      '[' :: ('S' :: 'o' :: 'u' :: 'r' :: 'c' :: 'e' :: ':' :: ' ' ::
        (f ++ (' ' :: '|' :: ' ' :: (cidBlocks ids ++ [']'])))) := by
    have h0 := renderSeg_source_explicit f ids []
    rwa [List.append_nil] at h0
  rw [renderSeg_source_explicit] at hm ⊢
  rw [sourceCids_cons_of_some hm]
  congr 1
  have hsplit : 'S' :: 'o' :: 'u' :: 'r' :: 'c' :: 'e' :: ':' :: ' ' ::
      (f ++ (' ' :: '|' :: ' ' :: (cidBlocks ids ++ (']' :: rest)))) =
      ('S' :: 'o' :: 'u' :: 'r' :: 'c' :: 'e' :: ':' :: ' ' ::
        (f ++ (' ' :: '|' :: ' ' :: (cidBlocks ids ++ [']'])))) ++ rest := by
    simp
  rw [hsplit]
  rw [show (renderSeg (.source f ids)).length - 1 =
      ('S' :: 'o' :: 'u' :: 'r' :: 'c' :: 'e' :: ':' :: ' ' ::
        (f ++ (' ' :: '|' :: ' ' :: (cidBlocks ids ++ [']'])))).length from by
    rw [hr0]; simp]
  rw [List.drop_left]

theorem sourceCids_seg (seg : CiteSeg) (h : wfSeg seg) (rest : List Char) :
    sourceCids (renderSeg seg ++ rest) = segSource seg ++ sourceCids rest := by
  cases seg with
  | plain s =>
    simp only [segSource, List.nil_append]
    exact sourceCids_append_nobr (fun c hc => ((h : wfSeg (.plain s)) c hc).1) rest
  | cite n => simp [segSource, sourceCids_cite]
  | source f ids =>
    obtain ⟨hf, hne⟩ := (h : wfSeg (.source f ids))
    cases ids with
    | nil => exact absurd rfl hne
    | cons n t =>
      rw [sourceCids_source f (n :: t)
        (fun c hc => ⟨(hf c hc).2.1, (hf c hc).2.2.1⟩) n t rfl]
      simp [segSource]

theorem sourceCids_para (p : List CiteSeg) (h : ∀ seg ∈ p, wfSeg seg)
    (rest : List Char) :
    sourceCids (renderPara p ++ rest) = paraSource p ++ sourceCids rest := by
  induction p with
  | nil => simp [renderPara, paraSource, concatAll]
  | cons seg segs ih =>
    have hr : renderPara (seg :: segs) ++ rest =
        renderSeg seg ++ (renderPara segs ++ rest) := by
      simp [renderPara, concatAll]
    rw [hr, sourceCids_seg seg (h seg (by simp)),
      ih (fun s hs => h s (by simp [hs]))]
    simp [paraSource]

theorem sourceCids_doc (d : List (List CiteSeg)) (h : wfDoc d) :
    sourceCids (renderDoc d) = (d.map paraSource).flatten := by
  induction d with
  | nil => simp [renderDoc, joinSep, sourceCids, srcScanF]
  | cons p t ih =>
    cases t with
    | nil =>
      have hrd : renderDoc [p] = renderPara p ++ [] := by
        simp [renderDoc, joinSep]
      rw [hrd, sourceCids_para p (h p (by simp)).1]
      simp [sourceCids, srcScanF]
    | cons q t' =>
      have hr : renderDoc (p :: q :: t') =
          renderPara p ++ ('\n' :: ('\n' :: renderDoc (q :: t'))) := by
        simp [renderDoc, joinSep_cons_cons]
      rw [hr, sourceCids_para p (h p (by simp)).1]
      rw [sourceCids_cons_of_none (matchSourceAt_of_ne (by decide) _),
        sourceCids_cons_of_none (matchSourceAt_of_ne (by decide) _)]
      rw [ih (fun u hu => h u (by simp [hu]))]
      simp

/-! ## Characterising `extract_citations` on rendered documents -/

theorem segIdsFound_eq (seg : CiteSeg) :
    segIdsFound seg = segSimple seg ++ segSource seg := by
  cases seg <;> rfl

theorem mem_paraIdsFound (a : ℕ) (p : List CiteSeg) :
    a ∈ paraIdsFound p ↔ a ∈ paraSimple p ∨ a ∈ paraSource p := by
  induction p with
  | nil => simp [paraIdsFound, paraSimple, paraSource]
  | cons s p' ih =>
    have h1 : paraIdsFound (s :: p') = segIdsFound s ++ paraIdsFound p' := by
      simp [paraIdsFound]
    have h2 : paraSimple (s :: p') = segSimple s ++ paraSimple p' := by
      simp [paraSimple]
    have h3 : paraSource (s :: p') = segSource s ++ paraSource p' := by
      simp [paraSource]
    rw [h1, h2, h3, segIdsFound_eq]
    simp only [List.mem_append, ih]
    tauto

theorem mem_found_split (a : ℕ) :
    ∀ d : List (List CiteSeg),
      a ∈ (List.map paraIdsFound d).flatten ↔
        a ∈ (List.map paraSimple d).flatten ∨ a ∈ (List.map paraSource d).flatten := by
  intro d
  induction d with
  | nil => simp
  | cons p t ih =>
    simp only [List.map_cons, List.flatten_cons, List.mem_append, ih,
      mem_paraIdsFound]
    tauto

theorem extract_citations_doc (d : List (List CiteSeg)) (h : wfDoc d) :
    extract_citations (renderDoc d) = docIdsFound d := by
  unfold extract_citations docIdsFound
  refine sortedNats_congr ?_
  intro a
  rw [List.mem_append, simpleCids_doc d h, sourceCids_doc d h, mem_found_split]

theorem extract_citations_para (p : List CiteSeg) (h : ∀ seg ∈ p, wfSeg seg) :
    extract_citations (renderPara p) = sortedNats (paraIdsFound p) := by
  unfold extract_citations
  refine sortedNats_congr ?_
  intro a
  have h1 : simpleCids (renderPara p) = paraSimple p := by
    have := simpleCids_para p h []
    rwa [List.append_nil, show simpleCids [] = [] from rfl,
      List.append_nil] at this
  have h2 : sourceCids (renderPara p) = paraSource p := by
    have := sourceCids_para p h []
    rwa [List.append_nil, show sourceCids [] = [] from rfl,
      List.append_nil] at this
  rw [List.mem_append, h1, h2, mem_paraIdsFound]

theorem sortedNats_eq_nil_iff (l : List ℕ) : sortedNats l = [] ↔ l = [] := by
  constructor
  · intro h
    cases l with
    | nil => rfl
    | cons a t =>
      have : a ∈ sortedNats (a :: t) := (mem_sortedNats a _).2 (by simp)
      rw [h] at this
      simp at this
  · intro h; subst h; rfl

/-! ## C5: what citation extraction recognises -/

/-- C5 (amended): on every well-formed rendered document,
`extract_citations` returns exactly the set of ids written in the two
recognised citation shapes — all ids of `[cid:N]` brackets but only the
*first* `cid:` id of each `[Source: …]` bracket (`docIdsFound`), because the
lazy single capture group of `_CID_SOURCE` matches once per bracket and
`finditer` resumes after it.  The spec's reading, under which every
comma-separated id counts (`docIdsAll`), is refuted by
the counterexample. -/
theorem claim_C5_extract_citations (d : List (List CiteSeg)) (h : wfDoc d) :
    extract_citations (renderDoc d) = docIdsFound d :=
  extract_citations_doc d h

/-- Witness for C5 (amended): a document mixing prose, a `[cid:1]` bracket, a
single-id Source bracket and a two-id Source bracket. -/
theorem claim_C5_extract_citations_witness :
    wfDoc [[CiteSeg.plain "Fact ".toList, CiteSeg.cite 1,
            CiteSeg.plain ". Another fact ".toList,
            CiteSeg.source "paper.pdf".toList [2]],
           [CiteSeg.source "a".toList [7, 8]]] ∧
    extract_citations (renderDoc
        [[CiteSeg.plain "Fact ".toList, CiteSeg.cite 1,
          CiteSeg.plain ". Another fact ".toList,
          CiteSeg.source "paper.pdf".toList [2]],
         [CiteSeg.source "a".toList [7, 8]]]) =
      docIdsFound
        [[CiteSeg.plain "Fact ".toList, CiteSeg.cite 1,
          CiteSeg.plain ". Another fact ".toList,
          CiteSeg.source "paper.pdf".toList [2]],
         [CiteSeg.source "a".toList [7, 8]]] :=
  ⟨by decide, claim_C5_extract_citations _ (by decide)⟩

/-- Counterexample to C5 as stated: a Source bracket carrying two
comma-separated ids `cid:7, cid:8` yields only `{7}` from
`extract_citations`, not the full written set `{7, 8}`. -/
theorem claim_C5_counterexample :
    renderDoc [[CiteSeg.source "a".toList [7, 8]]] =
      "[Source: a | cid:7, cid:8]".toList ∧
    extract_citations "[Source: a | cid:7, cid:8]".toList = [7] ∧
    docIdsAll [[CiteSeg.source "a".toList [7, 8]]] = [7, 8] := by
  refine ⟨by decide, by decide, by decide⟩

/-! ## `split_paragraphs` on rendered documents -/

theorem splitLines_no_newline {l : List Char} (h : ∀ c ∈ l, c ≠ '\n') :
    splitLines l = [l] := by
  induction l with
  | nil => rfl
  | cons c rest ih =>
    simp only [splitLines]
    rw [if_neg (h c (by simp)), ih (fun x hx => h x (by simp [hx]))]

theorem splitLines_append_newline {p : List Char} (h : ∀ c ∈ p, c ≠ '\n')
    (t : List Char) :
    splitLines (p ++ '\n' :: t) = p :: splitLines t := by
  induction p with
  | nil => simp [splitLines]
  | cons c p' ih =>
    rw [List.cons_append]
    simp only [splitLines]
    rw [if_neg (h c (by simp)), ih (fun x hx => h x (by simp [hx]))]

theorem isBlankLine_false {x : List Char} (hne : x ≠ [])
    (hstrip : pyStrip x = x) : isBlankLine x = false := by
  cases hb : isBlankLine x with
  | false => rfl
  | true =>
    have hall : ∀ c ∈ x, isPySpace c = true := by
      simpa [isBlankLine, List.all_eq_true] using hb
    have hdrop : pyLStrip x = [] := by
      simp only [pyLStrip]
      rw [List.dropWhile_eq_nil_iff]
      intro c hc; exact hall c hc
    rw [pyStrip, hdrop] at hstrip
    exact absurd hstrip.symm hne

theorem renderSeg_no_newline (seg : CiteSeg) (h : wfSeg seg) :
    ∀ c ∈ renderSeg seg, c ≠ '\n' := by
  cases seg with
  | plain s => exact fun c hc => ((h : wfSeg (.plain s)) c hc).2.2
  | cite n =>
    intro c hc
    have h0 : renderSeg (.cite n) ++ [] =
        '[' :: 'c' :: 'i' :: 'd' :: ':' :: (natDigits n ++ (']' :: [])) :=
      renderSeg_cite_explicit n []
    rw [List.append_nil] at h0
    rw [h0] at hc
    have hcase : c = '[' ∨ c = 'c' ∨ c = 'i' ∨ c = 'd' ∨ c = ':' ∨
        c ∈ natDigits n ∨ c = ']' := by
      simp only [List.mem_cons, List.mem_append, List.mem_singleton,
        List.not_mem_nil, or_false] at hc
      tauto
    rcases hcase with h | h | h | h | h | h | h
    · subst h; decide
    · subst h; decide
    · subst h; decide
    · subst h; decide
    · subst h; decide
    · exact (digit_ne (natDigits_digit n c h)).2.2.2.1
    · subst h; decide
  | source f ids =>
    intro c hc
    have h0 := renderSeg_source_explicit f ids []
    rw [List.append_nil] at h0
    rw [h0] at hc
    have hcase : c = '[' ∨ c = 'S' ∨ c = 'o' ∨ c = 'u' ∨ c = 'r' ∨ c = 'c' ∨
        c = 'e' ∨ c = ':' ∨ c = ' ' ∨ c ∈ f ∨ c = '|' ∨ c ∈ cidBlocks ids ∨
        c = ']' := by
      simp only [List.mem_cons, List.mem_append, List.mem_singleton,
        List.not_mem_nil, or_false] at hc
      tauto
    rcases hcase with h' | h' | h' | h' | h' | h' | h' | h' | h' | h' | h' | h' | h'
    · subst h'; decide
    · subst h'; decide
    · subst h'; decide
    · subst h'; decide
    · subst h'; decide
    · subst h'; decide
    · subst h'; decide
    · subst h'; decide
    · subst h'; decide
    · exact ((h : wfSeg (.source f ids)).1 c h').2.2.2
    · subst h'; decide
    · exact (cidBlocks_ne ids c h').2.2
    · subst h'; decide

theorem renderPara_no_newline (p : List CiteSeg) (h : ∀ seg ∈ p, wfSeg seg) :
    ∀ c ∈ renderPara p, c ≠ '\n' := by
  induction p with
  | nil => intro c hc; simp [renderPara, concatAll] at hc
  | cons seg segs ih =>
    intro c hc
    have : renderPara (seg :: segs) = renderSeg seg ++ renderPara segs := by
      simp [renderPara, concatAll]
    rw [this, List.mem_append] at hc
    rcases hc with h' | h'
    · exact renderSeg_no_newline seg (h seg (by simp)) c h'
    · exact ih (fun s hs => h s (by simp [hs])) c h'

theorem split_paragraphs_doc :
    ∀ d : List (List CiteSeg), wfDoc d →
      split_paragraphs (renderDoc d) = d.map renderPara := by
  intro d
  induction d with
  | nil => intro _; rfl
  | cons p t ih =>
    intro h
    have hwfp := h p (by simp)
    have hpn := renderPara_no_newline p hwfp.1
    have hbx : isBlankLine (renderPara p) = false :=
      isBlankLine_false hwfp.2.1 hwfp.2.2
    cases t with
    | nil =>
      have hrd : renderDoc [p] = renderPara p := by simp [renderDoc, joinSep]
      unfold split_paragraphs
      rw [hrd, splitLines_no_newline hpn]
      simp only [groupParas, hbx, Bool.false_eq_true, if_false]
      simp only [groupParas, List.isEmpty_cons, List.reverse_cons,
        List.reverse_nil, List.nil_append]
      rw [show joinSep ['\n'] [renderPara p] = renderPara p from rfl, hwfp.2.2]
      rfl
    | cons q t' =>
      have hr : renderDoc (p :: q :: t') =
          renderPara p ++ ('\n' :: ('\n' :: renderDoc (q :: t'))) := by
        simp [renderDoc, joinSep_cons_cons]
      unfold split_paragraphs
      rw [hr, splitLines_append_newline hpn]
      have h2 : splitLines ('\n' :: renderDoc (q :: t')) =
          [] :: splitLines (renderDoc (q :: t')) := by
        simp [splitLines]
      rw [h2]
      simp only [groupParas, hbx, Bool.false_eq_true, if_false]
      simp only [groupParas, isBlankLine, List.all_nil, List.isEmpty_cons,
        List.reverse_cons, List.reverse_nil, List.nil_append, if_true]
      rw [show joinSep ['\n'] [renderPara p] = renderPara p from rfl, hwfp.2.2]
      have ih' := ih (fun u hu => h u (by simp [hu]))
      unfold split_paragraphs at ih'
      rw [ih']
      simp

/-! ## Projections of `validate_citations_detailed` -/

theorem validate_snd_missing (t : List Char) (A : List ℤ) (mu : ℕ) (rpp : Bool) :
    (validate_citations_detailed t A mu rpp).2.missing_paragraphs =
      (if rpp then
        (((split_paragraphs t).map extract_citations).enum.filter
          (fun p => p.2 = [])).map Prod.fst
      else []) := by
  simp only [validate_citations_detailed]
  split_ifs <;> rfl

theorem validate_snd_invalid (t : List Char) (A : List ℤ) (mu : ℕ) (rpp : Bool) :
    (validate_citations_detailed t A mu rpp).2.invalid_ids =
      (sortedNats ((split_paragraphs t).map extract_citations).flatten).filter
        (fun cid : ℕ => decide ((cid : ℤ) ∉ A)) := by
  simp only [validate_citations_detailed]
  split_ifs <;> rfl

theorem validate_snd_found (t : List Char) (A : List ℤ) (mu : ℕ) (rpp : Bool) :
    (validate_citations_detailed t A mu rpp).2.found_citations =
      sortedNats ((split_paragraphs t).map extract_citations).flatten := by
  simp only [validate_citations_detailed]
  split_ifs <;> rfl

theorem validate_false_of_missing {t : List Char} {A : List ℤ} {mu : ℕ}
    (h : (validate_citations_detailed t A mu true).2.missing_paragraphs ≠ []) :
    (validate_citations_detailed t A mu true).1 = false := by
  rw [validate_snd_missing, if_pos rfl] at h
  simp only [validate_citations_detailed]
  by_cases h1 : (sortedNats ((split_paragraphs t).map
      extract_citations).flatten).length < mu
  · rw [if_pos h1]
  · rw [if_neg h1]
    by_cases h2 : (sortedNats ((split_paragraphs t).map
        extract_citations).flatten).filter
        (fun cid : ℕ => decide ((cid : ℤ) ∉ A)) ≠ []
    · rw [if_pos h2]
    · rw [if_neg h2, if_pos ⟨trivial, by rw [if_pos trivial]; exact h⟩]

theorem validate_false_of_invalid {t : List Char} {A : List ℤ} {mu : ℕ}
    {rpp : Bool}
    (h : (validate_citations_detailed t A mu rpp).2.invalid_ids ≠ []) :
    (validate_citations_detailed t A mu rpp).1 = false := by
  rw [validate_snd_invalid] at h
  simp only [validate_citations_detailed]
  by_cases h1 : (sortedNats ((split_paragraphs t).map
      extract_citations).flatten).length < mu
  · rw [if_pos h1]
  · rw [if_neg h1, if_pos h]

theorem validate_ok_of {t : List Char} {A : List ℤ} {mu : ℕ} {rpp : Bool}
    (hlen : mu ≤ (sortedNats ((split_paragraphs t).map extract_citations).flatten).length)
    (hinv : (sortedNats ((split_paragraphs t).map extract_citations).flatten).filter
      (fun cid : ℕ => decide ((cid : ℤ) ∉ A)) = [])
    (hmiss : (if rpp then
        (((split_paragraphs t).map extract_citations).enum.filter
          (fun p => p.2 = [])).map Prod.fst
      else []) = ([] : List ℕ)) :
    (validate_citations_detailed t A mu rpp).1 = true ∧
      (validate_citations_detailed t A mu rpp).2.reason = "ok".toList := by
  simp only [validate_citations_detailed]
  have h1 : ¬((sortedNats ((split_paragraphs t).map
      extract_citations).flatten).length < mu) := by omega
  rw [if_neg h1, if_neg (fun hcon => hcon hinv),
    if_neg (by intro hcon; exact hcon.2 hmiss)]
  exact ⟨rfl, rfl⟩

/-! ## The injection loop of `_inject_citations_per_paragraph` -/

theorem nodup_enum_filter_fst {α : Type} (l : List α) (p : ℕ × α → Bool) :
    ((l.enum.filter p).map Prod.fst).Nodup := by
  have h1 : (l.enum.map Prod.fst).Nodup := by
    rw [List.enum_map_fst]; exact List.nodup_range l.length
  exact List.Nodup.sublist
    (List.Sublist.map Prod.fst (List.filter_sublist l.enum)) h1

theorem mem_enum_filter_fst {α : Type} (l : List α) (p : α → Bool) (i : ℕ) :
    i ∈ (l.enum.filter (fun pr => p pr.2)).map Prod.fst ↔
      ∃ a, l[i]? = some a ∧ p a = true := by
  simp only [List.mem_map, List.mem_filter, List.mem_enum_iff_getElem?]
  constructor
  · rintro ⟨⟨j, a⟩, ⟨hga, hpa⟩, rfl⟩
    exact ⟨a, hga, hpa⟩
  · rintro ⟨a, hga, hpa⟩
    exact ⟨(i, a), ⟨hga, hpa⟩, rfl⟩

theorem bound_of_mem_enum_filter_fst {α : Type} {l : List α} {p : ℕ × α → Bool}
    {i : ℕ} (h : i ∈ (l.enum.filter p).map Prod.fst) : i < l.length := by
  have h1 : i ∈ l.enum.map Prod.fst := by
    rcases List.mem_map.1 h with ⟨pr, hpr, rfl⟩
    exact List.mem_map_of_mem Prod.fst (List.mem_of_mem_filter hpr)
  rw [List.enum_map_fst] at h1
  exact List.mem_range.1 h1

theorem foldl_set_of_nodup (g : ℕ → List Char → List Char) :
    ∀ (I : List ℕ) (ps : List (List Char)), I.Nodup → (∀ i ∈ I, i < ps.length) →
      I.foldl (fun ps idx =>
        if idx < ps.length then ps.set idx (g idx (ps.getD idx [])) else ps) ps =
      ps.enum.map (fun pr => if pr.1 ∈ I then g pr.1 pr.2 else pr.2) := by
  intro I
  induction I with
  | nil =>
    intro ps _ _
    simp only [List.foldl_nil]
    have hmc : List.map (fun pr : ℕ × List Char =>
        if pr.1 ∈ ([] : List ℕ) then g pr.1 pr.2 else pr.2) ps.enum =
        List.map Prod.snd ps.enum :=
      List.map_congr_left (fun pr _ => by simp)
    rw [hmc, List.enum_map_snd]
  | cons i I' ih =>
    intro ps hnd hb
    have hi : i < ps.length := hb i (by simp)
    simp only [List.foldl_cons]
    rw [if_pos hi]
    have hlen1 : (ps.set i (g i (ps.getD i []))).length = ps.length :=
      List.length_set ps i _
    rw [ih (ps.set i (g i (ps.getD i []))) (List.nodup_cons.1 hnd).2
      (fun j hj => by rw [hlen1]; exact hb j (by simp [hj]))]
    refine List.ext_getElem (by simp [hlen1]) ?_
    intro n h1 h2
    have hn : n < ps.length := by simpa using h2
    have hn1 : n < (ps.set i (g i (ps.getD i []))).length := by rw [hlen1]; exact hn
    rw [List.getElem_map, List.getElem_map, List.getElem_enum, List.getElem_enum]
    have hget1 : (ps.set i (g i (ps.getD i [])))[n] =
        if i = n then g i (ps.getD i []) else ps[n] := List.getElem_set hn1
    have hgd : ps.getD i [] = ps[i] := by
      rw [List.getD_eq_getElem?_getD, List.getElem?_eq_getElem hi]
      rfl
    by_cases hin : i = n
    · subst hin
      have hiI' : i ∉ I' := (List.nodup_cons.1 hnd).1
      rw [if_neg hiI', if_pos (List.mem_cons_self i I'), hget1, if_pos rfl, hgd]
    · rw [hget1, if_neg hin]
      have hmem : (n ∈ i :: I') ↔ (n ∈ I') := by
        simp only [List.mem_cons]
        constructor
        · rintro (h | h)
          · exact absurd h.symm hin
          · exact h
        · exact fun h => Or.inr h
      by_cases hnI : n ∈ I'
      · rw [if_pos hnI, if_pos (hmem.2 hnI)]
      · rw [if_neg hnI, if_neg (fun hc => hnI (hmem.1 hc))]

/-! ## Rendering helpers for the injected document -/

theorem concatAll_append (xs ys : List (List Char)) :
    concatAll (xs ++ ys) = concatAll xs ++ concatAll ys := by
  induction xs with
  | nil => rfl
  | cons x xs' ih => simp [concatAll, ih]

theorem renderPara_append (p q : List CiteSeg) :
    renderPara (p ++ q) = renderPara p ++ renderPara q := by
  simp [renderPara, concatAll_append]

theorem mkCiteToken_eq_renderSeg (f : List Char) (n : ℕ) :
    mkCiteToken f (n : ℤ) = renderSeg (.source f [n]) := by
  simp only [mkCiteToken, renderSeg, cidBlocks, List.map_cons, List.map_nil,
    joinSep, intStr_natCast]
  simp

theorem pyRStrip_of_pyStrip_eq {x : List Char} (h : pyStrip x = x) :
    pyRStrip x = x := by
  have hy : pyLStrip x = x := by
    have h1 : (pyLStrip x).length ≤ x.length :=
      (List.dropWhile_sublist _).length_le
    have h2 : (pyRStrip (pyLStrip x)).length ≤ (pyLStrip x).length := by
      unfold pyRStrip
      rw [List.length_reverse]
      calc ((pyLStrip x).reverse.dropWhile isPySpace).length
          ≤ (pyLStrip x).reverse.length := (List.dropWhile_sublist _).length_le
        _ = (pyLStrip x).length := List.length_reverse _
    have h3 : (pyRStrip (pyLStrip x)).length = x.length := by
      rw [show pyRStrip (pyLStrip x) = x from h]
    exact List.Sublist.eq_of_length (List.dropWhile_sublist _) (by omega)
  rw [pyStrip, hy] at h
  exact h

theorem pyLStrip_of_pyStrip_eq {x : List Char} (h : pyStrip x = x) :
    pyLStrip x = x := by
  have h1 : (pyLStrip x).length ≤ x.length :=
    (List.dropWhile_sublist _).length_le
  have h2 : (pyRStrip (pyLStrip x)).length ≤ (pyLStrip x).length := by
    unfold pyRStrip
    rw [List.length_reverse]
    calc ((pyLStrip x).reverse.dropWhile isPySpace).length
        ≤ (pyLStrip x).reverse.length := (List.dropWhile_sublist _).length_le
      _ = (pyLStrip x).length := List.length_reverse _
  have h3 : (pyRStrip (pyLStrip x)).length = x.length := by
    rw [show pyRStrip (pyLStrip x) = x from h]
  exact List.Sublist.eq_of_length (List.dropWhile_sublist _) (by omega)

theorem renderSeg_source_getLast (f : List Char) (ids : List ℕ) :
    (renderSeg (.source f ids)).getLast? = some ']' := by
  have h0 := renderSeg_source_explicit f ids []
  rw [List.append_nil] at h0
  rw [h0]
  rw [show 'S' :: 'o' :: 'u' :: 'r' :: 'c' :: 'e' :: ':' :: ' ' ::
      (f ++ (' ' :: '|' :: ' ' :: (cidBlocks ids ++ [']']))) =
      ('S' :: 'o' :: 'u' :: 'r' :: 'c' :: 'e' :: ':' :: ' ' ::
        (f ++ (' ' :: '|' :: ' ' :: cidBlocks ids))) ++ [']'] from by simp]
  rw [show ('[' : Char) :: (('S' :: 'o' :: 'u' :: 'r' :: 'c' :: 'e' :: ':' :: ' ' ::
      (f ++ (' ' :: '|' :: ' ' :: cidBlocks ids))) ++ [']']) =
      ('[' :: 'S' :: 'o' :: 'u' :: 'r' :: 'c' :: 'e' :: ':' :: ' ' ::
        (f ++ (' ' :: '|' :: ' ' :: cidBlocks ids))) ++ [']'] from rfl]
  rw [List.getLast?_append]
  rfl

theorem paraIdsFound_inject (p : List CiteSeg) (f : List Char) (n : ℕ) :
    paraIdsFound (p ++ [CiteSeg.plain [' '], CiteSeg.source f [n]]) =
      paraIdsFound p ++ [n] := by
  simp [paraIdsFound, segIdsFound]

/-- Rendering of an injected paragraph: the token is appended after a space
(the paragraph is already right-stripped). -/
theorem renderPara_inject (p : List CiteSeg) (f : List Char) (n : ℕ) :
    renderPara (p ++ [CiteSeg.plain [' '], CiteSeg.source f [n]]) =
      renderPara p ++ ' ' :: renderSeg (.source f [n]) := by
  rw [renderPara_append]
  simp [renderPara, concatAll, renderSeg]

theorem wfPara_inject {p : List CiteSeg} (h : wfPara p) {f : List Char}
    (hf : ∀ c ∈ f, c ≠ '[' ∧ c ≠ ']' ∧ c ≠ ':' ∧ c ≠ '\n') (n : ℕ) :
    wfPara (p ++ [CiteSeg.plain [' '], CiteSeg.source f [n]]) := by
  refine ⟨?_, ?_, ?_⟩
  · intro seg hseg
    rcases List.mem_append.1 hseg with hs | hs
    · exact h.1 seg hs
    · simp only [List.mem_cons, List.mem_singleton, List.not_mem_nil,
        or_false] at hs
      rcases hs with hs | hs
      · subst hs
        intro c hc
        rw [List.mem_singleton] at hc
        subst hc
        exact ⟨by decide, by decide, by decide⟩
      · subst hs
        exact ⟨hf, by simp⟩
  · rw [renderPara_inject]
    simp
  · rw [renderPara_inject]
    have hhead : ∀ c, (renderPara p ++ ' ' :: renderSeg (.source f [n])).head? =
        some c → isPySpace c = false := by
      intro c hc
      rw [List.head?_append_of_ne_nil _ h.2.1] at hc
      have hl : pyLStrip (renderPara p) = renderPara p :=
        pyLStrip_of_pyStrip_eq h.2.2
      rcases hp : renderPara p with _ | ⟨x, xs⟩
      · exact absurd hp h.2.1
      · rw [hp] at hc
        have hxc : x = c := Option.some.inj hc
        subst hxc
        rw [hp] at hl
        unfold pyLStrip at hl
        cases hpx : isPySpace x with
        | false => rfl
        | true =>
          rw [List.dropWhile_cons, hpx, if_pos rfl] at hl
          have := congrArg List.length hl
          have hle : (List.dropWhile isPySpace xs).length ≤ xs.length :=
            (List.dropWhile_sublist _).length_le
          simp at this
          omega
    have hlast : ∀ c, (renderPara p ++ ' ' :: renderSeg (.source f [n])).getLast? =
        some c → isPySpace c = false := by
      intro c hc
      rw [List.getLast?_append] at hc
      have h2 : (' ' :: renderSeg (.source f [n])).getLast? = some ']' := by
        rw [show (' ' :: renderSeg (.source f [n])) =
            [' '] ++ renderSeg (.source f [n]) from rfl, List.getLast?_append,
          renderSeg_source_getLast]
        rfl
      rw [h2] at hc
      simp only [Option.or_some] at hc
      have : (']' : Char) = c := Option.some.inj hc
      subst this
      decide
    rw [pyStrip, pyLStrip_eq_self hhead]
    exact pyRStrip_eq_self hlast

theorem wfDoc_injectDoc {d : List (List CiteSeg)} (h : wfDoc d)
    {toks : List (List Char × ℕ)}
    (hwf : ∀ fc ∈ toks, ∀ c ∈ fc.1, c ≠ '[' ∧ c ≠ ']' ∧ c ≠ ':' ∧ c ≠ '\n')
    (htoks : toks ≠ []) (I : List ℕ) :
    wfDoc (injectDoc d toks I) := by
  intro p hp
  unfold injectDoc at hp
  rcases List.mem_map.1 hp with ⟨pr, hpr, rfl⟩
  have hpd : pr.2 ∈ d := by
    have := List.mem_map_of_mem Prod.snd hpr
    rwa [List.enum_map_snd] at this
  by_cases hmem : pr.1 ∈ I
  · rw [if_pos hmem]
    have hlt : pr.1 % toks.length < toks.length :=
      Nat.mod_lt _ (List.length_pos.2 htoks)
    have hget : toks.getD (pr.1 % toks.length) ([], 0) ∈ toks := by
      rw [List.getD_eq_getElem _ _ hlt]
      exact List.getElem_mem hlt
    exact wfPara_inject (h pr.2 hpd) (hwf _ hget) _
  · rw [if_neg hmem]
    exact h pr.2 hpd

theorem inject_render (d : List (List CiteSeg)) (h : wfDoc d)
    (toks : List (List Char × ℕ)) (htoks : toks ≠ []) (I : List ℕ)
    (hnd : I.Nodup) (hb : ∀ i ∈ I, i < d.length) :
    inject_citations_per_paragraph (renderDoc d)
        (toks.map (fun fc => mkCiteToken fc.1 (fc.2 : ℤ))) I =
      renderDoc (injectDoc d toks I) := by
  have hTne : toks.map (fun fc => mkCiteToken fc.1 (fc.2 : ℤ)) ≠ [] := by
    simp only [ne_eq, List.map_eq_nil_iff]
    exact htoks
  simp only [inject_citations_per_paragraph]
  rw [if_neg hTne, split_paragraphs_doc d h]
  rw [foldl_set_of_nodup
    (fun idx p => pyRStrip p ++ ' ' ::
      (toks.map (fun fc => mkCiteToken fc.1 (fc.2 : ℤ))).getD
        (idx % (toks.map (fun fc => mkCiteToken fc.1 (fc.2 : ℤ))).length) [])
    I (d.map renderPara) hnd (by simpa using hb)]
  unfold renderDoc
  congr 1
  refine List.ext_getElem (by simp [injectDoc]) ?_
  intro n h1 h2
  have hn : n < d.length := by simpa [injectDoc] using h2
  simp only [List.getElem_map, List.getElem_enum, injectDoc]
  by_cases hmem : n ∈ I
  · rw [if_pos hmem, if_pos hmem, renderPara_inject]
    congr 1
    · exact pyRStrip_of_pyStrip_eq (h _ (List.getElem_mem hn)).2.2
    · congr 1
      have hlt : n % toks.length < toks.length :=
        Nat.mod_lt _ (List.length_pos.2 htoks)
      have hltm : n % (toks.map (fun fc => mkCiteToken fc.1 (fc.2 : ℤ))).length <
          (toks.map (fun fc => mkCiteToken fc.1 (fc.2 : ℤ))).length := by
        simpa using hlt
      rw [List.getD_eq_getElem _ _ hltm, List.getElem_map]
      simp only [List.length_map]
      rw [List.getD_eq_getElem _ _ hlt, mkCiteToken_eq_renderSeg]
  · rw [if_neg hmem, if_neg hmem]

/-- The per-paragraph extraction list of a rendered document. -/
theorem per_paragraph_render (d : List (List CiteSeg)) (h : wfDoc d) :
    (split_paragraphs (renderDoc d)).map extract_citations =
      d.map (fun p => sortedNats (paraIdsFound p)) := by
  rw [split_paragraphs_doc d h, List.map_map]
  exact List.map_congr_left (fun p hp => extract_citations_para p (h p hp).1)

/-- Membership in the validator's `missing_paragraphs` on a rendered
document: exactly the indices of paragraphs that carry no recognised
citation. -/
theorem mem_missing_render (d : List (List CiteSeg)) (h : wfDoc d)
    (A : List ℤ) (mu : ℕ) (i : ℕ) :
    i ∈ (validate_citations_detailed (renderDoc d) A mu true).2.missing_paragraphs ↔
      ∃ hi : i < d.length, paraIdsFound d[i] = [] := by
  rw [validate_snd_missing, if_pos rfl, per_paragraph_render d h]
  refine Iff.trans (mem_enum_filter_fst
    (List.map (fun p => sortedNats (paraIdsFound p)) d)
    (fun a => decide (a = [])) i) ?_
  constructor
  · rintro ⟨a, hga, hpa⟩
    have hi : i < d.length := by
      by_contra hcon
      rw [List.getElem?_eq_none (by simpa using hcon)] at hga
      exact absurd hga (by simp)
    refine ⟨hi, ?_⟩
    rw [List.getElem?_eq_getElem (by simpa using hi), List.getElem_map] at hga
    have ha : a = sortedNats (paraIdsFound d[i]) := (Option.some.inj hga).symm
    subst ha
    exact (sortedNats_eq_nil_iff _).1 (by simpa using hpa)
  · rintro ⟨hi, hnil⟩
    refine ⟨sortedNats (paraIdsFound d[i]), ?_, ?_⟩
    · rw [List.getElem?_eq_getElem (by simpa using hi), List.getElem_map]
    · rw [hnil]
      decide

/-- The validator reports `ok` on a rendered well-formed document in which
every paragraph carries a citation and every extracted id is allowed. -/
theorem validate_render_ok (d : List (List CiteSeg)) (h : wfDoc d)
    (A : List ℤ) (hd : d ≠ [])
    (hcited : ∀ p ∈ d, paraIdsFound p ≠ [])
    (hallowed : ∀ p ∈ d, ∀ n ∈ paraIdsFound p, (n : ℤ) ∈ A) :
    (validate_citations_detailed (renderDoc d) A 1 true).1 = true ∧
      (validate_citations_detailed (renderDoc d) A 1 true).2.reason =
        "ok".toList := by
  have hmemfound : ∀ a, a ∈ sortedNats
      ((split_paragraphs (renderDoc d)).map extract_citations).flatten →
      ∃ p ∈ d, a ∈ paraIdsFound p := by
    intro a ha
    rw [mem_sortedNats, per_paragraph_render d h, List.mem_flatten] at ha
    obtain ⟨el, hel, hael⟩ := ha
    obtain ⟨p, hp, rfl⟩ := List.mem_map.1 hel
    exact ⟨p, hp, (mem_sortedNats a _).1 hael⟩
  refine @validate_ok_of (renderDoc d) A 1 true ?_ ?_ ?_
  · obtain ⟨p, hp⟩ := List.exists_mem_of_ne_nil d hd
    obtain ⟨a, ha⟩ := List.exists_mem_of_ne_nil _ (hcited p hp)
    have haf : a ∈ sortedNats
        ((split_paragraphs (renderDoc d)).map extract_citations).flatten := by
      rw [mem_sortedNats, per_paragraph_render d h, List.mem_flatten]
      exact ⟨sortedNats (paraIdsFound p), List.mem_map_of_mem _ hp,
        (mem_sortedNats a _).2 ha⟩
    have hne : sortedNats ((split_paragraphs (renderDoc d)).map
        extract_citations).flatten ≠ [] := by
      intro hcon
      rw [hcon] at haf
      simp at haf
    exact List.length_pos.2 hne
  · rw [List.filter_eq_nil_iff]
    intro a ha
    obtain ⟨p, hp, hap⟩ := hmemfound a ha
    simp only [decide_eq_true_eq]
    intro hcon
    exact hcon (hallowed p hp a hap)
  · rw [if_pos rfl, List.map_eq_nil_iff, List.filter_eq_nil_iff]
    intro pr hpr
    have hsnd : pr.2 ∈ (split_paragraphs (renderDoc d)).map extract_citations := by
      have := List.mem_map_of_mem Prod.snd hpr
      rwa [List.enum_map_snd] at this
    rw [per_paragraph_render d h] at hsnd
    obtain ⟨p, hp, hpe⟩ := List.mem_map.1 hsnd
    simp only [decide_eq_true_eq]
    rw [← hpe]
    intro hcon
    exact hcited p hp ((sortedNats_eq_nil_iff _).1 hcon)

/-- Ids of the injected document: every paragraph is cited, and every id
comes either from the original document or from a token. -/
theorem injectDoc_paraIds {d : List (List CiteSeg)}
    {toks : List (List Char × ℕ)} (htoks : toks ≠ []) {I : List ℕ}
    (hI : ∀ i, i ∈ I ↔ ∃ hi : i < d.length, paraIdsFound d[i] = []) :
    ∀ p' ∈ injectDoc d toks I,
      paraIdsFound p' ≠ [] ∧
      ∀ n ∈ paraIdsFound p',
        (∃ p ∈ d, n ∈ paraIdsFound p) ∨ (∃ fc ∈ toks, n = fc.2) := by
  intro p' hp'
  unfold injectDoc at hp'
  rcases List.mem_map.1 hp' with ⟨pr, hpr, rfl⟩
  have hprd : d[pr.1]? = some pr.2 := List.mem_enum_iff_getElem?.1 hpr
  have hi : pr.1 < d.length := by
    by_contra hcon
    rw [List.getElem?_eq_none (by omega)] at hprd
    exact absurd hprd (by simp)
  have hpr2 : pr.2 = d[pr.1] := by
    rw [List.getElem?_eq_getElem hi] at hprd
    exact (Option.some.inj hprd).symm
  have hmemd : pr.2 ∈ d := by rw [hpr2]; exact List.getElem_mem hi
  have hlt : pr.1 % toks.length < toks.length :=
    Nat.mod_lt _ (List.length_pos.2 htoks)
  have hget : toks.getD (pr.1 % toks.length) ([], 0) ∈ toks := by
    rw [List.getD_eq_getElem _ _ hlt]
    exact List.getElem_mem hlt
  by_cases hmem : pr.1 ∈ I
  · rw [if_pos hmem, paraIdsFound_inject]
    refine ⟨by simp, ?_⟩
    intro n hn
    rcases List.mem_append.1 hn with h | h
    · exact Or.inl ⟨pr.2, hmemd, h⟩
    · rw [List.mem_singleton] at h
      exact Or.inr ⟨_, hget, h⟩
  · rw [if_neg hmem]
    refine ⟨?_, fun n hn => Or.inl ⟨pr.2, hmemd, hn⟩⟩
    intro hcon
    exact hmem ((hI pr.1).2 ⟨hi, by rw [← hpr2]; exact hcon⟩)

/-! ## C3: repair of paragraphs lacking citations -/

/-- C3 (amended): for every well-formed answer document whose validation
(with `min_unique_citations = 1` and the per-paragraph requirement) reports
missing paragraphs, and every non-empty token list built like the code's
`cite_tokens` (one `[Source: filename | cid:id]` token per retrieved chunk,
ids allowed), **provided the answer cites no invalid ids**, the repair block
returns exactly the deterministic injection — token `T[i mod |T|]` appended
to each missing paragraph `i` after a space, with no chat-model call — and
re-validation of the repaired text reports ok.  (As stated the claim is
false: when the answer also cites an id outside the allowed set, injection
happens but re-validation still fails; see the counterexample.) -/
theorem claim_C3_missing_paragraph_repair
    (d : List (List CiteSeg)) (toks : List (List Char × ℕ)) (A : List ℕ)
    (f0 : List Char) (hwf : wfDoc d) (htoks : toks ≠ [])
    (htwf : ∀ fc ∈ toks,
      (∀ c ∈ fc.1, c ≠ '[' ∧ c ≠ ']' ∧ c ≠ ':' ∧ c ≠ '\n') ∧ fc.2 ∈ A)
    (hall : ∀ p ∈ d, ∀ n ∈ paraIdsFound p, n ∈ A)
    (hmiss : (validate_citations_detailed (renderDoc d)
        (A.map Int.ofNat) 1 true).2.missing_paragraphs ≠ []) :
    repair_citations (renderDoc d) (A.map Int.ofNat)
        (toks.map (fun fc => mkCiteToken fc.1 (fc.2 : ℤ))) f0 1 true =
      (inject_citations_per_paragraph (renderDoc d)
          (toks.map (fun fc => mkCiteToken fc.1 (fc.2 : ℤ)))
          (validate_citations_detailed (renderDoc d)
            (A.map Int.ofNat) 1 true).2.missing_paragraphs,
        true,
        (validate_citations_detailed
          (inject_citations_per_paragraph (renderDoc d)
            (toks.map (fun fc => mkCiteToken fc.1 (fc.2 : ℤ)))
            (validate_citations_detailed (renderDoc d)
              (A.map Int.ofNat) 1 true).2.missing_paragraphs)
          (A.map Int.ofNat) 1 true).2) ∧
    (validate_citations_detailed
        (inject_citations_per_paragraph (renderDoc d)
          (toks.map (fun fc => mkCiteToken fc.1 (fc.2 : ℤ)))
          (validate_citations_detailed (renderDoc d)
            (A.map Int.ofNat) 1 true).2.missing_paragraphs)
        (A.map Int.ofNat) 1 true).1 = true ∧
    (validate_citations_detailed
        (inject_citations_per_paragraph (renderDoc d)
          (toks.map (fun fc => mkCiteToken fc.1 (fc.2 : ℤ)))
          (validate_citations_detailed (renderDoc d)
            (A.map Int.ofNat) 1 true).2.missing_paragraphs)
        (A.map Int.ofNat) 1 true).2.reason = "ok".toList := by
  have hok0 : (validate_citations_detailed (renderDoc d)
      (A.map Int.ofNat) 1 true).1 = false :=
    validate_false_of_missing hmiss
  have hMchar := mem_missing_render d hwf (A.map Int.ofNat) 1
  have hMnodup : (validate_citations_detailed (renderDoc d)
      (A.map Int.ofNat) 1 true).2.missing_paragraphs.Nodup := by
    rw [validate_snd_missing, if_pos rfl]
    exact nodup_enum_filter_fst _ _
  have hMbound : ∀ i ∈ (validate_citations_detailed (renderDoc d)
      (A.map Int.ofNat) 1 true).2.missing_paragraphs, i < d.length := by
    intro i hi
    obtain ⟨hlt, _⟩ := (hMchar i).1 hi
    exact hlt
  have haeq : inject_citations_per_paragraph (renderDoc d)
      (toks.map (fun fc => mkCiteToken fc.1 (fc.2 : ℤ)))
      (validate_citations_detailed (renderDoc d)
        (A.map Int.ofNat) 1 true).2.missing_paragraphs =
      renderDoc (injectDoc d toks
        (validate_citations_detailed (renderDoc d)
          (A.map Int.ofNat) 1 true).2.missing_paragraphs) :=
    inject_render d hwf toks htoks _ hMnodup hMbound
  have hwf' := wfDoc_injectDoc hwf (fun fc hfc => (htwf fc hfc).1) htoks
    (validate_citations_detailed (renderDoc d)
      (A.map Int.ofNat) 1 true).2.missing_paragraphs
  have hdne : d ≠ [] := by
    obtain ⟨i, hi⟩ := List.exists_mem_of_ne_nil _ hmiss
    have := hMbound i hi
    intro hcon
    rw [hcon] at this
    simp at this
  have hdne' : injectDoc d toks
      (validate_citations_detailed (renderDoc d)
        (A.map Int.ofNat) 1 true).2.missing_paragraphs ≠ [] := by
    intro hcon
    have := congrArg List.length hcon
    simp [injectDoc] at this
    exact hdne this
  have hprops := injectDoc_paraIds htoks hMchar
  have hok' := validate_render_ok _ hwf' (A.map Int.ofNat) hdne'
    (fun p hp => (hprops p hp).1)
    (fun p hp n hn => by
      rcases (hprops p hp).2 n hn with ⟨q, hq, hnq⟩ | ⟨fc, hfc, hnfc⟩
      · exact List.mem_map_of_mem _ (hall q hq n hnq)
      · subst hnfc
        exact List.mem_map_of_mem _ (htwf fc hfc).2)
  rw [← haeq] at hok'
  simp only [repair_citations]
  rw [if_neg (by rw [hok0]; simp)]
  rw [if_pos hmiss]
  rw [if_neg (by
    intro hcon
    rw [hok'.1] at hcon
    exact absurd hcon.1 (by simp))]
  refine ⟨?_, hok'.1, hok'.2⟩
  rw [hok'.1]

/-- Witness for C3 (amended), at the spec's own example: model answer
`"Claim A.\n\nClaim B."`, allowed `{7, 8}`, tokens for cids 7 and 8.
Paragraph 0 gains the `cid:7` token, paragraph 1 the `cid:8` token, and the
repaired text validates ok. -/
theorem claim_C3_missing_paragraph_repair_witness :
    (repair_citations "Claim A.\n\nClaim B.".toList [(7 : ℤ), 8]
        ["[Source: a | cid:7]".toList, "[Source: a | cid:8]".toList]
        "a".toList 1 true).1 =
      "Claim A. [Source: a | cid:7]\n\nClaim B. [Source: a | cid:8]".toList ∧
    (repair_citations "Claim A.\n\nClaim B.".toList [(7 : ℤ), 8]
        ["[Source: a | cid:7]".toList, "[Source: a | cid:8]".toList]
        "a".toList 1 true).2.1 = true := by
  have h := claim_C3_missing_paragraph_repair
    [[CiteSeg.plain "Claim A.".toList], [CiteSeg.plain "Claim B.".toList]]
    [("a".toList, 7), ("a".toList, 8)] [7, 8] "a".toList
    (by decide) (by decide) (by decide) (by decide) (by decide)
  have e1 : renderDoc [[CiteSeg.plain "Claim A.".toList],
      [CiteSeg.plain "Claim B.".toList]] = "Claim A.\n\nClaim B.".toList := by
    decide
  have e2 : List.map (fun fc : List Char × ℕ => mkCiteToken fc.1 (fc.2 : ℤ))
      [("a".toList, 7), ("a".toList, 8)] =
      ["[Source: a | cid:7]".toList, "[Source: a | cid:8]".toList] := by
    decide
  have e3 : List.map Int.ofNat [7, 8] = [(7 : ℤ), 8] := by decide
  rw [e1, e2, e3] at h
  refine ⟨?_, ?_⟩
  · rw [h.1]
    decide
  · rw [h.1]

/-- Counterexample to C3 as stated: the answer
`"Claim A. [cid:999]\n\nClaim B."` (allowed set `{7}`, one token) has
paragraph 1 reported missing, the repair appends the token to it exactly as
the claim says — but re-validation of the repaired text is *not* ok, because
the invalid simple-shape citation `[cid:999]` survives the whole repair. -/
theorem claim_C3_counterexample :
    (validate_citations_detailed "Claim A. [cid:999]\n\nClaim B.".toList
        [(7 : ℤ)] 1 true).2.missing_paragraphs = [1] ∧
    (repair_citations "Claim A. [cid:999]\n\nClaim B.".toList [(7 : ℤ)]
        ["[Source: a | cid:7]".toList] "a".toList 1 true).1 =
      "Claim A. [cid:999]\n\nClaim B. [Source: a | cid:7]".toList ∧
    (repair_citations "Claim A. [cid:999]\n\nClaim B.".toList [(7 : ℤ)]
        ["[Source: a | cid:7]".toList] "a".toList 1 true).2.1 = false := by
  exact ⟨by decide, by decide, by decide⟩

/-! ## The greedy rewrite `re.sub` of `answer_question` -/

theorem matchSubAt_of_ne {pat : List Char} {c : Char} (h : c ≠ '[')
    (l : List Char) : matchSubAt pat (c :: l) = none := by
  simp only [matchSubAt]
  rw [if_neg]
  intro hcontra
  rw [show srcTag = '[' :: "Source:".toList from rfl] at hcontra
  have hc : (c :: l).take 8 = c :: l.take 7 := rfl
  rw [hc] at hcontra
  injection hcontra with h1 _
  exact h h1

theorem matchSubAt_cite {pat : List Char} (n : ℕ) (rest : List Char) :
    matchSubAt pat (renderSeg (.cite n) ++ rest) = none := by
  rw [renderSeg_cite_explicit]
  simp only [matchSubAt]
  rw [if_neg]
  intro h
  rw [show ('[' :: 'c' :: 'i' :: 'd' :: ':' :: (natDigits n ++ (']' :: rest))).take 8 =
      '[' :: 'c' :: 'i' :: 'd' :: ':' :: (natDigits n ++ (']' :: rest)).take 3
      from rfl,
    show srcTag = '[' :: 'S' :: "ource:".toList from rfl] at h
  injection h with _ h
  injection h with h2 _
  exact absurd h2 (by decide)

theorem subSrcF_congr (pat repl : List Char) :
    ∀ (f1 : ℕ) {f2 : ℕ} {l : List Char}, l.length ≤ f1 → l.length ≤ f2 →
      subSrcF pat repl f1 l = subSrcF pat repl f2 l := by
  intro f1
  induction f1 with
  | zero =>
    intro f2 l h1 _
    have hl : l = [] := by
      cases l with
      | nil => rfl
      | cons c cs => simp at h1
    subst hl
    cases f2 <;> rfl
  | succ f ih =>
    intro f2 l h1 h2
    cases l with
    | nil => cases f2 <;> rfl
    | cons c rest =>
      cases f2 with
      | zero => simp at h2
      | succ g =>
        simp only [subSrcF]
        cases hm : matchSubAt pat (c :: rest) with
        | none =>
          show c :: subSrcF pat repl f rest = c :: subSrcF pat repl g rest
          rw [@ih g rest (by simp at h1; omega) (by simp at h2; omega)]
        | some len =>
          show repl ++ subSrcF pat repl f (List.drop (len - 1) rest) =
            repl ++ subSrcF pat repl g (List.drop (len - 1) rest)
          congr 1
          refine ih ?_ ?_
          · have := List.length_drop (len - 1) rest
            simp at h1
            omega
          · have := List.length_drop (len - 1) rest
            simp at h2
            omega

theorem re_sub_cons_of_none {pat repl : List Char} {c : Char} {l : List Char}
    (h : matchSubAt pat (c :: l) = none) :
    re_sub_invalid pat repl (c :: l) = c :: re_sub_invalid pat repl l := by
  show subSrcF pat repl (c :: l).length (c :: l) = _
  rw [show (c :: l).length = l.length + 1 from rfl]
  simp only [subSrcF, h]
  rfl

theorem re_sub_cons_of_some {pat repl : List Char} {c : Char} {l : List Char}
    {len : ℕ} (h : matchSubAt pat (c :: l) = some len) :
    re_sub_invalid pat repl (c :: l) =
      repl ++ re_sub_invalid pat repl (l.drop (len - 1)) := by
  show subSrcF pat repl (c :: l).length (c :: l) = _
  rw [show (c :: l).length = l.length + 1 from rfl]
  simp only [subSrcF, h]
  congr 1
  refine subSrcF_congr pat repl l.length ?_ ?_
  · have := List.length_drop (len - 1) l
    omega
  · exact le_refl _

theorem re_sub_append_nobr {pat repl : List Char} {s : List Char}
    (h : ∀ c ∈ s, c ≠ '[') :
    ∀ l, re_sub_invalid pat repl (s ++ l) = s ++ re_sub_invalid pat repl l := by
  induction s with
  | nil => intro l; rfl
  | cons c s' ih =>
    intro l
    rw [List.cons_append,
      re_sub_cons_of_none (matchSubAt_of_ne (h c (by simp)) _),
      ih (fun x hx => h x (by simp [hx])) l]
    rfl

theorem re_sub_cite {pat repl : List Char} (n : ℕ) (rest : List Char) :
    re_sub_invalid pat repl (renderSeg (.cite n) ++ rest) =
      renderSeg (.cite n) ++ re_sub_invalid pat repl rest := by
  have hm := @matchSubAt_cite pat n rest
  rw [renderSeg_cite_explicit] at hm ⊢
  rw [re_sub_cons_of_none hm]
  have hshape : 'c' :: 'i' :: 'd' :: ':' :: (natDigits n ++ (']' :: rest)) =
      ('c' :: 'i' :: 'd' :: ':' :: (natDigits n ++ [']'])) ++ rest := by simp
  rw [hshape, re_sub_append_nobr (cite_interior_nobr n)]
  have hr0 : renderSeg (.cite n) =
      '[' :: 'c' :: 'i' :: 'd' :: ':' :: (natDigits n ++ [']']) := by
    have := renderSeg_cite_explicit n []
    rwa [List.append_nil] at this
  rw [hr0]
  simp

/-! ## Substring occurrences of `cid:{invalid_id}` in a Source window -/

theorem isPrefixOf_iff (a : List Char) :
    ∀ b, a.isPrefixOf b = true ↔ ∃ t, b = a ++ t := by
  induction a with
  | nil =>
    intro b
    simp [List.isPrefixOf]
  | cons x xs ih =>
    intro b
    cases b with
    | nil => simp [List.isPrefixOf]
    | cons y ys =>
      simp only [List.isPrefixOf, Bool.and_eq_true, beq_iff_eq, ih,
        List.cons_append, List.cons.injEq]
      constructor
      · rintro ⟨rfl, t, rfl⟩
        exact ⟨t, rfl, rfl⟩
      · rintro ⟨t, h1, h2⟩
        subst h1
        exact ⟨rfl, t, h2⟩

theorem isPrefixOf_append_cancel (s : List Char) :
    ∀ a b, (s ++ a).isPrefixOf (s ++ b) = a.isPrefixOf b := by
  induction s with
  | nil => intro a b; rfl
  | cons c s' ih =>
    intro a b
    simp only [List.cons_append, List.isPrefixOf, beq_self_eq_true,
      Bool.true_and]
    exact ih a b

theorem colon_not_in_take3_append {xs ys : List Char} (hx : ':' ∉ xs)
    (hy : ':' ∉ ys.take 3) : ':' ∉ (xs ++ ys).take 3 := by
  intro hmem
  rw [List.take_append_eq_append_take] at hmem
  rcases List.mem_append.1 hmem with h | h
  · exact hx (List.mem_of_mem_take h)
  · have hsub : ys.take (3 - xs.length) = (ys.take 3).take (3 - xs.length) := by
      rw [List.take_take]
      congr 1
      omega
    rw [hsub] at h
    exact hy (List.mem_of_mem_take h)

theorem hasSubstring_here {pat : List Char} :
    ∀ {l : List Char}, pat.isPrefixOf l = true →
      ∀ s, hasSubstring pat (s ++ l) = true := by
  intro l h s
  induction s with
  | nil =>
    cases l with
    | nil =>
      obtain ⟨t, ht⟩ := (isPrefixOf_iff pat []).1 h
      have hp : pat = [] := by
        rcases List.append_eq_nil.1 ht.symm with ⟨h1, _⟩
        exact h1
      simp [hasSubstring, hp]
    | cons c rest => simp [hasSubstring, h]
  | cons c s' ih => simp [hasSubstring, ih]

theorem hasSubstring_false_of_no_colon (i : ℕ) :
    ∀ (l : List Char), ':' ∉ l.drop 3 →
      hasSubstring ("cid:".toList ++ natDigits i) l = false := by
  intro l
  induction l with
  | nil =>
    intro _
    simp [hasSubstring]
  | cons c rest ih =>
    intro h
    have hp : ("cid:".toList ++ natDigits i).isPrefixOf (c :: rest) = false := by
      cases hq : ("cid:".toList ++ natDigits i).isPrefixOf (c :: rest) with
      | false => rfl
      | true =>
        obtain ⟨t, ht⟩ := (isPrefixOf_iff _ _).1 hq
        have hmem : ':' ∈ (c :: rest).drop 3 := by
          rw [ht]
          show ':' ∈ ':' :: (natDigits i ++ t)
          simp
        exact absurd hmem h
    have hrest : hasSubstring ("cid:".toList ++ natDigits i) rest = false := by
      refine ih ?_
      intro hmem
      refine h ?_
      show ':' ∈ rest.drop 2
      have : rest.drop 3 = (rest.drop 2).drop 1 := by
        rw [List.drop_drop]
      rw [this] at hmem
      exact List.mem_of_mem_drop hmem
    show (("cid:".toList ++ natDigits i).isPrefixOf (c :: rest) ||
      hasSubstring ("cid:".toList ++ natDigits i) rest) = false
    rw [hp, hrest]
    rfl

theorem hasSubstring_append_no_colon (i : ℕ) :
    ∀ (xs ys : List Char), ':' ∉ xs → ':' ∉ ys.take 3 →
      hasSubstring ("cid:".toList ++ natDigits i) (xs ++ ys) =
        hasSubstring ("cid:".toList ++ natDigits i) ys := by
  intro xs
  induction xs with
  | nil => intro ys _ _; rfl
  | cons x xs' ih =>
    intro ys hx hy
    rw [List.cons_append]
    have hp : ("cid:".toList ++ natDigits i).isPrefixOf (x :: (xs' ++ ys)) =
        false := by
      cases hq : ("cid:".toList ++ natDigits i).isPrefixOf (x :: (xs' ++ ys)) with
      | false => rfl
      | true =>
        obtain ⟨t, ht⟩ := (isPrefixOf_iff _ _).1 hq
        have htk := congrArg (List.take 4) ht
        rw [show List.take 4 ("cid:".toList ++ natDigits i ++ t) =
            ['c', 'i', 'd', ':'] from rfl] at htk
        have hmem : ':' ∈ (x :: (xs' ++ ys)).take 4 := by
          rw [htk]
          decide
        rw [show ((x :: (xs' ++ ys)).take 4) = x :: (xs' ++ ys).take 3
          from rfl] at hmem
        rcases List.mem_cons.1 hmem with hx' | hmem'
        · exact absurd hx'.symm (fun hc => hx (by rw [← hc]; simp))
        · exact False.elim (colon_not_in_take3_append
            (fun hc => hx (by simp [hc])) hy hmem')
    have hrest := ih ys (fun hc => hx (by simp [hc])) hy
    show (("cid:".toList ++ natDigits i).isPrefixOf (x :: (xs' ++ ys)) ||
      hasSubstring ("cid:".toList ++ natDigits i) (xs' ++ ys)) = _
    rw [hp, hrest]
    simp

theorem hasSubstring_block (i n : ℕ) :
    hasSubstring ("cid:".toList ++ natDigits i) ("cid:".toList ++ natDigits n) =
      (natDigits i).isPrefixOf (natDigits n) := by
  rw [show hasSubstring ("cid:".toList ++ natDigits i)
      ("cid:".toList ++ natDigits n) =
      (("cid:".toList ++ natDigits i).isPrefixOf ("cid:".toList ++ natDigits n) ||
        hasSubstring ("cid:".toList ++ natDigits i) ("id:".toList ++ natDigits n))
      from rfl]
  rw [hasSubstring_false_of_no_colon i ("id:".toList ++ natDigits n)
    (by
      rw [show ("id:".toList ++ natDigits n).drop 3 = natDigits n from rfl]
      intro hmem
      exact (digit_ne (natDigits_digit n ':' hmem)).2.2.1 rfl)]
  rw [isPrefixOf_append_cancel]
  simp

theorem matchSubAt_source_single (f : List Char)
    (hf : ∀ c ∈ f, c ≠ ']' ∧ c ≠ ':') (i n : ℕ) (rest : List Char) :
    matchSubAt ("cid:".toList ++ natDigits i)
        (renderSeg (.source f [n]) ++ rest) =
      if (natDigits i).isPrefixOf (natDigits n) = true then
        some ((renderSeg (.source f [n])).length)
      else none := by
  have hsh := renderSource_shape f [n] rest
  rw [hsh]
  have ht8 : (srcTag ++ ((' ' :: (f ++ (' ' :: '|' :: ' ' :: cidBlocks [n]))) ++
      (']' :: rest))).take 8 = srcTag := by
    rw [show (8 : ℕ) = srcTag.length from rfl, List.take_left]
  have hd8 : (srcTag ++ ((' ' :: (f ++ (' ' :: '|' :: ' ' :: cidBlocks [n]))) ++
      (']' :: rest))).drop 8 =
      (' ' :: (f ++ (' ' :: '|' :: ' ' :: cidBlocks [n]))) ++ (']' :: rest) := by
    rw [show (8 : ℕ) = srcTag.length from rfl, List.drop_left]
  simp only [matchSubAt, ht8, hd8]
  rw [if_pos trivial]
  rw [takeWhile_ne_rb (source_inner_ne_rb f [n] (fun c hc => (hf c hc).1)) rest]
  have hsub : hasSubstring ("cid:".toList ++ natDigits i)
      (' ' :: (f ++ (' ' :: '|' :: ' ' :: cidBlocks [n]))) =
      (natDigits i).isPrefixOf (natDigits n) := by
    have hw : ' ' :: (f ++ (' ' :: '|' :: ' ' :: cidBlocks [n])) =
        (' ' :: (f ++ [' ', '|', ' '])) ++ ("cid:".toList ++ natDigits n) := by
      simp [cidBlocks, joinSep]
    rw [hw, hasSubstring_append_no_colon i _ _ ?_ ?_, hasSubstring_block]
    · intro hmem
      simp only [List.mem_cons, List.mem_append] at hmem
      rcases hmem with h | h | h
      · exact absurd h (by decide)
      · exact (hf ':' h).2 rfl
      · revert h; decide
    · rw [show ("cid:".toList ++ natDigits n).take 3 = ['c', 'i', 'd'] from rfl]
      decide
  rw [hsub]
  have hlen : (renderSeg (.source f [n])).length =
      8 + (' ' :: (f ++ (' ' :: '|' :: ' ' :: cidBlocks [n]))).length + 1 := by
    have h0 := renderSource_shape f [n] []
    rw [List.append_nil] at h0
    rw [h0]
    simp [srcTag]
    omega
  by_cases hpre : (natDigits i).isPrefixOf (natDigits n) = true
  · rw [if_pos ⟨by simp, hpre⟩, if_pos hpre, hlen]
  · rw [if_neg (fun hc => hpre hc.2), if_neg hpre]

set_option maxHeartbeats 1600000 in
theorem re_sub_source_single (f : List Char)
    (hf : ∀ c ∈ f, c ≠ '[' ∧ c ≠ ']' ∧ c ≠ ':' ∧ c ≠ '\n') (i n a0 : ℕ)
    (f0 : List Char) (rest : List Char) :
    re_sub_invalid ("cid:".toList ++ natDigits i)
        (renderSeg (.source f0 [a0])) (renderSeg (.source f [n]) ++ rest) =
      renderSeg (rewriteSegOne i f0 a0 (.source f [n])) ++
        re_sub_invalid ("cid:".toList ++ natDigits i)
          (renderSeg (.source f0 [a0])) rest := by
  have hm := matchSubAt_source_single f
    (fun c hc => ⟨(hf c hc).2.1, (hf c hc).2.2.1⟩) i n rest
  have hr0 : renderSeg (.source f [n]) =
      '[' :: ('S' :: 'o' :: 'u' :: 'r' :: 'c' :: 'e' :: ':' :: ' ' ::
        (f ++ (' ' :: '|' :: ' ' :: (cidBlocks [n] ++ [']'])))) := by
    have h0 := renderSeg_source_explicit f [n] []
    rwa [List.append_nil] at h0
  have hrw : rewriteSegOne i f0 a0 (.source f [n]) =
      if (natDigits i).isPrefixOf (natDigits n) then CiteSeg.source f0 [a0]
      else CiteSeg.source f [n] := by
    simp [rewriteSegOne]
  by_cases hpre : (natDigits i).isPrefixOf (natDigits n) = true
  · rw [if_pos hpre] at hm
    rw [hrw, if_pos hpre]
    rw [renderSeg_source_explicit] at hm ⊢
    rw [re_sub_cons_of_some hm]
    congr 1
    have hsplit : 'S' :: 'o' :: 'u' :: 'r' :: 'c' :: 'e' :: ':' :: ' ' ::
        (f ++ (' ' :: '|' :: ' ' :: (cidBlocks [n] ++ (']' :: rest)))) =
        ('S' :: 'o' :: 'u' :: 'r' :: 'c' :: 'e' :: ':' :: ' ' ::
          (f ++ (' ' :: '|' :: ' ' :: (cidBlocks [n] ++ [']'])))) ++ rest := by
      simp
    rw [hsplit]
    rw [show (renderSeg (.source f [n])).length - 1 =
        ('S' :: 'o' :: 'u' :: 'r' :: 'c' :: 'e' :: ':' :: ' ' ::
          (f ++ (' ' :: '|' :: ' ' :: (cidBlocks [n] ++ [']'])))).length from by
      rw [hr0]; simp]
    rw [List.drop_left]
  · rw [if_neg hpre] at hm
    rw [hrw, if_neg hpre]
    rw [renderSeg_source_explicit] at hm ⊢
    rw [re_sub_cons_of_none hm]
    have hshape : 'S' :: 'o' :: 'u' :: 'r' :: 'c' :: 'e' :: ':' :: ' ' ::
        (f ++ (' ' :: '|' :: ' ' :: (cidBlocks [n] ++ (']' :: rest)))) =
        ('S' :: 'o' :: 'u' :: 'r' :: 'c' :: 'e' :: ':' :: ' ' ::
          (f ++ (' ' :: '|' :: ' ' :: (cidBlocks [n] ++ [']'])))) ++ rest := by
      simp
    have hnobr : ∀ c ∈ 'S' :: 'o' :: 'u' :: 'r' :: 'c' :: 'e' :: ':' :: ' ' ::
        (f ++ (' ' :: '|' :: ' ' :: (cidBlocks [n] ++ [']']))), c ≠ '[' := by
      intro c hc
      have hcase : c = 'S' ∨ c = 'o' ∨ c = 'u' ∨ c = 'r' ∨ c = 'c' ∨ c = 'e' ∨
          c = ':' ∨ c = ' ' ∨ c ∈ f ∨ c = '|' ∨ c ∈ cidBlocks [n] ∨
          c = ']' := by
        simp only [List.mem_cons, List.mem_append, List.mem_singleton,
          List.not_mem_nil, or_false] at hc
        tauto
      rcases hcase with h | h | h | h | h | h | h | h | h | h | h | h
      · subst h; decide
      · subst h; decide
      · subst h; decide
      · subst h; decide
      · subst h; decide
      · subst h; decide
      · subst h; decide
      · subst h; decide
      · exact (hf c h).1
      · subst h; decide
      · exact (cidBlocks_ne [n] c h).1
      · subst h; decide
    rw [hshape, re_sub_append_nobr hnobr]
    rw [hr0]
    simp

theorem rewriteSegOne_cases (i : ℕ) (f0 : List Char) (a0 : ℕ) (seg : CiteSeg) :
    rewriteSegOne i f0 a0 seg = seg ∨
      (∃ f ids, seg = CiteSeg.source f ids ∧
        rewriteSegOne i f0 a0 seg = CiteSeg.source f0 [a0]) := by
  cases seg with
  | plain s => exact Or.inl rfl
  | cite n => exact Or.inl rfl
  | source f ids =>
    by_cases hc : (natDigits i).isPrefixOf (natDigits (ids.headD 0)) = true
    · refine Or.inr ⟨f, ids, rfl, ?_⟩
      show (if (natDigits i).isPrefixOf (natDigits (ids.headD 0)) then
        CiteSeg.source f0 [a0] else CiteSeg.source f ids) = CiteSeg.source f0 [a0]
      rw [if_pos hc]
    · refine Or.inl ?_
      show (if (natDigits i).isPrefixOf (natDigits (ids.headD 0)) then
        CiteSeg.source f0 [a0] else CiteSeg.source f ids) = CiteSeg.source f ids
      rw [if_neg hc]

theorem re_sub_para (p : List CiteSeg) (h : ∀ seg ∈ p, wfSeg seg)
    (hsingle : ∀ f ids, CiteSeg.source f ids ∈ p → ∃ m, ids = [m])
    (i a0 : ℕ) (f0 : List Char) (rest : List Char) :
    re_sub_invalid ("cid:".toList ++ natDigits i) (renderSeg (.source f0 [a0]))
        (renderPara p ++ rest) =
      renderPara (p.map (rewriteSegOne i f0 a0)) ++
        re_sub_invalid ("cid:".toList ++ natDigits i)
          (renderSeg (.source f0 [a0])) rest := by
  induction p with
  | nil => simp [renderPara, concatAll]
  | cons seg segs ih =>
    have hr : renderPara (seg :: segs) ++ rest =
        renderSeg seg ++ (renderPara segs ++ rest) := by
      simp [renderPara, concatAll]
    rw [hr]
    have hih := ih (fun s hs => h s (by simp [hs]))
      (fun f ids hmem => hsingle f ids (by simp [hmem]))
    cases seg with
    | plain s =>
      rw [show renderSeg (CiteSeg.plain s) = s from rfl]
      rw [re_sub_append_nobr
        (fun c hc => ((h _ (by simp) : wfSeg (.plain s)) c hc).1), hih]
      simp [renderPara, concatAll, rewriteSegOne, renderSeg]
    | cite n =>
      rw [re_sub_cite, hih]
      simp [renderPara, concatAll, rewriteSegOne]
    | source f ids =>
      obtain ⟨m, rfl⟩ := hsingle f ids (by simp)
      have hwf : wfSeg (CiteSeg.source f [m]) := h _ (by simp)
      rw [re_sub_source_single f hwf.1 i m a0 f0, hih]
      simp [renderPara, concatAll]

theorem re_sub_doc_one (d : List (List CiteSeg)) (h : wfDoc d)
    (hsingle : ∀ p ∈ d, ∀ f ids, CiteSeg.source f ids ∈ p → ∃ m, ids = [m])
    (i a0 : ℕ) (f0 : List Char) :
    re_sub_invalid ("cid:".toList ++ natDigits i) (renderSeg (.source f0 [a0]))
        (renderDoc d) =
      renderDoc (rewriteDocOne i f0 a0 d) := by
  induction d with
  | nil => rfl
  | cons p t ih =>
    cases t with
    | nil =>
      have h0 := re_sub_para p (h p (by simp)).1
        (fun f ids hm => hsingle p (by simp) f ids hm) i a0 f0 []
      rw [List.append_nil] at h0
      have hnil : re_sub_invalid ("cid:".toList ++ natDigits i)
          (renderSeg (.source f0 [a0])) [] = [] := rfl
      rw [hnil, List.append_nil] at h0
      have hrd : renderDoc [p] = renderPara p := by simp [renderDoc, joinSep]
      rw [hrd, h0]
      simp [rewriteDocOne, renderDoc, joinSep]
    | cons q t' =>
      have hr : renderDoc (p :: q :: t') =
          renderPara p ++ ('\n' :: ('\n' :: renderDoc (q :: t'))) := by
        simp [renderDoc, joinSep_cons_cons]
      rw [hr, re_sub_para p (h p (by simp)).1
        (fun f ids hm => hsingle p (by simp) f ids hm) i a0 f0]
      rw [re_sub_cons_of_none (matchSubAt_of_ne (by decide) _),
        re_sub_cons_of_none (matchSubAt_of_ne (by decide) _)]
      rw [ih (fun u hu => h u (by simp [hu]))
        (fun u hu f ids hm => hsingle u (by simp [hu]) f ids hm)]
      have hrd' : renderDoc (rewriteDocOne i f0 a0 (p :: q :: t')) =
          renderPara (p.map (rewriteSegOne i f0 a0)) ++
            ('\n' :: ('\n' :: renderDoc (rewriteDocOne i f0 a0 (q :: t')))) := by
        simp [rewriteDocOne, renderDoc, joinSep_cons_cons]
      rw [hrd']

/-! ## Well-formedness is preserved by the rewrite -/

theorem strip_head_cases {x : List Char} (h : pyStrip x = x) :
    (∀ c, x.head? = some c → isPySpace c = false) ∧
      (∀ c, x.getLast? = some c → isPySpace c = false) := by
  constructor
  · have hl := pyLStrip_of_pyStrip_eq h
    intro c hc
    cases x with
    | nil => simp at hc
    | cons y ys =>
      have hyc : y = c := Option.some.inj hc
      subst hyc
      unfold pyLStrip at hl
      cases hpy : isPySpace y with
      | false => rfl
      | true =>
        rw [List.dropWhile_cons, hpy, if_pos rfl] at hl
        have hle : (List.dropWhile isPySpace ys).length ≤ ys.length :=
          (List.dropWhile_sublist _).length_le
        have := congrArg List.length hl
        simp at this
        omega
  · have hr := pyRStrip_of_pyStrip_eq h
    intro c hc
    unfold pyRStrip at hr
    have hrev : x.reverse.dropWhile isPySpace = x.reverse := by
      have := congrArg List.reverse hr
      rwa [List.reverse_reverse] at this
    have hhead : x.reverse.head? = some c := by
      rw [List.head?_reverse]
      exact hc
    cases hx : x.reverse with
    | nil => rw [hx] at hhead; simp at hhead
    | cons y ys =>
      rw [hx] at hhead hrev
      have hyc : y = c := Option.some.inj hhead
      subst hyc
      cases hpy : isPySpace y with
      | false => rfl
      | true =>
        rw [List.dropWhile_cons, hpy, if_pos rfl] at hrev
        have hle : (List.dropWhile isPySpace ys).length ≤ ys.length :=
          (List.dropWhile_sublist _).length_le
        have := congrArg List.length hrev
        simp at this
        omega

theorem renderSeg_source_ne (f : List Char) (ids : List ℕ) :
    renderSeg (.source f ids) ≠ [] := by
  have h0 := renderSeg_source_explicit f ids []
  rw [List.append_nil] at h0
  rw [h0]
  simp

theorem renderSeg_source_head (f : List Char) (ids : List ℕ) :
    (renderSeg (.source f ids)).head? = some '[' := by
  have h0 := renderSeg_source_explicit f ids []
  rw [List.append_nil] at h0
  rw [h0]
  rfl

theorem renderPara_rw_nil_iff (i a0 : ℕ) (f0 : List Char) :
    ∀ p, renderPara (p.map (rewriteSegOne i f0 a0)) = [] ↔ renderPara p = [] := by
  intro p
  induction p with
  | nil => simp [renderPara, concatAll]
  | cons seg segs ih =>
    have e1 : renderPara ((seg :: segs).map (rewriteSegOne i f0 a0)) =
        renderSeg (rewriteSegOne i f0 a0 seg) ++
          renderPara (segs.map (rewriteSegOne i f0 a0)) := by
      simp [renderPara, concatAll]
    have e2 : renderPara (seg :: segs) = renderSeg seg ++ renderPara segs := by
      simp [renderPara, concatAll]
    have hsegiff : (renderSeg (rewriteSegOne i f0 a0 seg) = []) ↔
        (renderSeg seg = []) := by
      rcases rewriteSegOne_cases i f0 a0 seg with hsame | ⟨f, ids, hseg, hrw⟩
      · rw [hsame]
      · subst hseg
        rw [hrw]
        simp [renderSeg_source_ne]
    rw [e1, e2, List.append_eq_nil, List.append_eq_nil, ih, hsegiff]

theorem renderPara_rw_head (i a0 : ℕ) (f0 : List Char) :
    ∀ p, (∀ c, (renderPara p).head? = some c → isPySpace c = false) →
      ∀ c, (renderPara (p.map (rewriteSegOne i f0 a0))).head? = some c →
        isPySpace c = false := by
  intro p
  induction p with
  | nil => intro h c hc; exact h c hc
  | cons seg segs ih =>
    intro h c hc
    have e1 : renderPara ((seg :: segs).map (rewriteSegOne i f0 a0)) =
        renderSeg (rewriteSegOne i f0 a0 seg) ++
          renderPara (segs.map (rewriteSegOne i f0 a0)) := by
      simp [renderPara, concatAll]
    have e2 : renderPara (seg :: segs) = renderSeg seg ++ renderPara segs := by
      simp [renderPara, concatAll]
    rw [e1] at hc
    rw [e2] at h
    rcases rewriteSegOne_cases i f0 a0 seg with hsame | ⟨f, ids, hseg, hrw⟩
    · rw [hsame] at hc
      cases hsr : renderSeg seg with
      | nil =>
        rw [hsr] at hc h
        simp only [List.nil_append] at hc h
        exact ih h c hc
      | cons y ys =>
        rw [hsr] at hc h
        exact h c hc
    · rw [hrw] at hc
      rw [List.head?_append_of_ne_nil _ (renderSeg_source_ne f0 [a0]),
        renderSeg_source_head] at hc
      have : '[' = c := Option.some.inj hc
      subst this
      decide

theorem renderPara_rw_last (i a0 : ℕ) (f0 : List Char) :
    ∀ p, (∀ c, (renderPara p).getLast? = some c → isPySpace c = false) →
      ∀ c, (renderPara (p.map (rewriteSegOne i f0 a0))).getLast? = some c →
        isPySpace c = false := by
  intro p
  induction p with
  | nil => intro h c hc; exact h c hc
  | cons seg segs ih =>
    intro h c hc
    have e1 : renderPara ((seg :: segs).map (rewriteSegOne i f0 a0)) =
        renderSeg (rewriteSegOne i f0 a0 seg) ++
          renderPara (segs.map (rewriteSegOne i f0 a0)) := by
      simp [renderPara, concatAll]
    have e2 : renderPara (seg :: segs) = renderSeg seg ++ renderPara segs := by
      simp [renderPara, concatAll]
    rw [e1] at hc
    rw [e2] at h
    by_cases hnil : renderPara segs = []
    · have hnil' : renderPara (segs.map (rewriteSegOne i f0 a0)) = [] :=
        (renderPara_rw_nil_iff i a0 f0 segs).2 hnil
      rw [hnil', List.append_nil] at hc
      rw [hnil, List.append_nil] at h
      rcases rewriteSegOne_cases i f0 a0 seg with hsame | ⟨f, ids, hseg, hrw⟩
      · rw [hsame] at hc
        exact h c hc
      · rw [hrw, renderSeg_source_getLast] at hc
        have : ']' = c := Option.some.inj hc
        subst this
        decide
    · have hnil' : renderPara (segs.map (rewriteSegOne i f0 a0)) ≠ [] :=
        fun hcon => hnil ((renderPara_rw_nil_iff i a0 f0 segs).1 hcon)
      obtain ⟨cl, hcl⟩ := Option.isSome_iff_exists.1
        (List.getLast?_isSome.2 hnil')
      rw [List.getLast?_append, hcl] at hc
      simp only [Option.or_some] at hc
      have hcc : cl = c := Option.some.inj (hcl.symm ▸ hc)
      refine ih ?_ c ?_
      · intro c' hc'
        refine h c' ?_
        rw [List.getLast?_append, hc']
        rfl
      · rw [hcl, hcc]

theorem wfPara_rewriteOne (i a0 : ℕ) (f0 : List Char)
    (hf0 : ∀ c ∈ f0, c ≠ '[' ∧ c ≠ ']' ∧ c ≠ ':' ∧ c ≠ '\n')
    {p : List CiteSeg} (h : wfPara p) :
    wfPara (p.map (rewriteSegOne i f0 a0)) := by
  obtain ⟨hsegs, hne, hstrip⟩ := h
  obtain ⟨hhead, hlast⟩ := strip_head_cases hstrip
  refine ⟨?_, ?_, ?_⟩
  · intro seg hseg
    rcases List.mem_map.1 hseg with ⟨s0, hs0, rfl⟩
    rcases rewriteSegOne_cases i f0 a0 s0 with hsame | ⟨f, ids, hs, hrw⟩
    · rw [hsame]; exact hsegs s0 hs0
    · rw [hrw]; exact ⟨hf0, by simp⟩
  · intro hcon
    exact hne ((renderPara_rw_nil_iff i a0 f0 p).1 hcon)
  · rw [pyStrip, pyLStrip_eq_self (renderPara_rw_head i a0 f0 p hhead)]
    exact pyRStrip_eq_self (renderPara_rw_last i a0 f0 p hlast)

theorem wfDoc_rewriteDocOne (i a0 : ℕ) (f0 : List Char)
    (hf0 : ∀ c ∈ f0, c ≠ '[' ∧ c ≠ ']' ∧ c ≠ ':' ∧ c ≠ '\n')
    {d : List (List CiteSeg)} (h : wfDoc d) :
    wfDoc (rewriteDocOne i f0 a0 d) := by
  intro p hp
  rcases List.mem_map.1 hp with ⟨p0, hp0, rfl⟩
  exact wfPara_rewriteOne i a0 f0 hf0 (h p0 hp0)

theorem single_rewriteDocOne (i a0 : ℕ) (f0 : List Char)
    {d : List (List CiteSeg)}
    (h : ∀ p ∈ d, ∀ f ids, CiteSeg.source f ids ∈ p → ∃ m, ids = [m]) :
    ∀ p ∈ rewriteDocOne i f0 a0 d, ∀ f ids, CiteSeg.source f ids ∈ p →
      ∃ m, ids = [m] := by
  intro p hp f ids hmem
  rcases List.mem_map.1 hp with ⟨p0, hp0, rfl⟩
  rcases List.mem_map.1 hmem with ⟨s0, hs0, hs0eq⟩
  rcases rewriteSegOne_cases i f0 a0 s0 with hsame | ⟨f', ids', hs, hrw⟩
  · rw [hsame] at hs0eq
    exact h p0 hp0 f ids (hs0eq ▸ hs0)
  · rw [hrw] at hs0eq
    injection hs0eq with _ h2
    exact ⟨a0, h2.symm⟩

theorem segIdsFound_rw (i a0 : ℕ) (f0 : List Char) (seg : CiteSeg) :
    segIdsFound (rewriteSegOne i f0 a0 seg) = segIdsFound seg ∨
      segIdsFound (rewriteSegOne i f0 a0 seg) = [a0] := by
  rcases rewriteSegOne_cases i f0 a0 seg with hsame | ⟨f, ids, hs, hrw⟩
  · rw [hsame]; exact Or.inl rfl
  · rw [hrw]; exact Or.inr rfl

theorem paraIdsFound_rw_ne (i a0 : ℕ) (f0 : List Char) :
    ∀ {p : List CiteSeg}, paraIdsFound p ≠ [] →
      paraIdsFound (p.map (rewriteSegOne i f0 a0)) ≠ [] := by
  intro p
  induction p with
  | nil => intro h; exact h
  | cons seg segs ih =>
    intro h
    have e1 : paraIdsFound ((seg :: segs).map (rewriteSegOne i f0 a0)) =
        segIdsFound (rewriteSegOne i f0 a0 seg) ++
          paraIdsFound (segs.map (rewriteSegOne i f0 a0)) := by
      simp [paraIdsFound]
    have e2 : paraIdsFound (seg :: segs) =
        segIdsFound seg ++ paraIdsFound segs := by
      simp [paraIdsFound]
    rw [e2] at h
    rw [e1]
    intro hcon
    rcases List.append_eq_nil.1 hcon with ⟨h1, h2⟩
    refine h ?_
    rcases segIdsFound_rw i a0 f0 seg with hs | hs
    · rw [hs] at h1
      rw [h1, List.nil_append]
      by_contra htail
      exact ih htail h2
    · rw [hs] at h1
      simp at h1

theorem paraIdsFound_rw_mem (i a0 : ℕ) (f0 : List Char) :
    ∀ {p : List CiteSeg} {n : ℕ},
      n ∈ paraIdsFound (p.map (rewriteSegOne i f0 a0)) →
        n ∈ paraIdsFound p ∨ n = a0 := by
  intro p
  induction p with
  | nil => intro n hn; exact Or.inl hn
  | cons seg segs ih =>
    intro n hn
    have e1 : paraIdsFound ((seg :: segs).map (rewriteSegOne i f0 a0)) =
        segIdsFound (rewriteSegOne i f0 a0 seg) ++
          paraIdsFound (segs.map (rewriteSegOne i f0 a0)) := by
      simp [paraIdsFound]
    have e2 : paraIdsFound (seg :: segs) =
        segIdsFound seg ++ paraIdsFound segs := by
      simp [paraIdsFound]
    rw [e1] at hn
    rw [e2]
    rcases List.mem_append.1 hn with h | h
    · rcases segIdsFound_rw i a0 f0 seg with hs | hs
      · rw [hs] at h
        exact Or.inl (List.mem_append.2 (Or.inl h))
      · rw [hs] at h
        rw [List.mem_singleton] at h
        exact Or.inr h
    · rcases ih h with h' | h'
      · exact Or.inl (List.mem_append.2 (Or.inr h'))
      · exact Or.inr h'

/-! ## Assembling the C4 rewrite -/

theorem mem_paraIdsFound_iff (n : ℕ) (p : List CiteSeg) :
    n ∈ paraIdsFound p ↔ ∃ seg ∈ p, n ∈ segIdsFound seg := by
  simp only [paraIdsFound, List.mem_flatten, List.mem_map]
  constructor
  · rintro ⟨l, ⟨seg, hseg, rfl⟩, hn⟩
    exact ⟨seg, hseg, hn⟩
  · rintro ⟨seg, hseg, hn⟩
    exact ⟨segIdsFound seg, ⟨seg, hseg, rfl⟩, hn⟩

theorem mem_found_render (d : List (List CiteSeg)) (h : wfDoc d) (A : List ℤ)
    (mu : ℕ) (rpp : Bool) (n : ℕ) :
    n ∈ (validate_citations_detailed (renderDoc d) A mu rpp).2.found_citations ↔
      ∃ p ∈ d, n ∈ paraIdsFound p := by
  rw [validate_snd_found, mem_sortedNats, per_paragraph_render d h,
    List.mem_flatten]
  constructor
  · rintro ⟨el, hel, hn⟩
    obtain ⟨p, hp, rfl⟩ := List.mem_map.1 hel
    exact ⟨p, hp, (mem_sortedNats n _).1 hn⟩
  · rintro ⟨p, hp, hn⟩
    exact ⟨sortedNats (paraIdsFound p), List.mem_map_of_mem _ hp,
      (mem_sortedNats n _).2 hn⟩

theorem missing_nil_render (d : List (List CiteSeg)) (h : wfDoc d) (A : List ℤ)
    (mu : ℕ) (hcited : ∀ p ∈ d, paraIdsFound p ≠ []) :
    (validate_citations_detailed (renderDoc d) A mu true).2.missing_paragraphs =
      [] := by
  rw [validate_snd_missing, if_pos rfl, List.map_eq_nil_iff,
    List.filter_eq_nil_iff]
  intro pr hpr
  have hsnd : pr.2 ∈ (split_paragraphs (renderDoc d)).map extract_citations := by
    have := List.mem_map_of_mem Prod.snd hpr
    rwa [List.enum_map_snd] at this
  rw [per_paragraph_render d h] at hsnd
  obtain ⟨p, hp, hpe⟩ := List.mem_map.1 hsnd
  simp only [decide_eq_true_eq]
  rw [← hpe]
  intro hcon
  exact hcited p hp ((sortedNats_eq_nil_iff _).1 hcon)

theorem isPrefixOf_refl (a : List Char) : a.isPrefixOf a = true :=
  (isPrefixOf_iff a a).2 ⟨[], (List.append_nil a).symm⟩

theorem rewrite_invalid_render (f0 : List Char) (a0 : ℕ) :
    ∀ (I : List ℕ) (d : List (List CiteSeg)), wfDoc d →
      (∀ p ∈ d, ∀ f ids, CiteSeg.source f ids ∈ p → ∃ m, ids = [m]) →
      (∀ c ∈ f0, c ≠ '[' ∧ c ≠ ']' ∧ c ≠ ':' ∧ c ≠ '\n') →
      ∀ (A' : List ℤ), A' ≠ [] → A'.headD 0 = (a0 : ℤ) →
      rewrite_invalid_citations (renderDoc d) I A' f0 =
        renderDoc (I.foldl (fun dd i => rewriteDocOne i f0 a0 dd) d) := by
  intro I
  induction I with
  | nil =>
    intro d _ _ _ A' _ _
    rfl
  | cons i I' ih =>
    intro d hwf hsingle hf0 A' hA hhead
    show List.foldl _ (renderDoc d) (i :: I') = _
    rw [List.foldl_cons]
    have hstep : (if A' ≠ [] then
        re_sub_invalid ("cid:".toList ++ natDigits i)
          (mkCiteToken f0 (A'.headD 0)) (renderDoc d)
      else renderDoc d) = renderDoc (rewriteDocOne i f0 a0 d) := by
      rw [if_pos hA, hhead, mkCiteToken_eq_renderSeg,
        re_sub_doc_one d hwf hsingle i a0 f0]
    show List.foldl _ (if A' ≠ [] then
        re_sub_invalid ("cid:".toList ++ natDigits i)
          (mkCiteToken f0 (A'.headD 0)) (renderDoc d)
      else renderDoc d) I' = _
    rw [hstep]
    rw [show List.foldl (fun dd i => rewriteDocOne i f0 a0 dd) d (i :: I') =
      List.foldl (fun dd i => rewriteDocOne i f0 a0 dd)
        (rewriteDocOne i f0 a0 d) I' from rfl]
    exact ih (rewriteDocOne i f0 a0 d)
      (wfDoc_rewriteDocOne i a0 f0 hf0 hwf)
      (single_rewriteDocOne i a0 f0 hsingle) hf0 A' hA hhead

theorem mem_map_rw_cases (i a0 : ℕ) (f0 : List Char) (p : List CiteSeg)
    (hsingle : ∀ f ids, CiteSeg.source f ids ∈ p → ∃ m, ids = [m]) :
    (∀ n, CiteSeg.cite n ∈ p.map (rewriteSegOne i f0 a0) →
      CiteSeg.cite n ∈ p) ∧
    (∀ f m, CiteSeg.source f [m] ∈ p.map (rewriteSegOne i f0 a0) →
      m = a0 ∨ (CiteSeg.source f [m] ∈ p ∧
        (natDigits i).isPrefixOf (natDigits m) = false)) := by
  constructor
  · intro n hmem
    rcases List.mem_map.1 hmem with ⟨s0, hs0, heq⟩
    cases s0 with
    | plain s =>
      rw [show rewriteSegOne i f0 a0 (CiteSeg.plain s) = CiteSeg.plain s
        from rfl] at heq
      exact absurd heq (by simp)
    | cite k =>
      rw [show rewriteSegOne i f0 a0 (CiteSeg.cite k) = CiteSeg.cite k
        from rfl] at heq
      rwa [heq] at hs0
    | source f' ids' =>
      obtain ⟨m', rfl⟩ := hsingle f' ids' hs0
      rw [show rewriteSegOne i f0 a0 (CiteSeg.source f' [m']) =
        (if (natDigits i).isPrefixOf (natDigits m') then CiteSeg.source f0 [a0]
         else CiteSeg.source f' [m']) from rfl] at heq
      by_cases hc : (natDigits i).isPrefixOf (natDigits m') = true
      · rw [if_pos hc] at heq
        exact absurd heq (by simp)
      · rw [if_neg hc] at heq
        exact absurd heq (by simp)
  · intro f m hmem
    rcases List.mem_map.1 hmem with ⟨s0, hs0, heq⟩
    cases s0 with
    | plain s =>
      rw [show rewriteSegOne i f0 a0 (CiteSeg.plain s) = CiteSeg.plain s
        from rfl] at heq
      exact absurd heq (by simp)
    | cite k =>
      rw [show rewriteSegOne i f0 a0 (CiteSeg.cite k) = CiteSeg.cite k
        from rfl] at heq
      exact absurd heq (by simp)
    | source f' ids' =>
      obtain ⟨m', rfl⟩ := hsingle f' ids' hs0
      rw [show rewriteSegOne i f0 a0 (CiteSeg.source f' [m']) =
        (if (natDigits i).isPrefixOf (natDigits m') then CiteSeg.source f0 [a0]
         else CiteSeg.source f' [m']) from rfl] at heq
      by_cases hc : (natDigits i).isPrefixOf (natDigits m') = true
      · rw [if_pos hc] at heq
        left
        injection heq with _ h2
        injection h2 with h3 _
        exact h3.symm
      · rw [if_neg hc] at heq
        right
        have hcf : (natDigits i).isPrefixOf (natDigits m') = false := by
          cases h : (natDigits i).isPrefixOf (natDigits m') with
          | false => rfl
          | true => exact absurd h hc
        injection heq with h1 h2
        injection h2 with h3 _
        subst h1
        subst h3
        exact ⟨hs0, hcf⟩

/-- The net effect of folding the per-invalid-id `re.sub` rewrites over a
structured document: the result is still well-formed, non-empty, every
paragraph keeps a citation, and — provided the queued ids are
prefix-distinguishable from all document ids and from the replacement id —
every id recognised in the result is allowed. -/
theorem foldl_rewrite_final (f0 : List Char)
    (hf0 : ∀ c ∈ f0, c ≠ '[' ∧ c ≠ ']' ∧ c ≠ ':' ∧ c ≠ '\n')
    (a0 : ℕ) (A : List ℕ) (ha0 : a0 ∈ A) :
    ∀ (I : List ℕ) (dd : List (List CiteSeg)), wfDoc dd →
      (∀ p ∈ dd, ∀ f ids, CiteSeg.source f ids ∈ p → ∃ m, ids = [m]) →
      (∀ p ∈ dd, ∀ n, CiteSeg.cite n ∈ p → n ∈ A) →
      (∀ p ∈ dd, ∀ f m, CiteSeg.source f [m] ∈ p → m ∈ A ∨ m ∈ I) →
      (∀ i ∈ I, ∀ p ∈ dd, ∀ f m, CiteSeg.source f [m] ∈ p →
        (natDigits i).isPrefixOf (natDigits m) = true → i = m) →
      (∀ i ∈ I, (natDigits i).isPrefixOf (natDigits a0) = true → i = a0) →
      (∀ p ∈ dd, paraIdsFound p ≠ []) → dd ≠ [] →
      wfDoc (I.foldl (fun acc j => rewriteDocOne j f0 a0 acc) dd) ∧
      (I.foldl (fun acc j => rewriteDocOne j f0 a0 acc) dd) ≠ [] ∧
      (∀ p ∈ I.foldl (fun acc j => rewriteDocOne j f0 a0 acc) dd,
        paraIdsFound p ≠ []) ∧
      (∀ p ∈ I.foldl (fun acc j => rewriteDocOne j f0 a0 acc) dd,
        ∀ n ∈ paraIdsFound p, n ∈ A) := by
  intro I
  induction I with
  | nil =>
    intro dd hwf hsingle hcite hsrc _ _ hcited hne
    refine ⟨hwf, hne, hcited, ?_⟩
    intro p hp n hn
    obtain ⟨seg, hseg, hnseg⟩ := (mem_paraIdsFound_iff n p).1 hn
    cases seg with
    | plain s => exact absurd hnseg (by simp [segIdsFound])
    | cite k =>
      rw [show segIdsFound (CiteSeg.cite k) = [k] from rfl] at hnseg
      rw [List.mem_singleton.1 hnseg]
      exact hcite p hp k hseg
    | source f ids =>
      obtain ⟨m, rfl⟩ := hsingle p hp f ids hseg
      rw [show segIdsFound (CiteSeg.source f [m]) = [m] from rfl] at hnseg
      rw [List.mem_singleton.1 hnseg]
      rcases hsrc p hp f m hseg with hA | hcon
      · exact hA
      · exact absurd hcon (by simp)
  | cons i I' ih =>
    intro dd hwf hsingle hcite hsrc hpf ha0pf hcited hne
    rw [List.foldl_cons]
    refine ih (rewriteDocOne i f0 a0 dd)
      (wfDoc_rewriteDocOne i a0 f0 hf0 hwf)
      (single_rewriteDocOne i a0 f0 hsingle) ?_ ?_ ?_ ?_ ?_ ?_
    · intro p hp n hmem
      rcases List.mem_map.1 hp with ⟨p0, hp0, rfl⟩
      exact hcite p0 hp0 n
        ((mem_map_rw_cases i a0 f0 p0 (hsingle p0 hp0)).1 n hmem)
    · intro p hp f m hmem
      rcases List.mem_map.1 hp with ⟨p0, hp0, rfl⟩
      rcases (mem_map_rw_cases i a0 f0 p0 (hsingle p0 hp0)).2 f m hmem with
        ha | ⟨hmem0, hcf⟩
      · rw [ha]
        exact Or.inl ha0
      · rcases hsrc p0 hp0 f m hmem0 with hA | hI
        · exact Or.inl hA
        · rcases List.mem_cons.1 hI with hmi | hmI'
          · exfalso
            rw [hmi, isPrefixOf_refl] at hcf
            exact Bool.noConfusion hcf
          · exact Or.inr hmI'
    · intro j hj p hp f m hmem htrue
      rcases List.mem_map.1 hp with ⟨p0, hp0, rfl⟩
      rcases (mem_map_rw_cases i a0 f0 p0 (hsingle p0 hp0)).2 f m hmem with
        ha | ⟨hmem0, _⟩
      · rw [ha] at htrue ⊢
        exact ha0pf j (List.mem_cons_of_mem i hj) htrue
      · exact hpf j (List.mem_cons_of_mem i hj) p0 hp0 f m hmem0 htrue
    · exact fun j hj => ha0pf j (List.mem_cons_of_mem i hj)
    · intro p hp
      rcases List.mem_map.1 hp with ⟨p0, hp0, rfl⟩
      exact paraIdsFound_rw_ne i a0 f0 (hcited p0 hp0)
    · intro hcon
      unfold rewriteDocOne at hcon
      exact hne (List.map_eq_nil_iff.1 hcon)

theorem mem_map_intOfNat (k : ℕ) (A : List ℕ) :
    ((k : ℤ) ∈ A.map Int.ofNat) ↔ k ∈ A := by
  rw [List.mem_map]
  constructor
  · rintro ⟨a, ha, heq⟩
    have hak : a = k := by
      have : (a : ℤ) = (k : ℤ) := heq
      exact_mod_cast this
    rwa [← hak]
  · intro h
    exact ⟨k, h, rfl⟩

theorem foldl_rwseg_plain (f0 : List Char) (a0 : ℕ) (I : List ℕ)
    (s : List Char) :
    I.foldl (fun t j => rewriteSegOne j f0 a0 t) (CiteSeg.plain s) =
      CiteSeg.plain s := by
  induction I with
  | nil => rfl
  | cons i I' ih => exact ih

theorem foldl_rwseg_cite (f0 : List Char) (a0 : ℕ) (I : List ℕ) (n : ℕ) :
    I.foldl (fun t j => rewriteSegOne j f0 a0 t) (CiteSeg.cite n) =
      CiteSeg.cite n := by
  induction I with
  | nil => rfl
  | cons i I' ih => exact ih

theorem foldl_rwseg_keep (f0 : List Char) (a0 : ℕ) :
    ∀ (I : List ℕ) (f : List Char) (m : ℕ),
      (∀ j ∈ I, (natDigits j).isPrefixOf (natDigits m) = false) →
      I.foldl (fun t j => rewriteSegOne j f0 a0 t) (CiteSeg.source f [m]) =
        CiteSeg.source f [m] := by
  intro I
  induction I with
  | nil => intro f m _; rfl
  | cons i I' ih =>
    intro f m h
    rw [List.foldl_cons]
    have hstep : rewriteSegOne i f0 a0 (CiteSeg.source f [m]) =
        CiteSeg.source f [m] := by
      show (if (natDigits i).isPrefixOf (natDigits m) then
        CiteSeg.source f0 [a0] else CiteSeg.source f [m]) = CiteSeg.source f [m]
      rw [h i (List.mem_cons_self i I')]
      rfl
    rw [hstep]
    exact ih f m (fun j hj => h j (List.mem_cons_of_mem i hj))

theorem foldl_rwseg_source (f0 : List Char) (a0 : ℕ) (A : List ℕ)
    (ha0 : a0 ∈ A) :
    ∀ (I : List ℕ), (∀ j ∈ I, j ∉ A) →
      (∀ j ∈ I, (natDigits j).isPrefixOf (natDigits a0) = true → j = a0) →
      ∀ (f : List Char) (m : ℕ), m ∈ A ∨ m ∈ I →
        (∀ j ∈ I, (natDigits j).isPrefixOf (natDigits m) = true → j = m) →
        I.foldl (fun t j => rewriteSegOne j f0 a0 t) (CiteSeg.source f [m]) =
          if m ∈ A then CiteSeg.source f [m] else CiteSeg.source f0 [a0] := by
  intro I
  induction I with
  | nil =>
    intro _ _ f m hm _
    have hmA : m ∈ A := by
      rcases hm with h | h
      · exact h
      · exact absurd h (by simp)
    rw [if_pos hmA]
    rfl
  | cons i I' ih =>
    intro hIinv ha0pf f m hm hpfm
    rw [List.foldl_cons]
    by_cases hc : (natDigits i).isPrefixOf (natDigits m) = true
    · have him : i = m := hpfm i (List.mem_cons_self i I') hc
      have hmA : m ∉ A := him ▸ hIinv i (List.mem_cons_self i I')
      have hstep : rewriteSegOne i f0 a0 (CiteSeg.source f [m]) =
          CiteSeg.source f0 [a0] := by
        show (if (natDigits i).isPrefixOf (natDigits m) then
          CiteSeg.source f0 [a0] else CiteSeg.source f [m]) =
            CiteSeg.source f0 [a0]
        rw [hc]
        rfl
      rw [hstep, if_neg hmA]
      refine foldl_rwseg_keep f0 a0 I' f0 a0 ?_
      intro j hj
      by_contra hcon
      have hjt : (natDigits j).isPrefixOf (natDigits a0) = true := by
        cases h : (natDigits j).isPrefixOf (natDigits a0) with
        | false => exact absurd h hcon
        | true => rfl
      have := ha0pf j (List.mem_cons_of_mem i hj) hjt
      exact hIinv j (List.mem_cons_of_mem i hj) (this ▸ ha0)
    · have hstep : rewriteSegOne i f0 a0 (CiteSeg.source f [m]) =
          CiteSeg.source f [m] := by
        show (if (natDigits i).isPrefixOf (natDigits m) then
          CiteSeg.source f0 [a0] else CiteSeg.source f [m]) =
            CiteSeg.source f [m]
        rw [if_neg hc]
      rw [hstep]
      refine ih (fun j hj => hIinv j (List.mem_cons_of_mem i hj))
        (fun j hj => ha0pf j (List.mem_cons_of_mem i hj)) f m ?_
        (fun j hj => hpfm j (List.mem_cons_of_mem i hj))
      rcases hm with hA | hI
      · exact Or.inl hA
      · rcases List.mem_cons.1 hI with hmi | hmI'
        · exfalso
          rw [hmi, isPrefixOf_refl] at hc
          exact hc rfl
        · exact Or.inr hmI'

theorem foldl_rewriteDocOne_map (f0 : List Char) (a0 : ℕ) :
    ∀ (I : List ℕ) (d : List (List CiteSeg)),
      I.foldl (fun acc j => rewriteDocOne j f0 a0 acc) d =
        d.map (fun p => p.map
          (fun seg => I.foldl (fun t j => rewriteSegOne j f0 a0 t) seg)) := by
  intro I
  induction I with
  | nil =>
    intro d
    simp
  | cons i I' ih =>
    intro d
    rw [List.foldl_cons, ih (rewriteDocOne i f0 a0 d)]
    unfold rewriteDocOne
    rw [List.map_map]
    refine List.map_congr_left ?_
    intro p _
    rw [Function.comp_apply, List.map_map]
    rfl

/-- Under the completeness and prefix-distinctness hypotheses, folding the
per-invalid-id `re.sub` passes over the document is exactly the spec's
description: each Source bracket with a disallowed id becomes the first
token, everything else is untouched. -/
theorem foldl_rewrite_eq_map (f0 : List Char) (a0 : ℕ) (A : List ℕ)
    (ha0 : a0 ∈ A) (I : List ℕ) (d : List (List CiteSeg))
    (hsingle : ∀ p ∈ d, ∀ f ids, CiteSeg.source f ids ∈ p → ∃ m, ids = [m])
    (hIinv : ∀ j ∈ I, j ∉ A)
    (ha0pf : ∀ j ∈ I, (natDigits j).isPrefixOf (natDigits a0) = true → j = a0)
    (hsrc : ∀ p ∈ d, ∀ f m, CiteSeg.source f [m] ∈ p → m ∈ A ∨ m ∈ I)
    (hpf : ∀ j ∈ I, ∀ p ∈ d, ∀ f m, CiteSeg.source f [m] ∈ p →
      (natDigits j).isPrefixOf (natDigits m) = true → j = m) :
    I.foldl (fun acc j => rewriteDocOne j f0 a0 acc) d =
      d.map (fun p => p.map (rewriteInvalidSeg A f0 a0)) := by
  rw [foldl_rewriteDocOne_map]
  refine List.map_congr_left ?_
  intro p hp
  refine List.map_congr_left ?_
  intro seg hseg
  cases seg with
  | plain s => exact foldl_rwseg_plain f0 a0 I s
  | cite n => exact foldl_rwseg_cite f0 a0 I n
  | source f ids =>
    obtain ⟨m, rfl⟩ := hsingle p hp f ids hseg
    rw [foldl_rwseg_source f0 a0 A ha0 I hIinv ha0pf f m
      (hsrc p hp f m hseg)
      (fun j hj ht => hpf j hj p hp f m hseg ht)]
    show _ = (if [m].headD 0 ∈ A then CiteSeg.source f [m]
      else CiteSeg.source f0 [a0])
    rfl

/-- C4 (amended): on a structured answer whose Source-shaped brackets each
carry one id, with every simple-shape `[cid:N]` id allowed, every paragraph
cited, at least one Source bracket citing a disallowed id, and the
disallowed ids digit-prefix-distinguishable from the other ids in play, the
repair step rewrites exactly the Source brackets with disallowed ids to the
first token `[Source: first_filename | cid:allowed_ids[0]]` (no chat call),
and re-validation reports ok.  Simple-shape invalid citations are *not*
rewritten (see the counterexample), which is why the validity hypothesis on
`cite` segments is required. -/
theorem claim_C4_invalid_id_rewrite
    (d : List (List CiteSeg)) (T : List (List Char)) (a0 : ℕ) (Ar : List ℕ)
    (f0 : List Char) (hwf : wfDoc d)
    (hf0 : ∀ c ∈ f0, c ≠ '[' ∧ c ≠ ']' ∧ c ≠ ':' ∧ c ≠ '\n')
    (hsingle : ∀ p ∈ d, ∀ f ids, CiteSeg.source f ids ∈ p → ∃ m, ids = [m])
    (hcite : ∀ p ∈ d, ∀ n, CiteSeg.cite n ∈ p → n ∈ a0 :: Ar)
    (hcited : ∀ p ∈ d, paraIdsFound p ≠ [])
    (hinv : ∃ p ∈ d, ∃ f m, CiteSeg.source f [m] ∈ p ∧ m ∉ a0 :: Ar)
    (hpf : ∀ i m, (∃ p ∈ d, i ∈ paraIdsFound p) → i ∉ a0 :: Ar →
      ((∃ p ∈ d, m ∈ paraIdsFound p) ∨ m = a0) →
      (natDigits i).isPrefixOf (natDigits m) = true → i = m) :
    repair_citations (renderDoc d) ((a0 :: Ar).map Int.ofNat) T f0 1 true =
      (renderDoc (d.map (fun p => p.map (rewriteInvalidSeg (a0 :: Ar) f0 a0))),
       true,
       (validate_citations_detailed
         (renderDoc (d.map (fun p => p.map (rewriteInvalidSeg (a0 :: Ar) f0 a0))))
         ((a0 :: Ar).map Int.ofNat) 1 true).2) ∧
    (validate_citations_detailed
        (renderDoc (d.map (fun p => p.map (rewriteInvalidSeg (a0 :: Ar) f0 a0))))
        ((a0 :: Ar).map Int.ofNat) 1 true).2.reason = "ok".toList := by
  have hIiff : ∀ j : ℕ, j ∈ (validate_citations_detailed (renderDoc d)
      ((a0 :: Ar).map Int.ofNat) 1 true).2.invalid_ids ↔
      (∃ p ∈ d, j ∈ paraIdsFound p) ∧ j ∉ a0 :: Ar := by
    intro j
    rw [validate_snd_invalid, List.mem_filter]
    have hb : j ∈ sortedNats ((split_paragraphs (renderDoc d)).map
        extract_citations).flatten ↔ ∃ p ∈ d, j ∈ paraIdsFound p := by
      rw [← validate_snd_found (renderDoc d) ((a0 :: Ar).map Int.ofNat) 1 true]
      exact mem_found_render d hwf _ 1 true j
    rw [hb]
    simp only [decide_eq_true_eq]
    rw [mem_map_intOfNat]
  have hIfound : ∀ j ∈ (validate_citations_detailed (renderDoc d)
      ((a0 :: Ar).map Int.ofNat) 1 true).2.invalid_ids,
      ∃ p ∈ d, j ∈ paraIdsFound p :=
    fun j hj => ((hIiff j).1 hj).1
  have hIinv : ∀ j ∈ (validate_citations_detailed (renderDoc d)
      ((a0 :: Ar).map Int.ofNat) 1 true).2.invalid_ids, j ∉ a0 :: Ar :=
    fun j hj => ((hIiff j).1 hj).2
  have hsegfound : ∀ p ∈ d, ∀ f m, CiteSeg.source f [m] ∈ p →
      m ∈ paraIdsFound p := by
    intro p hp f m hmem
    refine (mem_paraIdsFound_iff m p).2 ⟨CiteSeg.source f [m], hmem, ?_⟩
    rw [show segIdsFound (CiteSeg.source f [m]) = [m] from rfl]
    simp
  have hsrc' : ∀ p ∈ d, ∀ f m, CiteSeg.source f [m] ∈ p →
      m ∈ a0 :: Ar ∨ m ∈ (validate_citations_detailed (renderDoc d)
        ((a0 :: Ar).map Int.ofNat) 1 true).2.invalid_ids := by
    intro p hp f m hmem
    by_cases hA : m ∈ a0 :: Ar
    · exact Or.inl hA
    · exact Or.inr ((hIiff m).2 ⟨⟨p, hp, hsegfound p hp f m hmem⟩, hA⟩)
  have hIne : (validate_citations_detailed (renderDoc d)
      ((a0 :: Ar).map Int.ofNat) 1 true).2.invalid_ids ≠ [] := by
    obtain ⟨p, hp, f, m, hmem, hmA⟩ := hinv
    exact List.ne_nil_of_mem
      ((hIiff m).2 ⟨⟨p, hp, hsegfound p hp f m hmem⟩, hmA⟩)
  have hdne : d ≠ [] := by
    obtain ⟨p, hp, _⟩ := hinv
    exact List.ne_nil_of_mem hp
  have hmiss : (validate_citations_detailed (renderDoc d)
      ((a0 :: Ar).map Int.ofNat) 1 true).2.missing_paragraphs = [] :=
    missing_nil_render d hwf ((a0 :: Ar).map Int.ofNat) 1 hcited
  have hok0 : (validate_citations_detailed (renderDoc d)
      ((a0 :: Ar).map Int.ofNat) 1 true).1 = false :=
    validate_false_of_invalid hIne
  have hpf_doc : ∀ i ∈ (validate_citations_detailed (renderDoc d)
      ((a0 :: Ar).map Int.ofNat) 1 true).2.invalid_ids,
      ∀ p ∈ d, ∀ f m, CiteSeg.source f [m] ∈ p →
      (natDigits i).isPrefixOf (natDigits m) = true → i = m := by
    intro i hi p hp f m hmem ht
    exact hpf i m (hIfound i hi) (hIinv i hi)
      (Or.inl ⟨p, hp, hsegfound p hp f m hmem⟩) ht
  have ha0pf' : ∀ j ∈ (validate_citations_detailed (renderDoc d)
      ((a0 :: Ar).map Int.ofNat) 1 true).2.invalid_ids,
      (natDigits j).isPrefixOf (natDigits a0) = true → j = a0 :=
    fun j hj ht => hpf j a0 (hIfound j hj) (hIinv j hj) (Or.inr rfl) ht
  have hfinal := foldl_rewrite_final f0 hf0 a0 (a0 :: Ar)
    (List.mem_cons_self a0 Ar)
    (validate_citations_detailed (renderDoc d)
      ((a0 :: Ar).map Int.ofNat) 1 true).2.invalid_ids
    d hwf hsingle hcite hsrc' hpf_doc ha0pf' hcited hdne
  have hEq : ((validate_citations_detailed (renderDoc d)
      ((a0 :: Ar).map Int.ofNat) 1 true).2.invalid_ids).foldl
      (fun acc j => rewriteDocOne j f0 a0 acc) d =
      d.map (fun p => p.map (rewriteInvalidSeg (a0 :: Ar) f0 a0)) :=
    foldl_rewrite_eq_map f0 a0 (a0 :: Ar) (List.mem_cons_self a0 Ar)
      (validate_citations_detailed (renderDoc d)
        ((a0 :: Ar).map Int.ofNat) 1 true).2.invalid_ids
      d hsingle hIinv ha0pf' hsrc' hpf_doc
  have hrw : rewrite_invalid_citations (renderDoc d)
      (validate_citations_detailed (renderDoc d)
        ((a0 :: Ar).map Int.ofNat) 1 true).2.invalid_ids
      ((a0 :: Ar).map Int.ofNat) f0 =
      renderDoc (((validate_citations_detailed (renderDoc d)
        ((a0 :: Ar).map Int.ofNat) 1 true).2.invalid_ids).foldl
        (fun acc j => rewriteDocOne j f0 a0 acc) d) :=
    rewrite_invalid_render f0 a0
      (validate_citations_detailed (renderDoc d)
        ((a0 :: Ar).map Int.ofNat) 1 true).2.invalid_ids
      d hwf hsingle hf0 ((a0 :: Ar).map Int.ofNat) (by simp) rfl
  have hokF := validate_render_ok
    (((validate_citations_detailed (renderDoc d)
      ((a0 :: Ar).map Int.ofNat) 1 true).2.invalid_ids).foldl
      (fun acc j => rewriteDocOne j f0 a0 acc) d)
    hfinal.1 ((a0 :: Ar).map Int.ofNat) hfinal.2.1 hfinal.2.2.1
    (fun p hp n hn => List.mem_map_of_mem _ (hfinal.2.2.2 p hp n hn))
  rw [hEq] at hokF
  have hok0' : ¬((validate_citations_detailed (renderDoc d)
      ((a0 :: Ar).map Int.ofNat) 1 true).1 = true) := by
    rw [hok0]; simp
  have hmiss' : ¬((validate_citations_detailed (renderDoc d)
      ((a0 :: Ar).map Int.ofNat) 1 true).2.missing_paragraphs ≠ []) := by
    rw [hmiss]; simp
  have hc2 : ((renderDoc d,
      (validate_citations_detailed (renderDoc d)
        ((a0 :: Ar).map Int.ofNat) 1 true).1,
      (validate_citations_detailed (renderDoc d)
        ((a0 :: Ar).map Int.ofNat) 1 true).2) :
        List Char × Bool × CitationReport).2.1 = false ∧
      ((renderDoc d,
      (validate_citations_detailed (renderDoc d)
        ((a0 :: Ar).map Int.ofNat) 1 true).1,
      (validate_citations_detailed (renderDoc d)
        ((a0 :: Ar).map Int.ofNat) 1 true).2) :
        List Char × Bool × CitationReport).2.2.invalid_ids ≠ [] :=
    ⟨hok0, hIne⟩
  simp only [repair_citations]
  rw [if_neg hok0']
  rw [if_neg hmiss']
  rw [if_pos hc2]
  show (rewrite_invalid_citations (renderDoc d)
      (validate_citations_detailed (renderDoc d)
        ((a0 :: Ar).map Int.ofNat) 1 true).2.invalid_ids
      ((a0 :: Ar).map Int.ofNat) f0,
    (validate_citations_detailed
      (rewrite_invalid_citations (renderDoc d)
        (validate_citations_detailed (renderDoc d)
          ((a0 :: Ar).map Int.ofNat) 1 true).2.invalid_ids
        ((a0 :: Ar).map Int.ofNat) f0)
      ((a0 :: Ar).map Int.ofNat) 1 true).1,
    (validate_citations_detailed
      (rewrite_invalid_citations (renderDoc d)
        (validate_citations_detailed (renderDoc d)
          ((a0 :: Ar).map Int.ofNat) 1 true).2.invalid_ids
        ((a0 :: Ar).map Int.ofNat) f0)
      ((a0 :: Ar).map Int.ofNat) 1 true).2) =
    (renderDoc (d.map (fun p => p.map (rewriteInvalidSeg (a0 :: Ar) f0 a0))),
     true,
     (validate_citations_detailed
       (renderDoc (d.map (fun p => p.map (rewriteInvalidSeg (a0 :: Ar) f0 a0))))
       ((a0 :: Ar).map Int.ofNat) 1 true).2) ∧
    (validate_citations_detailed
        (renderDoc (d.map (fun p => p.map (rewriteInvalidSeg (a0 :: Ar) f0 a0))))
        ((a0 :: Ar).map Int.ofNat) 1 true).2.reason = "ok".toList
  rw [hrw, hEq, hokF.1]
  exact ⟨rfl, hokF.2⟩

/-- Witness for C4 (amended), at the spec's own example: the answer
`"[Source: a | cid:999]"` with allowed set `{7}` is repaired to
`"[Source: a | cid:7]"` and re-validation reports ok. -/
theorem claim_C4_invalid_id_rewrite_witness :
    (repair_citations "[Source: a | cid:999]".toList [(7 : ℤ)]
        ["[Source: a | cid:7]".toList] "a".toList 1 true).1 =
      "[Source: a | cid:7]".toList ∧
    (repair_citations "[Source: a | cid:999]".toList [(7 : ℤ)]
        ["[Source: a | cid:7]".toList] "a".toList 1 true).2.1 = true := by
  have hsingle : ∀ p ∈ [[CiteSeg.source "a".toList [999]]],
      ∀ f ids, CiteSeg.source f ids ∈ p → ∃ m, ids = [m] := by
    intro p hp f ids hmem
    rw [List.mem_singleton.1 hp] at hmem
    have := List.mem_singleton.1 hmem
    injection this with _ h2
    exact ⟨999, h2⟩
  have hcite : ∀ p ∈ [[CiteSeg.source "a".toList [999]]],
      ∀ n, CiteSeg.cite n ∈ p → n ∈ [7] := by
    intro p hp n hmem
    rw [List.mem_singleton.1 hp] at hmem
    exact absurd (List.mem_singleton.1 hmem) (by simp)
  have hinv : ∃ p ∈ [[CiteSeg.source "a".toList [999]]],
      ∃ f m, CiteSeg.source f [m] ∈ p ∧ m ∉ [7] :=
    ⟨[CiteSeg.source "a".toList [999]], List.mem_singleton.2 rfl,
      "a".toList, 999, List.mem_singleton.2 rfl, by decide⟩
  have hpf : ∀ i m,
      (∃ p ∈ [[CiteSeg.source "a".toList [999]]], i ∈ paraIdsFound p) →
      i ∉ [7] →
      ((∃ p ∈ [[CiteSeg.source "a".toList [999]]], m ∈ paraIdsFound p) ∨
        m = 7) →
      (natDigits i).isPrefixOf (natDigits m) = true → i = m := by
    intro i m hi _ hm ht
    obtain ⟨p, hp, hip⟩ := hi
    rw [List.mem_singleton.1 hp] at hip
    rw [show paraIdsFound [CiteSeg.source "a".toList [999]] = [999]
      from rfl] at hip
    have hi999 : i = 999 := List.mem_singleton.1 hip
    subst hi999
    rcases hm with ⟨q, hq, hmq⟩ | hm7
    · rw [List.mem_singleton.1 hq] at hmq
      rw [show paraIdsFound [CiteSeg.source "a".toList [999]] = [999]
        from rfl] at hmq
      exact (List.mem_singleton.1 hmq).symm
    · subst hm7
      exact absurd ht (by decide)
  have h := claim_C4_invalid_id_rewrite
    [[CiteSeg.source "a".toList [999]]] ["[Source: a | cid:7]".toList]
    7 [] "a".toList (by decide) (by decide) hsingle hcite (by decide)
    hinv hpf
  have e1 : renderDoc [[CiteSeg.source "a".toList [999]]] =
      "[Source: a | cid:999]".toList := by decide
  have e3 : List.map Int.ofNat [7] = [(7 : ℤ)] := by decide
  rw [e1, e3] at h
  refine ⟨?_, ?_⟩
  · rw [h.1]
    decide
  · rw [h.1]

/-- Counterexample to C4 as stated: the claim promises the rewrite for
either recognized citation shape, but the `re.sub` pattern
`\[Source:[^\]]*cid:{id}[^\]]*\]` only matches Source-shaped brackets.  The
answer `"Claim A. [cid:999]"` with allowed set `{7}` cites 999 in the
simple shape; repair leaves the text unchanged and the validator still
reports not ok. -/
theorem claim_C4_counterexample :
    (repair_citations "Claim A. [cid:999]".toList [(7 : ℤ)]
        ["[Source: a | cid:7]".toList] "a".toList 1 true).1 =
      "Claim A. [cid:999]".toList ∧
    (repair_citations "Claim A. [cid:999]".toList [(7 : ℤ)]
        ["[Source: a | cid:7]".toList] "a".toList 1 true).2.1 = false := by
  exact ⟨by decide, by decide⟩

end HybridRag
